import Mathlib

/-!
# WASMDeck3D: the electrostatic field kernel of `src/c/main.c`

A shallow embedding of the two exported C functions `compute_field` and
`set_charges` together with the two globals `charges` and `field`.

The C code computes in `float`, with one `double` addition (`... + 1e-4`) and one
`double` literal narrowed to `float` (`float k = 8.987551e9`).  The embedding is
parametric in that arithmetic: every primitive the code applies is a field of
`FloatOps`.  Structural results are proved for every choice of the primitives.
`ieeeOps` is the arithmetic the compiled program runs on, IEEE 754 binary32 and
binary64 with rounding, signed zeros, infinities and NaN; the results that depend on
the arithmetic are proved for it.  `realOps` is the exact real-number idealisation of
the same primitives, without rounding and without special values; it is used only where
the statement proved is one that the binary32 program satisfies as well.
-/

namespace WASMDeck3D

/-! ## Data model -/

/-- Source: `#define GRID_WIDTH 20`. -/
def GRID_WIDTH : Nat := 20

/-- Source: `#define GRID_HEIGHT 20`. -/
def GRID_HEIGHT : Nat := 20

/-- The arithmetic primitives used by `main.c`.  `F` stands for C `float`, `D` for C
`double`. -/
structure FloatOps (F D : Type) where
  /-- Conversion `int -> float`: the cast `(float)i` and the promotion of an `int`
  operand of a `float` division. -/
  ofInt : Int → F
  /-- The literal `0.0f`. -/
  zero : F
  /-- The `float` addition. -/
  add : F → F → F
  /-- The `float` subtraction. -/
  sub : F → F → F
  /-- The `float` multiplication. -/
  mul : F → F → F
  /-- The `float` division. -/
  div : F → F → F
  /-- The library function `sqrtf`. -/
  sqrtf : F → F
  /-- Promotion `float -> double` of an operand of a `double` addition. -/
  toDouble : F → D
  /-- The `double` addition. -/
  dadd : D → D → D
  /-- Narrowing `double -> float` on initialisation of a `float` variable. -/
  toFloat : D → F
  /-- The `double` literal `8.987551e9`. -/
  lit_k : D
  /-- The `double` literal `1e-4`. -/
  lit_eps : D

/-- Source: `typedef struct { float x; float y; float q; } Charge;`. -/
structure Charge (F : Type) where
  x : F
  y : F
  q : F

/-- The two globals: `Charge charges[2]` and
`float field[GRID_WIDTH * GRID_HEIGHT * 2]`.  The buffer is a list so that its length
is a property to be established, not a fact of the type. -/
structure State (F : Type) where
  charges : Fin 2 → Charge F
  field : List F

/-- The state at module start: C zero-initialises globals. -/
def init_state {F D : Type} (ops : FloatOps F D) : State F :=
  { charges := fun _ => ⟨ops.zero, ops.zero, ops.zero⟩
    field := List.replicate (GRID_WIDTH * GRID_HEIGHT * 2) ops.zero }

/-! ## `compute_field` -/

/-- Source, line 33: `dx * dx + dy * dy + 1e-4` stored into `float r2`.  The sum of
squares is a `float` expression; adding the `double` literal promotes it, and the
initialisation narrows the `double` sum. -/
def soft_r2 {F D : Type} (ops : FloatOps F D) (dx dy : F) : F :=
  ops.toFloat (ops.dadd (ops.toDouble (ops.add (ops.mul dx dx) (ops.mul dy dy))) ops.lit_eps)

/-- Source, line 21: `float k = 8.987551e9;`. -/
def coulomb_k {F D : Type} (ops : FloatOps F D) : F :=
  ops.toFloat ops.lit_k

/-- Source, lines 31-37: one pass through the body of the `c` loop for the charge
`ch`, from the accumulator `(fx, fy)` to its updated value. -/
def charge_step {F D : Type} (ops : FloatOps F D) (ch : Charge F) (px py : F)
    (acc : F × F) : F × F :=
  let dx := ops.sub px ch.x
  let dy := ops.sub py ch.y
  let r2 := soft_r2 ops dx dy
  let r := ops.sqrtf r2
  let E := ops.div (ops.mul (coulomb_k ops) ch.q) r2
  (ops.add acc.1 (ops.div (ops.mul E dx) r), ops.add acc.2 (ops.div (ops.mul E dy) r))

/-- Source, line 25: `float px = (float)i / GRID_WIDTH;`. -/
def sample_x {F D : Type} (ops : FloatOps F D) (i : Nat) : F :=
  ops.div (ops.ofInt (Int.ofNat i)) (ops.ofInt (Int.ofNat GRID_WIDTH))

/-- Source, line 26: `float py = (float)j / GRID_HEIGHT;`. -/
def sample_y {F D : Type} (ops : FloatOps F D) (j : Nat) : F :=
  ops.div (ops.ofInt (Int.ofNat j)) (ops.ofInt (Int.ofNat GRID_HEIGHT))

/-- Source, lines 25-38: the pair `(fx, fy)` held when the `c` loop of cell `(i, j)`
exits: both accumulators start at `0.0f` and the loop runs `c = 0, 1`. -/
def cell_value {F D : Type} (ops : FloatOps F D) (charges : Fin 2 → Charge F)
    (i j : Nat) : F × F :=
  (List.finRange 2).foldl
    (fun acc c => charge_step ops (charges c) (sample_x ops i) (sample_y ops j) acc)
    (ops.zero, ops.zero)

/-- Source, line 40: `int idx = (j * GRID_WIDTH + i) * 2;`. -/
def cell_index (i j : Nat) : Nat :=
  (j * GRID_WIDTH + i) * 2

/-- An assignment `field[idx] = v`.  A store outside the buffer has no defined
behaviour in C; here it is the error result `none`. -/
def store {F : Type} (s : State F) (idx : Nat) (v : F) : Option (State F) :=
  if idx < s.field.length then some { s with field := s.field.set idx v } else none

/-- Source, lines 25-42: the body of the `i` loop. -/
def cell_body {F D : Type} (ops : FloatOps F D) (j i : Nat) (s : State F) :
    Option (State F) :=
  let f := cell_value ops s.charges i j
  let idx := cell_index i j
  (store s idx f.1).bind (fun s1 => store s1 (idx + 1) f.2)

/-- Source, lines 24-43: the `i` loop of row `j`. -/
def row_loop {F D : Type} (ops : FloatOps F D) (j : Nat) (s : State F) :
    Option (State F) :=
  (List.range GRID_WIDTH).foldlM (fun s i => cell_body ops j i s) s

/-- Source, lines 20-47: `compute_field`.  The returned pointer is the address of the
global `field`, so the result of a call is the state it leaves. -/
def compute_field {F D : Type} (ops : FloatOps F D) (s : State F) : Option (State F) :=
  (List.range GRID_HEIGHT).foldlM (fun s j => row_loop ops j s) s

/-- Source, lines 41-42: the two stores of cell `(i, j)`, each as the pair of the
offset and the value stored there, in program order. -/
def cell_stores {F D : Type} (ops : FloatOps F D) (charges : Fin 2 → Charge F)
    (j i : Nat) : List (Nat × F) :=
  [(cell_index i j, (cell_value ops charges i j).1),
   (cell_index i j + 1, (cell_value ops charges i j).2)]

/-- The stores performed by one call of `compute_field`, in program order: those of
every `i` inside every `j`. -/
def field_stores {F D : Type} (ops : FloatOps F D) (charges : Fin 2 → Charge F) :
    List (Nat × F) :=
  (List.range GRID_HEIGHT).flatMap (fun j =>
    (List.range GRID_WIDTH).flatMap (fun i => cell_stores ops charges j i))

/-! ## `set_charges` -/

/-- An assignment `charges[c].x = v`. -/
def set_x {F : Type} (s : State F) (c : Fin 2) (v : F) : State F :=
  { s with charges := Function.update s.charges c { s.charges c with x := v } }

/-- An assignment `charges[c].y = v`. -/
def set_y {F : Type} (s : State F) (c : Fin 2) (v : F) : State F :=
  { s with charges := Function.update s.charges c { s.charges c with y := v } }

/-- An assignment `charges[c].q = v`. -/
def set_q {F : Type} (s : State F) (c : Fin 2) (v : F) : State F :=
  { s with charges := Function.update s.charges c { s.charges c with q := v } }

/-- Source, lines 50-58: `set_charges`, six assignments in program order. -/
def set_charges {F : Type} (s : State F) (x1 y1 q1 x2 y2 q2 : F) : State F :=
  let s := set_x s 0 x1
  let s := set_y s 0 y1
  let s := set_q s 0 q1
  let s := set_x s 1 x2
  let s := set_y s 1 y2
  set_q s 1 q2

/-! ## Call sequences -/

/-- A call made by the host. -/
inductive Call (F : Type) where
  | set_charges (x1 y1 q1 x2 y2 q2 : F)
  | compute_field

/-- The effect of one call. -/
def call {F D : Type} (ops : FloatOps F D) (s : State F) : Call F → Option (State F)
  | Call.set_charges x1 y1 q1 x2 y2 q2 => some (set_charges s x1 y1 q1 x2 y2 q2)
  | Call.compute_field => compute_field ops s

/-- The effect of a sequence of calls, first call first. -/
def run {F D : Type} (ops : FloatOps F D) (s : State F) (cs : List (Call F)) :
    Option (State F) :=
  cs.foldlM (call ops) s

/-! ## The specification's reference formula -/

/-- The specification's term of one charge at the sample point `(px, py)`:
`dx = px - c.x`, `dy = py - c.y`, `r2 = dx*dx + dy*dy + 1e-4`, `r = sqrt(r2)`,
`E = k*q/r2`, and the term is `(E*dx/r, E*dy/r)`. -/
def coulomb_term {F D : Type} (ops : FloatOps F D) (c : Charge F) (px py : F) : F × F :=
  let dx := ops.sub px c.x
  let dy := ops.sub py c.y
  let r2 := ops.toFloat
    (ops.dadd (ops.toDouble (ops.add (ops.mul dx dx) (ops.mul dy dy))) ops.lit_eps)
  let r := ops.sqrtf r2
  let E := ops.div (ops.mul (ops.toFloat ops.lit_k) c.q) r2
  (ops.div (ops.mul E dx) r, ops.div (ops.mul E dy) r)

/-- The specification's value of cell `(i, j)`: with `px = i/W`, `py = j/H`, the sum of
the two charges' terms accumulated from `(0, 0)`, charge 0 first. -/
def reference_field {F D : Type} (ops : FloatOps F D) (c0 c1 : Charge F) (i j : Nat) :
    F × F :=
  let px := ops.div (ops.ofInt (Int.ofNat i)) (ops.ofInt 20)
  let py := ops.div (ops.ofInt (Int.ofNat j)) (ops.ofInt 20)
  let t0 := coulomb_term ops c0 px py
  let t1 := coulomb_term ops c1 px py
  (ops.add (ops.add ops.zero t0.1) t1.1, ops.add (ops.add ops.zero t0.2) t1.2)

/-! ## Exact real arithmetic -/

/-- The exact reading of the primitives: `float` and `double` are both the real
numbers, conversions are the identity, the operations are those of the field of
reals and `sqrtf` is the real square root.  This is an idealisation, not the arithmetic
of the compiled program: it has no rounding, no overflow, no infinity and no NaN, and
`1e-4` is exactly `1/10000`.  The arithmetic of the program is `ieeeOps`. -/
noncomputable def realOps : FloatOps ℝ ℝ where
  ofInt := fun n => (n : ℝ)
  zero := 0
  add := fun a b => a + b
  sub := fun a b => a - b
  mul := fun a b => a * b
  div := fun a b => a / b
  sqrtf := Real.sqrt
  toDouble := fun a => a
  dadd := fun a b => a + b
  toFloat := fun a => a
  lit_k := 8987551000
  lit_eps := 1 / 10000

/-! ## Binary floating-point arithmetic

The arithmetic the compiled program runs on: IEEE 754 binary32 for C `float` and
binary64 for C `double`, round to nearest with ties to even, with signed zeros,
infinities and one NaN.  A finite datum is a sign, a natural significand `m` and an
integer exponent `e` and stands for `(-1)^sign * m * 2^e`. -/

/-- A floating-point datum: NaN, an infinity, or the finite number
`(-1)^neg * m * 2^e`. -/
inductive Fl where
  | nan
  | inf (neg : Bool)
  | fin (neg : Bool) (m : Nat) (e : Int)
deriving DecidableEq

/-- A binary format: the precision in bits and the least and greatest exponent of the
unit in the last place of a finite number. -/
structure Fmt where
  prec : Nat
  emin : Int
  emax : Int

/-- IEEE 754 binary32, the C type `float`: 24 bits of precision, least subnormal
`2^-149`, greatest finite number `(2^24 - 1) * 2^104`. -/
def binary32 : Fmt := ⟨24, -149, 104⟩

/-- IEEE 754 binary64, the C type `double`: 53 bits of precision, least subnormal
`2^-1074`, greatest finite number `(2^53 - 1) * 2^971`. -/
def binary64 : Fmt := ⟨53, -1074, 971⟩

/-- Auxiliary to `bitlen`: counts the halvings of `n` down to 0, with fuel. -/
def bitlenAux : Nat → Nat → Nat → Nat
  | 0, _, acc => acc
  | f + 1, n, acc => if n = 0 then acc else bitlenAux f (n / 2) (acc + 1)

/-- The number of bits of `n`: the least `L` with `n < 2^L`. -/
def bitlen (n : Nat) : Nat := bitlenAux n n 0

/-- Auxiliary to `isqrt`: decides the bits of the root from bit `b - 1` down. -/
def isqrtAux (n : Nat) : Nat → Nat → Nat
  | 0, r => r
  | b + 1, r =>
    if (r + 2 ^ b) * (r + 2 ^ b) ≤ n then isqrtAux n b (r + 2 ^ b) else isqrtAux n b r

/-- The integer square root: the greatest `r` with `r * r ≤ n`. -/
def isqrt (n : Nat) : Nat := isqrtAux n (bitlen n) 0

/-- The quotient `m / 2^sh` rounded to the nearest integer, ties to even; `sticky`
says that `m` itself was truncated from a larger exact value. -/
def shift_round (m sh : Nat) (sticky : Bool) : Nat :=
  if 2 ^ (sh - 1) < m % 2 ^ sh ∨
      (m % 2 ^ sh = 2 ^ (sh - 1) ∧ (sticky = true ∨ m / 2 ^ sh % 2 = 1)) then
    m / 2 ^ sh + 1
  else m / 2 ^ sh

/-- The datum of sign `neg`, significand `q ≤ 2^prec` and exponent `e`: a zero when
`q = 0`, renormalised when the rounding carried to `2^prec`, an infinity when the
exponent exceeds the format. -/
def Fl.pack (f : Fmt) (neg : Bool) (q : Nat) (e : Int) : Fl :=
  if q = 0 then Fl.fin neg 0 0
  else if q = 2 ^ f.prec then
    (if f.emax < e + 1 then Fl.inf neg else Fl.fin neg (2 ^ (f.prec - 1)) (e + 1))
  else if f.emax < e then Fl.inf neg
  else Fl.fin neg q e

/-- The number `(-1)^neg * m * 2^e` (plus a non-zero part below the last bit of `m`
when `sticky`) rounded to the format `f`, to nearest with ties to even.  The result
has at most `prec` bits and an exponent not below `emin`. -/
def Fl.round (f : Fmt) (neg : Bool) (m : Nat) (e : Int) (sticky : Bool) : Fl :=
  if m = 0 then Fl.fin neg 0 0
  else if max (e + bitlen m - f.prec) f.emin ≤ e then
    Fl.pack f neg (m * 2 ^ (e - max (e + bitlen m - f.prec) f.emin).toNat)
      (max (e + bitlen m - f.prec) f.emin)
  else
    Fl.pack f neg (shift_round m (max (e + bitlen m - f.prec) f.emin - e).toNat sticky)
      (max (e + bitlen m - f.prec) f.emin)

/-- The unary minus: flips the sign, also of a zero and of an infinity. -/
def Fl.neg : Fl → Fl
  | Fl.nan => Fl.nan
  | Fl.inf s => Fl.inf (!s)
  | Fl.fin s m e => Fl.fin (!s) m e

/-- The integer `(-1)^s * m`. -/
def signed (s : Bool) (m : Nat) : Int :=
  if s then -(m : Int) else (m : Int)

/-- The addition of the format `f`.  Infinities of opposite sign give NaN, a zero
operand leaves the other operand, two zeros give `-0` only when both are `-0`, an
exact sum of 0 is `+0`, and any other sum is rounded. -/
def Fl.add (f : Fmt) : Fl → Fl → Fl
  | Fl.nan, _ => Fl.nan
  | _, Fl.nan => Fl.nan
  | Fl.inf a, Fl.inf b => if a = b then Fl.inf a else Fl.nan
  | Fl.inf a, Fl.fin _ _ _ => Fl.inf a
  | Fl.fin _ _ _, Fl.inf b => Fl.inf b
  | Fl.fin s m e, Fl.fin t n k =>
    if m = 0 then (if n = 0 then Fl.fin (s && t) 0 0 else Fl.fin t n k)
    else if n = 0 then Fl.fin s m e
    else if signed s (m * 2 ^ (e - min e k).toNat) + signed t (n * 2 ^ (k - min e k).toNat)
        = 0 then Fl.fin false 0 0
    else
      Fl.round f
        (decide (signed s (m * 2 ^ (e - min e k).toNat) +
          signed t (n * 2 ^ (k - min e k).toNat) < 0))
        (signed s (m * 2 ^ (e - min e k).toNat) +
          signed t (n * 2 ^ (k - min e k).toNat)).natAbs
        (min e k) false

/-- The subtraction of the format `f`: `x - y` is `x + (-y)`. -/
def Fl.sub (f : Fmt) (x y : Fl) : Fl :=
  Fl.add f x y.neg

/-- The multiplication of the format `f`.  The sign is the exclusive or of the signs;
an infinity times a zero is NaN. -/
def Fl.mul (f : Fmt) : Fl → Fl → Fl
  | Fl.nan, _ => Fl.nan
  | _, Fl.nan => Fl.nan
  | Fl.inf a, Fl.inf b => Fl.inf (xor a b)
  | Fl.inf a, Fl.fin t n _ => if n = 0 then Fl.nan else Fl.inf (xor a t)
  | Fl.fin s m _, Fl.inf b => if m = 0 then Fl.nan else Fl.inf (xor s b)
  | Fl.fin s m e, Fl.fin t n k => Fl.round f (xor s t) (m * n) (e + k) false

/-- The division of the format `f`.  `0/0` and `inf/inf` are NaN, a non-zero number
over a zero is an infinity; otherwise the quotient is computed to `prec + 2` bits and
more, with a sticky bit for the remainder, and rounded. -/
def Fl.div (f : Fmt) : Fl → Fl → Fl
  | Fl.nan, _ => Fl.nan
  | _, Fl.nan => Fl.nan
  | Fl.inf _, Fl.inf _ => Fl.nan
  | Fl.inf a, Fl.fin t _ _ => Fl.inf (xor a t)
  | Fl.fin s _ _, Fl.inf b => Fl.fin (xor s b) 0 0
  | Fl.fin s m e, Fl.fin t n k =>
    if n = 0 then (if m = 0 then Fl.nan else Fl.inf (xor s t))
    else
      Fl.round f (xor s t) (m * 2 ^ (f.prec + 2 + bitlen n) / n)
        (e - k - (f.prec + 2 + bitlen n : Nat))
        (decide (m * 2 ^ (f.prec + 2 + bitlen n) % n ≠ 0))

/-- The number of bits by which `Fl.sqrt` scales the significand: at least
`2 * (prec + 2)`, and such that the scaled exponent is even. -/
def sqrt_scale (f : Fmt) (e : Int) : Nat :=
  2 * (f.prec + 2) + (if (e - 2 * (f.prec + 2 : Nat)) % 2 = 0 then 0 else 1)

/-- The square root of the format `f`.  The root of a negative number is NaN, the
root of a zero is that zero; otherwise the integer root of the scaled significand is
taken, with a sticky bit when it is not exact, and rounded. -/
def Fl.sqrt (f : Fmt) : Fl → Fl
  | Fl.nan => Fl.nan
  | Fl.inf s => if s then Fl.nan else Fl.inf false
  | Fl.fin s m e =>
    if m = 0 then Fl.fin s 0 0
    else if s then Fl.nan
    else
      Fl.round f false (isqrt (m * 2 ^ sqrt_scale f e)) ((e - sqrt_scale f e) / 2)
        (decide (isqrt (m * 2 ^ sqrt_scale f e) * isqrt (m * 2 ^ sqrt_scale f e)
          ≠ m * 2 ^ sqrt_scale f e))

/-- The conversion of an integer to the format `f`. -/
def Fl.ofInt (f : Fmt) (i : Int) : Fl :=
  Fl.round f (decide (i < 0)) i.natAbs 0 false

/-- The conversion of a datum to the format `f`, as when a `double` is stored into a
`float`. -/
def Fl.narrow (f : Fmt) : Fl → Fl
  | Fl.nan => Fl.nan
  | Fl.inf s => Fl.inf s
  | Fl.fin s m e => Fl.round f s m e false

/-- The primitives of `main.c` in IEEE 754 arithmetic: `float` is binary32, `double`
is binary64, a `float` is promoted to `double` without change of value, `8.987551e9`
is the integer 8987551000 and `1e-4` is the binary64 number nearest to `1/10000`,
`7378697629483821 * 2^-66`. -/
def ieeeOps : FloatOps Fl Fl where
  ofInt := Fl.ofInt binary32
  zero := Fl.fin false 0 0
  add := Fl.add binary32
  sub := Fl.sub binary32
  mul := Fl.mul binary32
  div := Fl.div binary32
  sqrtf := Fl.sqrt binary32
  toDouble := fun x => x
  dadd := Fl.add binary64
  toFloat := Fl.narrow binary32
  lit_k := Fl.fin false 8987551000 0
  lit_eps := Fl.fin false 7378697629483821 (-66)

/-- The rational value of a finite datum; 0 for NaN and the infinities. -/
def Fl.toRat : Fl → ℚ
  | Fl.nan => 0
  | Fl.inf _ => 0
  | Fl.fin s m e => (if s then -1 else 1) * (m : ℚ) * (2 : ℚ) ^ e

/-- The datum is a finite number: neither NaN nor an infinity. -/
def Fl.is_finite : Fl → Bool
  | Fl.fin _ _ _ => true
  | _ => false

/-- The datum is a zero, `+0` or `-0`. -/
def Fl.is_zero : Fl → Bool
  | Fl.fin _ m _ => decide (m = 0)
  | _ => false

/-! ## Auxiliary definitions for the proofs -/

/-- The value that `compute_field` leaves in slot `k` of the buffer, as a function of
the charges: slot `k` belongs to cell `(k/2 mod W, k/2 div W)` and holds its
x-component when `k` is even, its y-component when `k` is odd. -/
def slot_value {F D : Type} (ops : FloatOps F D) (charges : Fin 2 → Charge F)
    (k : Nat) : F :=
  let v := cell_value ops charges ((k / 2) % GRID_WIDTH) ((k / 2) / GRID_WIDTH)
  if k % 2 = 0 then v.1 else v.2

/-- The loop invariant of `compute_field`: started in `s0`, after the first `n` stores
the charges are untouched, the buffer has kept its length, slots below `n` hold their
final value and the other slots still hold the value they had in `s0`. -/
def written {F D : Type} (ops : FloatOps F D) (s0 : State F) (n : Nat) (s : State F) :
    Prop :=
  s.charges = s0.charges ∧ s.field.length = s0.field.length ∧
    ∀ k, s.field[k]? = if k < n then some (slot_value ops s0.charges k) else s0.field[k]?

/-- The term a charge contributes to a cell: one pass through the body of the `c`
loop from the accumulator `(0.0f, 0.0f)`. -/
def charge_term {F D : Type} (ops : FloatOps F D) (ch : Charge F) (px py : F) : F × F :=
  charge_step ops ch px py (ops.zero, ops.zero)

/-- The square of the Euclidean magnitude of a vector, in exact arithmetic. -/
def mag_sq (v : ℝ × ℝ) : ℝ :=
  v.1 * v.1 + v.2 * v.2

/-- The pair `v` is what the buffer of `t` holds for cell `(i, j)`: its first
component at the cell's offset, its second component one slot further. -/
def stored_at {F : Type} (t : State F) (i j : Nat) (v : F × F) : Prop :=
  t.field[cell_index i j]? = some v.1 ∧ t.field[cell_index i j + 1]? = some v.2

/-- Source, line 31: `float dx = px - charges[c].x;`. -/
def term_dx {F D : Type} (ops : FloatOps F D) (ch : Charge F) (px : F) : F :=
  ops.sub px ch.x

/-- Source, line 32: `float dy = py - charges[c].y;`. -/
def term_dy {F D : Type} (ops : FloatOps F D) (ch : Charge F) (py : F) : F :=
  ops.sub py ch.y

/-- Source, line 33: the value of `r2` for the charge `ch` at the sample point. -/
def term_r2 {F D : Type} (ops : FloatOps F D) (ch : Charge F) (px py : F) : F :=
  soft_r2 ops (term_dx ops ch px) (term_dy ops ch py)

/-- Source, line 34: `float r = sqrtf(r2);`. -/
def term_r {F D : Type} (ops : FloatOps F D) (ch : Charge F) (px py : F) : F :=
  ops.sqrtf (term_r2 ops ch px py)

/-- Source, line 35: `float E = k * charges[c].q / r2;`. -/
def term_E {F D : Type} (ops : FloatOps F D) (ch : Charge F) (px py : F) : F :=
  ops.div (ops.mul (coulomb_k ops) ch.q) (term_r2 ops ch px py)

/-- The vector `(dx/r, dy/r)` that the specification calls the unit displacement
vector. -/
def displacement_over_r {F D : Type} (ops : FloatOps F D) (ch : Charge F) (px py : F) :
    F × F :=
  (ops.div (term_dx ops ch px) (term_r ops ch px py),
   ops.div (term_dy ops ch py) (term_r ops ch px py))

/-- The sign bit of a datum that has one: NaN has none. -/
def Fl.sign_bit : Fl → Option Bool
  | Fl.nan => none
  | Fl.inf s => some s
  | Fl.fin s _ _ => some s

/-- Source, lines 36-37: the pair `(E * dx / r, E * dy / r)` that the body of the `c`
loop adds to the accumulators. -/
def raw_term {F D : Type} (ops : FloatOps F D) (ch : Charge F) (px py : F) : F × F :=
  (ops.div (ops.mul (term_E ops ch px py) (term_dx ops ch px)) (term_r ops ch px py),
   ops.div (ops.mul (term_E ops ch px py) (term_dy ops ch py)) (term_r ops ch px py))

/-- The component `v` of a stored vector agrees in sign with the product of the
magnitude `q` and the displacement component `d`: `v` is NaN, or a zero, or a number
whose sign bit is the exclusive or of the sign bits of `q` and `d`. -/
def Fl.sign_agrees (v q d : Fl) : Prop :=
  v = Fl.nan ∨ v.is_zero = true ∨
    ∃ a b, q.sign_bit = some a ∧ d.sign_bit = some b ∧ v.sign_bit = some (xor a b)

/-- The offsets `a` for which the sample coordinates of `10 - a` and `10 + a` are
mirrored exactly about `0.5` in binary32: `(10 - a)/20 - 0.5` and `(10 + a)/20 - 0.5`,
as computed, are negations of each other. -/
def mirrored_offsets : List Int := [0, 1, -1, 4, -4, 5, -5, 6, -6, 9, -9]

/-- The component `w` is the mirror image of the component `v`: `w = -v`, or both are
zeros, or one of them is a NaN. -/
def Fl.opposite (v w : Fl) : Prop :=
  v = Fl.nan ∨ w = Fl.nan ∨ (v.is_zero = true ∧ w.is_zero = true) ∨ w = v.neg

/-- The datum `x` is at least the positive rational `c`: it is `+inf`, or a finite
number of clear sign bit whose value `m * 2^e` is at least `c`. -/
def Fl.ge (x : Fl) (c : ℚ) : Prop :=
  x = Fl.inf false ∨ ∃ m e, x = Fl.fin false m e ∧ c ≤ (m : ℚ) * (2 : ℚ) ^ e

/-- The datum `x` is a finite number of absolute value at most `c`. -/
def Fl.abs_le (x : Fl) (c : ℚ) : Prop :=
  ∃ s m e, x = Fl.fin s m e ∧ (m : ℚ) * (2 : ℚ) ^ e ≤ c

/-- The datum `x` is a finite number of absolute value below `2^g`: its significand has
at most `g - e` bits. -/
def Fl.below_pow2 (x : Fl) (g : Int) : Bool :=
  match x with
  | Fl.fin _ m e => decide (e + (bitlen m : Int) ≤ g)
  | _ => false

/-! # Theorems -/

/-! ## Loop invariants -/

/-- A counting loop `for (n = 0; n < N; n++)` whose body keeps an invariant indexed by
the counter runs to completion and ends in the invariant at `N`. -/
theorem foldlM_range_invariant {σ : Type} (P : Nat → σ → Prop) (f : σ → Nat → Option σ)
    (N : Nat) (s : σ) (h0 : P 0 s)
    (hstep : ∀ n t, n < N → P n t → ∃ t', f t n = some t' ∧ P (n + 1) t') :
    ∃ t, (List.range N).foldlM f s = some t ∧ P N t := by
  induction N with
  | zero => exact ⟨s, by simp, h0⟩
  | succ N ih =>
    obtain ⟨t, ht, hP⟩ := ih (fun n t hn hp => hstep n t (Nat.lt_succ_of_lt hn) hp)
    obtain ⟨t', ht', hP'⟩ := hstep N t (Nat.lt_succ_self N) hP
    refine ⟨t', ?_, hP'⟩
    rw [List.range_succ, List.foldlM_append, ht]
    simp [ht']

theorem written_store {F D : Type} (ops : FloatOps F D) (s0 s : State F) (n : Nat)
    (h : written ops s0 n s) (hn : n < s0.field.length) :
    ∃ t, store s n (slot_value ops s0.charges n) = some t ∧ written ops s0 (n + 1) t := by
  obtain ⟨hc, hl, hk⟩ := h
  refine ⟨{ s with field := s.field.set n (slot_value ops s0.charges n) }, ?_, hc, ?_, ?_⟩
  · simp [store, hl, hn]
  · simp [hl]
  · intro k
    simp only [List.getElem?_set, hk]
    by_cases hkn : n = k
    · subst hkn
      simp [hl, hn]
    · have : (k < n + 1) = (k < n) := by
        apply propext; omega
      simp [hkn, this]

theorem slot_value_fst {F D : Type} (ops : FloatOps F D) (ch : Fin 2 → Charge F)
    (i j : Nat) (hi : i < 20) :
    slot_value ops ch (cell_index i j) = (cell_value ops ch i j).1 := by
  have h1 : (j * 20 + i) * 2 / 2 = j * 20 + i := by omega
  have h2 : (j * 20 + i) % 20 = i := by omega
  have h3 : (j * 20 + i) / 20 = j := by omega
  have h4 : (j * 20 + i) * 2 % 2 = 0 := by omega
  simp [slot_value, cell_index, GRID_WIDTH, h1, h2, h3, h4]

theorem slot_value_snd {F D : Type} (ops : FloatOps F D) (ch : Fin 2 → Charge F)
    (i j : Nat) (hi : i < 20) :
    slot_value ops ch (cell_index i j + 1) = (cell_value ops ch i j).2 := by
  have h1 : ((j * 20 + i) * 2 + 1) / 2 = j * 20 + i := by omega
  have h2 : (j * 20 + i) % 20 = i := by omega
  have h3 : (j * 20 + i) / 20 = j := by omega
  have h4 : ((j * 20 + i) * 2 + 1) % 2 = 1 := by omega
  simp [slot_value, cell_index, GRID_WIDTH, h1, h2, h3, h4]

/-- The body of the `i` loop for cell `(i, j)` takes the invariant at `cell_index i j`
to the invariant two slots further. -/
theorem written_cell_body {F D : Type} (ops : FloatOps F D) (s0 s : State F)
    (i j : Nat) (hi : i < 20) (hlen : cell_index i j + 1 < s0.field.length)
    (h : written ops s0 (cell_index i j) s) :
    ∃ t, cell_body ops j i s = some t ∧ written ops s0 (cell_index i j + 2) t := by
  have hc : s.charges = s0.charges := h.1
  obtain ⟨t1, ht1, hw1⟩ := written_store ops s0 s (cell_index i j) h (by omega)
  obtain ⟨t2, ht2, hw2⟩ := written_store ops s0 t1 (cell_index i j + 1) hw1 hlen
  refine ⟨t2, ?_, hw2⟩
  rw [slot_value_fst ops _ i j hi] at ht1
  rw [slot_value_snd ops _ i j hi] at ht2
  simp [cell_body, hc, ht1, ht2]

/-- The `i` loop of row `j` takes the invariant at the first slot of the row to the
invariant at the first slot of the next row. -/
theorem written_row_loop {F D : Type} (ops : FloatOps F D) (s0 s : State F)
    (j : Nat) (hlen : cell_index 0 (j + 1) ≤ s0.field.length)
    (h : written ops s0 (cell_index 0 j) s) :
    ∃ t, row_loop ops j s = some t ∧ written ops s0 (cell_index 0 (j + 1)) t := by
  have key := foldlM_range_invariant (fun i t => written ops s0 (cell_index i j) t)
    (fun s i => cell_body ops j i s) GRID_WIDTH s h (by
      intro i t hi ht
      have hi' : i < 20 := hi
      have hl : cell_index i j + 1 < s0.field.length := by
        simp only [cell_index, GRID_WIDTH] at hlen ⊢
        omega
      obtain ⟨t', e, w⟩ := written_cell_body ops s0 t i j hi' hl ht
      refine ⟨t', e, ?_⟩
      have : cell_index (i + 1) j = cell_index i j + 2 := by
        simp only [cell_index]; omega
      show written ops s0 (cell_index (i + 1) j) t'
      rw [this]; exact w)
  obtain ⟨t, e, w⟩ := key
  refine ⟨t, e, ?_⟩
  have : cell_index 0 (j + 1) = cell_index GRID_WIDTH j := by
    simp only [cell_index, GRID_WIDTH]; omega
  rw [this]; exact w

/-- On a buffer of 800 slots `compute_field` runs to completion, and the state it
leaves is the one it started in with every slot of the buffer replaced by its
`slot_value`. -/
theorem compute_field_eq {F D : Type} (ops : FloatOps F D) (s : State F)
    (hlen : s.field.length = 800) :
    compute_field ops s = some
      { charges := s.charges
        field := (List.range 800).map (slot_value ops s.charges) } := by
  have key := foldlM_range_invariant (fun j t => written ops s (cell_index 0 j) t)
    (fun s j => row_loop ops j s) GRID_HEIGHT s
    (by refine ⟨rfl, rfl, ?_⟩; intro k; simp [cell_index])
    (by
      intro j t hj ht
      have hj' : j < 20 := hj
      exact written_row_loop ops s t j
        (by simp only [cell_index, GRID_WIDTH, hlen]; omega) ht)
  obtain ⟨t, e, hc, hl, hk⟩ := key
  have e' : compute_field ops s = some t := e
  rw [e']
  have hf : t.field = (List.range 800).map (slot_value ops s.charges) := by
    apply List.ext_getElem?
    intro k
    rw [hk k]
    by_cases hk8 : k < 800
    · simp [cell_index, GRID_HEIGHT, GRID_WIDTH, hk8, List.getElem?_range]
    · have : ¬ k < cell_index 0 GRID_HEIGHT := by
        simp only [cell_index, GRID_HEIGHT, GRID_WIDTH]; omega
      simp only [this, if_false]
      rw [List.getElem?_eq_none (by omega), List.getElem?_eq_none (by simp; omega)]
  cases t with
  | mk c f =>
    simp only at hc hf
    simp [hc, hf]

/-- The `c` loop, unrolled: the value of a cell is the specification's reference sum. -/
theorem cell_value_eq_reference {F D : Type} (ops : FloatOps F D)
    (ch : Fin 2 → Charge F) (i j : Nat) :
    cell_value ops ch i j = reference_field ops (ch 0) (ch 1) i j := by
  simp [cell_value, reference_field, coulomb_term, charge_step, soft_r2, coulomb_k,
    sample_x, sample_y, GRID_WIDTH, GRID_HEIGHT, List.finRange]

/-- On a buffer of 800 slots `compute_field` returns. -/
theorem compute_field_returns {F D : Type} (ops : FloatOps F D) (s : State F)
    (hlen : s.field.length = 800) : ∃ t, compute_field ops s = some t :=
  ⟨_, compute_field_eq ops s hlen⟩

/-- The charges and the slots of a cell in the state left by `compute_field`. -/
theorem compute_field_cell {F D : Type} (ops : FloatOps F D) (s t : State F)
    (hlen : s.field.length = 800) (ht : compute_field ops s = some t)
    (i j : Nat) (hi : i < 20) (hj : j < 20) :
    t.charges = s.charges ∧
      t.field[(j * 20 + i) * 2]? = some (cell_value ops s.charges i j).1 ∧
      t.field[(j * 20 + i) * 2 + 1]? = some (cell_value ops s.charges i j).2 := by
  rw [compute_field_eq ops s hlen] at ht
  have hc : t.charges = s.charges := by rw [← Option.some.inj ht]
  have hf : t.field = (List.range 800).map (slot_value ops s.charges) := by
    rw [← Option.some.inj ht]
  have e1 := slot_value_fst ops s.charges i j hi
  have e2 := slot_value_snd ops s.charges i j hi
  simp only [cell_index, GRID_WIDTH] at e1 e2
  refine ⟨hc, ?_, ?_⟩
  · have hb : (j * 20 + i) * 2 < 800 := by omega
    rw [hf, List.getElem?_map, List.getElem?_range hb, Option.map_some', e1]
  · have hb : (j * 20 + i) * 2 + 1 < 800 := by omega
    rw [hf, List.getElem?_map, List.getElem?_range hb, Option.map_some', e2]

/-- The buffer of the initial state has 800 slots. -/
theorem init_state_length {F D : Type} (ops : FloatOps F D) :
    (init_state ops).field.length = 800 := by
  simp only [init_state, List.length_replicate, GRID_WIDTH, GRID_HEIGHT]

/-- C1: for every arithmetic, every state with the 800-slot buffer and every cell
`(i, j)` of the 20 x 20 grid, `compute_field` returns, and the pair it leaves at the
cell's two slots `(j*20+i)*2` and `(j*20+i)*2+1` is the specification's reference
Coulomb sum of the two charges at the corner sample point `(i/20, j/20)`,
accumulated from `(0, 0)` with charge 0 first. -/
theorem compute_field_stores_reference {F D : Type} (ops : FloatOps F D) (s : State F)
    (hlen : s.field.length = 800) (i j : Nat) (hi : i < 20) (hj : j < 20) :
    ∃ t, compute_field ops s = some t ∧
      t.field[(j * 20 + i) * 2]? =
        some (reference_field ops (s.charges 0) (s.charges 1) i j).1 ∧
      t.field[(j * 20 + i) * 2 + 1]? =
        some (reference_field ops (s.charges 0) (s.charges 1) i j).2 := by
  obtain ⟨t, e⟩ := compute_field_returns ops s hlen
  obtain ⟨-, h1, h2⟩ := compute_field_cell ops s t hlen e i j hi hj
  rw [cell_value_eq_reference] at h1 h2
  exact ⟨t, e, h1, h2⟩

/-- C1, at the module's initial state and cell `(3, 7)` in exact arithmetic. -/
theorem compute_field_stores_reference_witness :
    (init_state realOps).field.length = 800 ∧ 3 < 20 ∧ 7 < 20 ∧
    ∃ t, compute_field realOps (init_state realOps) = some t ∧
      t.field[(7 * 20 + 3) * 2]? =
        some (reference_field realOps ((init_state realOps).charges 0)
          ((init_state realOps).charges 1) 3 7).1 ∧
      t.field[(7 * 20 + 3) * 2 + 1]? =
        some (reference_field realOps ((init_state realOps).charges 0)
          ((init_state realOps).charges 1) 3 7).2 :=
  ⟨init_state_length realOps, by decide, by decide,
    compute_field_stores_reference realOps (init_state realOps)
      (init_state_length realOps) 3 7 (by decide) (by decide)⟩

/-- Consecutive blocks of `w` consecutive numbers, concatenated. -/
theorem flatMap_range_blocks (f : Nat → List Nat) (b w : Nat)
    (h : ∀ n, f n = List.range' (b + n * w) w) (N : Nat) :
    (List.range N).flatMap f = List.range' b (N * w) := by
  induction N with
  | zero => simp
  | succ N ih =>
    rw [List.range_succ, List.flatMap_append, ih]
    simp only [List.flatMap_cons, List.flatMap_nil, List.append_nil]
    rw [h N, List.range'_append_1, Nat.succ_mul, Nat.add_comm w]

/-- The stores of one call go to the offsets `0, 1, ..., 799`, in this order. -/
theorem field_stores_offsets {F D : Type} (ops : FloatOps F D) (ch : Fin 2 → Charge F) :
    (field_stores ops ch).map Prod.fst = List.range 800 := by
  unfold field_stores
  rw [List.map_flatMap]
  rw [flatMap_range_blocks _ 0 40 _ GRID_HEIGHT]
  · simp [GRID_HEIGHT, List.range_eq_range']
  · intro j
    rw [List.map_flatMap]
    rw [flatMap_range_blocks _ (0 + j * 40) 2 _ GRID_WIDTH]
    · simp [GRID_WIDTH]
    · intro i
      simp [cell_stores, cell_index, GRID_WIDTH, List.range']
      omega

/-- Running a fallible step over a concatenation of blocks is running, block after
block, the step over the block. -/
theorem foldlM_flatMap_option {σ α β : Type} (f : α → List β) (g : σ → β → Option σ)
    (l : List α) (s : σ) :
    (l.flatMap f).foldlM g s = l.foldlM (fun t a => (f a).foldlM g t) s := by
  induction l generalizing s with
  | nil => simp
  | cons a l ih =>
    simp only [List.flatMap_cons, List.foldlM_append, List.foldlM_cons]
    cases h : List.foldlM g s (f a) with
    | none => simp
    | some t => simp [ih]

/-- A property kept by every successful step is kept by a successful run. -/
theorem foldlM_preserves {σ α : Type} (P : σ → Prop) (g : σ → α → Option σ)
    (hP : ∀ t a t', P t → g t a = some t' → P t') (l : List α) (s t : σ)
    (hs : P s) (h : l.foldlM g s = some t) : P t := by
  induction l generalizing s with
  | nil =>
    simp at h
    exact h ▸ hs
  | cons a l ih =>
    simp only [List.foldlM_cons] at h
    cases e : g s a with
    | none => simp [e] at h
    | some u =>
      simp [e] at h
      exact ih u (hP s a u hs e) h

/-- Two steps that agree wherever a property holds, one of which keeps the property,
give the same run from a state with the property. -/
theorem foldlM_congr_invariant {σ α : Type} (P : σ → Prop) (f g : σ → α → Option σ)
    (hfg : ∀ t a, P t → f t a = g t a)
    (hP : ∀ t a t', P t → g t a = some t' → P t') (l : List α) (s : σ) (hs : P s) :
    l.foldlM f s = l.foldlM g s := by
  induction l generalizing s with
  | nil => simp
  | cons a l ih =>
    simp only [List.foldlM_cons, hfg s a hs]
    cases e : g s a with
    | none => simp
    | some u =>
      simp
      exact ih u (hP s a u hs e)

/-- A store leaves the charges alone. -/
theorem store_charges {F : Type} (s t : State F) (k : Nat) (v : F)
    (h : store s k v = some t) : t.charges = s.charges := by
  unfold store at h
  split at h
  · cases h; rfl
  · cases h

/-- A store keeps the length of the buffer. -/
theorem store_length {F : Type} (s t : State F) (k : Nat) (v : F)
    (h : store s k v = some t) : t.field.length = s.field.length := by
  unfold store at h
  split at h
  · cases h; simp
  · cases h

/-- From any state, `compute_field` is the run of its stores `field_stores`, in order,
each store failing if it falls outside the buffer. -/
theorem compute_field_eq_stores {F D : Type} (ops : FloatOps F D) (s : State F) :
    compute_field ops s =
      (field_stores ops s.charges).foldlM (fun t w => store t w.1 w.2) s := by
  have hstore : ∀ (t : State F) (w : Nat × F) (t' : State F),
      t.charges = s.charges → store t w.1 w.2 = some t' → t'.charges = s.charges :=
    fun t w t' ht h => (store_charges t t' w.1 w.2 h).trans ht
  have hcell : ∀ (j : Nat) (t : State F) (i : Nat), t.charges = s.charges →
      cell_body ops j i t =
        (cell_stores ops s.charges j i).foldlM (fun t w => store t w.1 w.2) t := by
    intro j t i ht
    simp only [cell_body, cell_stores, ht, List.foldlM_cons, List.foldlM_nil]
    cases store t (cell_index i j) (cell_value ops s.charges i j).1 with
    | none => rfl
    | some u =>
      simp only [Option.bind_eq_bind, Option.some_bind, Option.bind_some]
      cases store u (cell_index i j + 1) (cell_value ops s.charges i j).2 <;> rfl
  have hrow : ∀ (t : State F) (j : Nat), t.charges = s.charges →
      row_loop ops j t =
        ((List.range GRID_WIDTH).flatMap (fun i => cell_stores ops s.charges j i)).foldlM
          (fun t w => store t w.1 w.2) t := by
    intro t j ht
    rw [foldlM_flatMap_option]
    exact foldlM_congr_invariant (fun u => u.charges = s.charges) _ _ (hcell j)
      (fun u i u' hu h => foldlM_preserves (fun u => u.charges = s.charges) _ hstore
        _ u u' hu h) _ t ht
  unfold compute_field field_stores
  rw [foldlM_flatMap_option]
  exact foldlM_congr_invariant (fun u => u.charges = s.charges) _ _ hrow
    (fun u j u' hu h => foldlM_preserves (fun u => u.charges = s.charges) _ hstore
      _ u u' hu h) _ s rfl

/-- Every offset below 800 is the slot of exactly one cell and component. -/
theorem cell_index_bijective (k : Nat) (hk : k < 800) :
    ∃! p : Nat × Nat × Nat,
      p.1 < 20 ∧ p.2.1 < 20 ∧ p.2.2 < 2 ∧ cell_index p.1 p.2.1 + p.2.2 = k := by
  refine ⟨((k / 2) % 20, (k / 2) / 20, k % 2), ?_, ?_⟩
  · simp only [cell_index, GRID_WIDTH]
    omega
  · rintro ⟨i, j, c⟩ h
    simp only [cell_index, GRID_WIDTH] at h
    obtain ⟨h1, h2, h3, h4⟩ := h
    have e1 : i = (k / 2) % 20 := by omega
    have e2 : j = (k / 2) / 20 := by omega
    have e3 : c = k % 2 := by omega
    rw [e1, e2, e3]

/-- C2: in a call of `compute_field` on the 800-slot buffer, cell `(i, j)` has its
x-component stored at offset `(j*20+i)*2` and its y-component at `(j*20+i)*2+1`; both
offsets are below 800; the map from (cell, component) to offset is a bijection onto
`0..799`; the call is the run of its stores, whose offsets hit every slot `0..799`
exactly once and nothing else; and the call returns (no store is out of bounds). -/
theorem compute_field_store_layout {F D : Type} (ops : FloatOps F D) (s : State F)
    (hlen : s.field.length = 800) :
    (∀ i j, i < 20 → j < 20 →
      cell_index i j = (j * 20 + i) * 2 ∧ cell_index i j < 800 ∧
        cell_index i j + 1 < 800) ∧
    (∀ k, k < 800 → ∃! p : Nat × Nat × Nat,
      p.1 < 20 ∧ p.2.1 < 20 ∧ p.2.2 < 2 ∧ cell_index p.1 p.2.1 + p.2.2 = k) ∧
    compute_field ops s =
      (field_stores ops s.charges).foldlM (fun t w => store t w.1 w.2) s ∧
    (∀ k, k < 800 → ((field_stores ops s.charges).map Prod.fst).count k = 1) ∧
    (∀ k, k ∈ (field_stores ops s.charges).map Prod.fst → k < 800) ∧
    ∃ t, compute_field ops s = some t ∧ ∀ i j, i < 20 → j < 20 →
      t.field[(j * 20 + i) * 2]? = some (cell_value ops s.charges i j).1 ∧
      t.field[(j * 20 + i) * 2 + 1]? = some (cell_value ops s.charges i j).2 := by
  refine ⟨?_, cell_index_bijective, compute_field_eq_stores ops s, ?_, ?_, ?_⟩
  · intro i j hi hj
    refine ⟨rfl, ?_, ?_⟩ <;> simp only [cell_index, GRID_WIDTH] <;> omega
  · intro k hk
    rw [field_stores_offsets]
    exact List.count_eq_one_of_mem (List.nodup_range 800) (List.mem_range.mpr hk)
  · intro k hk
    rw [field_stores_offsets] at hk
    exact List.mem_range.mp hk
  · obtain ⟨t, e⟩ := compute_field_returns ops s hlen
    exact ⟨t, e, fun i j hi hj => (compute_field_cell ops s t hlen e i j hi hj).2⟩

/-- C2, at the module's initial state in exact arithmetic. -/
theorem compute_field_store_layout_witness :
    (init_state realOps).field.length = 800 ∧
    ∃ t, compute_field realOps (init_state realOps) = some t ∧ ∀ i j, i < 20 → j < 20 →
      t.field[(j * 20 + i) * 2]? =
        some (cell_value realOps (init_state realOps).charges i j).1 ∧
      t.field[(j * 20 + i) * 2 + 1]? =
        some (cell_value realOps (init_state realOps).charges i j).2 :=
  ⟨init_state_length realOps,
    (compute_field_store_layout realOps (init_state realOps)
      (init_state_length realOps)).2.2.2.2.2⟩

/-! ## Exact arithmetic: zero magnitudes and additivity -/

/-- In exact arithmetic the value of a cell is the sum of the two charges' steps from
`(0, 0)`. -/
theorem cell_value_real (ch : Fin 2 → Charge ℝ) (i j : Nat) :
    cell_value realOps ch i j =
      charge_step realOps (ch 1) (sample_x realOps i) (sample_y realOps j)
        (charge_step realOps (ch 0) (sample_x realOps i) (sample_y realOps j) (0, 0)) := by
  simp [cell_value, List.finRange, realOps]

/-- In exact arithmetic a step adds to the accumulator the step taken from `(0, 0)`. -/
theorem charge_step_add (ch : Charge ℝ) (px py : ℝ) (acc : ℝ × ℝ) :
    charge_step realOps ch px py acc =
      (acc.1 + (charge_step realOps ch px py (0, 0)).1,
       acc.2 + (charge_step realOps ch px py (0, 0)).2) := by
  simp [charge_step, realOps]

/-- The charges and the buffer after `set_charges`. -/
theorem set_charges_eq {F : Type} (s : State F) (x1 y1 q1 x2 y2 q2 : F) :
    (set_charges s x1 y1 q1 x2 y2 q2).charges 0 = ⟨x1, y1, q1⟩ ∧
    (set_charges s x1 y1 q1 x2 y2 q2).charges 1 = ⟨x2, y2, q2⟩ ∧
    (set_charges s x1 y1 q1 x2 y2 q2).field = s.field := by
  simp [set_charges, set_x, set_y, set_q, Function.update]

/-! ## Determinism and frame properties -/

/-- The buffer left by `compute_field` on a buffer of 800 slots, as a function of the
charges alone. -/
theorem compute_field_buffer {F D : Type} (ops : FloatOps F D) (s t : State F)
    (hlen : s.field.length = 800) (ht : compute_field ops s = some t) :
    t.charges = s.charges ∧ t.field = (List.range 800).map (slot_value ops s.charges) := by
  rw [compute_field_eq ops s hlen] at ht
  constructor <;> rw [← Option.some.inj ht]

/-- C5: for every arithmetic, the buffer left by `compute_field` is determined by the
two `Charge` records: two states with equal charges and arbitrary 800-slot buffers are
taken to states with identical buffers; and calling `compute_field` twice in a row
leaves the same buffer both times. -/
theorem compute_field_deterministic {F D : Type} (ops : FloatOps F D) (s1 s2 : State F)
    (h1 : s1.field.length = 800) (h2 : s2.field.length = 800)
    (hc : s1.charges = s2.charges) :
    (∃ t1 t2, compute_field ops s1 = some t1 ∧ compute_field ops s2 = some t2 ∧
      t1.field = t2.field) ∧
    (∃ t t', compute_field ops s1 = some t ∧ compute_field ops t = some t' ∧
      t'.field = t.field) := by
  obtain ⟨t1, e1⟩ := compute_field_returns ops s1 h1
  obtain ⟨t2, e2⟩ := compute_field_returns ops s2 h2
  obtain ⟨c1, f1⟩ := compute_field_buffer ops s1 t1 h1 e1
  obtain ⟨-, f2⟩ := compute_field_buffer ops s2 t2 h2 e2
  have l1 : t1.field.length = 800 := by rw [f1]; simp
  obtain ⟨t', e'⟩ := compute_field_returns ops t1 l1
  obtain ⟨-, f'⟩ := compute_field_buffer ops t1 t' l1 e'
  refine ⟨⟨t1, t2, e1, e2, ?_⟩, ⟨t1, t', e1, e', ?_⟩⟩
  · rw [f1, f2, hc]
  · rw [f', f1, c1]

/-- C5 for the initial state and the state with the same charges whose buffer holds 1
in every slot. -/
theorem compute_field_deterministic_witness :
    (init_state realOps).field ≠ List.replicate 800 (1 : ℝ) ∧
    (∃ t1 t2, compute_field realOps (init_state realOps) = some t1 ∧
      compute_field realOps
        { charges := (init_state realOps).charges, field := List.replicate 800 1 }
        = some t2 ∧
      t1.field = t2.field) ∧
    (∃ t t', compute_field realOps (init_state realOps) = some t ∧
      compute_field realOps t = some t' ∧ t'.field = t.field) :=
  ⟨by
      intro h
      have h0 : (init_state realOps).field[0]? = (List.replicate 800 (1 : ℝ))[0]? := by
        rw [h]
      simp only [init_state, List.getElem?_replicate, GRID_WIDTH, GRID_HEIGHT] at h0
      norm_num [realOps] at h0,
    compute_field_deterministic realOps (init_state realOps)
      { charges := (init_state realOps).charges, field := List.replicate 800 1 }
      (init_state_length realOps) (List.length_replicate _ _) rfl⟩

/-- C6: for every state and all six arguments `set_charges` returns a state (it has no
error result) in which charge 0 is `(x1, y1, q1)` and charge 1 is `(x2, y2, q2)`,
whatever the charges were before, and the buffer is the one of the state before the
call, slot for slot. -/
theorem set_charges_frame {F : Type} (s : State F) (x1 y1 q1 x2 y2 q2 : F) :
    (set_charges s x1 y1 q1 x2 y2 q2).charges 0 = ⟨x1, y1, q1⟩ ∧
    (set_charges s x1 y1 q1 x2 y2 q2).charges 1 = ⟨x2, y2, q2⟩ ∧
    (set_charges s x1 y1 q1 x2 y2 q2).field = s.field ∧
    ∀ k : Nat, (set_charges s x1 y1 q1 x2 y2 q2).field[k]? = s.field[k]? := by
  obtain ⟨h0, h1, hf⟩ := set_charges_eq s x1 y1 q1 x2 y2 q2
  exact ⟨h0, h1, hf, fun k => by rw [hf]⟩

/-- From any state, a call of `compute_field` that returns leaves the charges and the
length of the buffer as they were. -/
theorem compute_field_frame {F D : Type} (ops : FloatOps F D) (s t : State F)
    (ht : compute_field ops s = some t) :
    t.charges = s.charges ∧ t.field.length = s.field.length := by
  rw [compute_field_eq_stores] at ht
  exact foldlM_preserves
    (fun u => u.charges = s.charges ∧ u.field.length = s.field.length) _
    (fun u w u' hu h =>
      ⟨(store_charges u u' w.1 w.2 h).trans hu.1, (store_length u u' w.1 w.2 h).trans hu.2⟩)
    _ s t ⟨rfl, rfl⟩ ht

/-- C7: for every arithmetic and every state with the 800-slot buffer, `compute_field`
returns and both `Charge` records (`x`, `y` and `q` of charge 0 and of charge 1) are
the same after the call as before it; only the buffer may differ. -/
theorem compute_field_reads_charges {F D : Type} (ops : FloatOps F D) (s : State F)
    (hlen : s.field.length = 800) :
    ∃ t, compute_field ops s = some t ∧ t.charges = s.charges ∧
      ∀ c : Fin 2, (t.charges c).x = (s.charges c).x ∧ (t.charges c).y = (s.charges c).y ∧
        (t.charges c).q = (s.charges c).q := by
  obtain ⟨t, e⟩ := compute_field_returns ops s hlen
  have hc := (compute_field_frame ops s t e).1
  exact ⟨t, e, hc, fun c => by rw [hc]; exact ⟨rfl, rfl, rfl⟩⟩

/-- C7 after `set_charges(1/4, 1/2, 1, 3/4, 1/2, -1)` from the initial state. -/
theorem compute_field_reads_charges_witness :
    (set_charges (init_state realOps) (1/4) (1/2) 1 (3/4) (1/2) (-1)).field.length = 800 ∧
    ∃ t, compute_field realOps
        (set_charges (init_state realOps) (1/4) (1/2) 1 (3/4) (1/2) (-1)) = some t ∧
      t.charges 0 = ⟨1/4, 1/2, 1⟩ ∧ t.charges 1 = ⟨3/4, 1/2, -1⟩ := by
  have hl : (set_charges (init_state realOps) (1/4) (1/2) 1 (3/4) (1/2) (-1)).field.length
      = 800 := by
    rw [(set_charges_eq _ _ _ _ _ _ _).2.2]; exact init_state_length realOps
  obtain ⟨t, e, hc, -⟩ := compute_field_reads_charges realOps _ hl
  refine ⟨hl, t, e, ?_, ?_⟩
  · rw [hc]; exact (set_charges_eq _ _ _ _ _ _ _).1
  · rw [hc]; exact (set_charges_eq _ _ _ _ _ _ _).2.1

/-- Every sequence of calls from a state with the 800-slot buffer returns and ends in
a state with the 800-slot buffer. -/
theorem run_length {F D : Type} (ops : FloatOps F D) (cs : List (Call F)) (s : State F)
    (hlen : s.field.length = 800) :
    ∃ t, run ops s cs = some t ∧ t.field.length = 800 := by
  induction cs generalizing s with
  | nil => exact ⟨s, rfl, hlen⟩
  | cons c cs ih =>
    cases c with
    | set_charges x1 y1 q1 x2 y2 q2 =>
      have hl : (set_charges s x1 y1 q1 x2 y2 q2).field.length = 800 := by
        rw [(set_charges_eq s x1 y1 q1 x2 y2 q2).2.2]; exact hlen
      obtain ⟨t, e, ht⟩ := ih _ hl
      exact ⟨t, by simpa [run, call] using e, ht⟩
    | compute_field =>
      obtain ⟨u, eu⟩ := compute_field_returns ops s hlen
      have hl : u.field.length = 800 := by
        rw [(compute_field_frame ops s u eu).2]; exact hlen
      obtain ⟨t, e, ht⟩ := ih u hl
      exact ⟨t, by simpa [run, call, eu] using e, ht⟩

/-- C8: the buffer has length `W*H*2 = 800` in the initial state and after every
sequence of `set_charges` and `compute_field` calls, whatever the charge values; and
neither operation, from any state, changes the length of the buffer. -/
theorem buffer_shape_invariant {F D : Type} (ops : FloatOps F D) :
    GRID_WIDTH * GRID_HEIGHT * 2 = 800 ∧
    (init_state ops).field.length = GRID_WIDTH * GRID_HEIGHT * 2 ∧
    (∀ cs : List (Call F), ∃ t, run ops (init_state ops) cs = some t ∧
      t.field.length = GRID_WIDTH * GRID_HEIGHT * 2) ∧
    (∀ (s : State F) (x1 y1 q1 x2 y2 q2 : F),
      (set_charges s x1 y1 q1 x2 y2 q2).field.length = s.field.length) ∧
    (∀ s t : State F, compute_field ops s = some t → t.field.length = s.field.length) := by
  refine ⟨rfl, init_state_length ops, ?_, ?_, ?_⟩
  · intro cs
    exact run_length ops cs (init_state ops) (init_state_length ops)
  · intro s x1 y1 q1 x2 y2 q2
    rw [(set_charges_eq s x1 y1 q1 x2 y2 q2).2.2]
  · intro s t h
    exact (compute_field_frame ops s t h).2

/-- C8 for the call sequence `set_charges(1/4, 1/2, 1, 3/4, 1/2, -1)`,
`compute_field`, `compute_field` in exact arithmetic. -/
theorem buffer_shape_invariant_witness :
    ∃ t, run realOps (init_state realOps)
        [Call.set_charges (1 / 4) (1 / 2) 1 (3 / 4) (1 / 2) (-1), Call.compute_field,
          Call.compute_field] = some t ∧
      t.field.length = GRID_WIDTH * GRID_HEIGHT * 2 :=
  (buffer_shape_invariant realOps).2.2.1 _

/-! ## Exact arithmetic: the softened distance and the concrete scenario -/

/-- The term of a charge in exact arithmetic, written out. -/
theorem charge_term_real (ch : Charge ℝ) (px py : ℝ) :
    charge_term realOps ch px py =
      (8987551000 * ch.q / ((px - ch.x) * (px - ch.x) + (py - ch.y) * (py - ch.y) + 1 / 10000)
          * (px - ch.x)
          / Real.sqrt ((px - ch.x) * (px - ch.x) + (py - ch.y) * (py - ch.y) + 1 / 10000),
       8987551000 * ch.q / ((px - ch.x) * (px - ch.x) + (py - ch.y) * (py - ch.y) + 1 / 10000)
          * (py - ch.y)
          / Real.sqrt ((px - ch.x) * (px - ch.x) + (py - ch.y) * (py - ch.y) + 1 / 10000)) := by
  simp [charge_term, charge_step, soft_r2, coulomb_k, realOps]

/-- The sample point of a cell in exact arithmetic: the corner `(i/20, j/20)`. -/
theorem sample_real (i j : Nat) :
    sample_x realOps i = (i : ℝ) / 20 ∧ sample_y realOps j = (j : ℝ) / 20 := by
  simp [sample_x, sample_y, realOps, GRID_WIDTH, GRID_HEIGHT]

/-- In exact arithmetic the value of a cell is the sum of the two charges' terms. -/
theorem cell_value_terms (ch : Fin 2 → Charge ℝ) (i j : Nat) :
    cell_value realOps ch i j =
      ((charge_term realOps (ch 0) (sample_x realOps i) (sample_y realOps j)).1 +
        (charge_term realOps (ch 1) (sample_x realOps i) (sample_y realOps j)).1,
       (charge_term realOps (ch 0) (sample_x realOps i) (sample_y realOps j)).2 +
        (charge_term realOps (ch 1) (sample_x realOps i) (sample_y realOps j)).2) := by
  rw [cell_value_real, charge_step_add (ch 1)]
  rfl

/-- The term of a charge on the line `y = 1/2` at a sample point of row 10, where
`d` is the horizontal displacement and `r2` the softened squared distance. -/
theorem row_term (x q : ℝ) (i : Nat) (d r2 : ℝ) (hd : (i : ℝ) / 20 - x = d)
    (hr : d * d + 1 / 10000 = r2) :
    charge_term realOps ⟨x, 1 / 2, q⟩ (sample_x realOps i) (sample_y realOps 10) =
      (8987551000 * q * r2⁻¹ * d * (Real.sqrt r2)⁻¹, 0) := by
  rw [charge_term_real, (sample_real i 10).1, (sample_real i 10).2]
  have h0 : ((10 : Nat) : ℝ) / 20 - 1 / 2 = 0 := by norm_num
  subst hd hr
  rw [h0]
  simp only [mul_zero, add_zero, zero_div, div_eq_mul_inv, zero_mul]

/-- Rational bounds on a square root give bounds on its inverse. -/
theorem inv_sqrt_bounds (r2 L U : ℝ) (hL : 0 < L) (hLr : L * L < r2) (hU : r2 < U * U)
    (hU0 : 0 < U) :
    U⁻¹ < (Real.sqrt r2)⁻¹ ∧ (Real.sqrt r2)⁻¹ < L⁻¹ := by
  have h1 : L < Real.sqrt r2 := by
    rw [Real.lt_sqrt hL.le]; nlinarith
  have h2 : Real.sqrt r2 < U := by
    rw [Real.sqrt_lt' hU0]; nlinarith
  exact ⟨inv_strictAnti₀ (lt_trans hL h1) h2, inv_strictAnti₀ hL h1⟩

/-- The value of a cell of row 10 in the scenario with charge 0 at `(1/4, 1/2)` of
magnitude 1 and charge 1 at `(3/4, 1/2)` of magnitude -1. -/
theorem scenario_row (ch : Fin 2 → Charge ℝ) (h0 : ch 0 = ⟨1 / 4, 1 / 2, 1⟩)
    (h1 : ch 1 = ⟨3 / 4, 1 / 2, -1⟩) (i : Nat) (d1 r1 d2 r2 : ℝ)
    (hd1 : (i : ℝ) / 20 - 1 / 4 = d1) (hr1 : d1 * d1 + 1 / 10000 = r1)
    (hd2 : (i : ℝ) / 20 - 3 / 4 = d2) (hr2 : d2 * d2 + 1 / 10000 = r2) :
    cell_value realOps ch i 10 =
      (8987551000 * 1 * r1⁻¹ * d1 * (Real.sqrt r1)⁻¹ +
        8987551000 * (-1) * r2⁻¹ * d2 * (Real.sqrt r2)⁻¹, 0) := by
  rw [cell_value_terms, h0, h1, row_term (1 / 4) 1 i d1 r1 hd1 hr1,
    row_term (3 / 4) (-1) i d2 r2 hd2 hr2]
  simp

/-- The square of the magnitude of a horizontal vector. -/
theorem mag_sq_horizontal (a : ℝ) : mag_sq (a, 0) = a * a := by
  simp [mag_sq]

/-- The values of the cells `(4,10)`, `(5,10)`, `(6,10)`, `(14,10)`, `(15,10)` and
`(16,10)` in the scenario: each is horizontal, and the x-components satisfy the sign
and size relations below. -/
theorem scenario_cells (ch : Fin 2 → Charge ℝ) (h0 : ch 0 = ⟨1 / 4, 1 / 2, 1⟩)
    (h1 : ch 1 = ⟨3 / 4, 1 / 2, -1⟩) :
    ∃ f4 f5 f6 f14 f15 f16 : ℝ,
      cell_value realOps ch 4 10 = (f4, 0) ∧ cell_value realOps ch 5 10 = (f5, 0) ∧
      cell_value realOps ch 6 10 = (f6, 0) ∧ cell_value realOps ch 14 10 = (f14, 0) ∧
      cell_value realOps ch 15 10 = (f15, 0) ∧ cell_value realOps ch 16 10 = (f16, 0) ∧
      0 < f5 ∧ f5 < -f4 ∧ f5 < f6 ∧ 0 < f15 ∧ f15 < f14 ∧ f15 < -f16 := by
  obtain ⟨a1, a2⟩ := inv_sqrt_bounds (13 / 5000) (50 / 1000) (51 / 1000)
    (by norm_num) (by norm_num) (by norm_num) (by norm_num)
  obtain ⟨b1, b2⟩ := inv_sqrt_bounds (1513 / 5000) (55 / 100) (56 / 100)
    (by norm_num) (by norm_num) (by norm_num) (by norm_num)
  obtain ⟨c1, c2⟩ := inv_sqrt_bounds (2501 / 10000) (50 / 100) (51 / 100)
    (by norm_num) (by norm_num) (by norm_num) (by norm_num)
  obtain ⟨d1, d2⟩ := inv_sqrt_bounds (1013 / 5000) (45 / 100) (46 / 100)
    (by norm_num) (by norm_num) (by norm_num) (by norm_num)
  refine ⟨_, _, _, _, _, _,
    scenario_row ch h0 h1 4 (-1 / 20) (13 / 5000) (-11 / 20) (1513 / 5000)
      (by norm_num) (by norm_num) (by norm_num) (by norm_num),
    scenario_row ch h0 h1 5 0 (1 / 10000) (-1 / 2) (2501 / 10000)
      (by norm_num) (by norm_num) (by norm_num) (by norm_num),
    scenario_row ch h0 h1 6 (1 / 20) (13 / 5000) (-9 / 20) (1013 / 5000)
      (by norm_num) (by norm_num) (by norm_num) (by norm_num),
    scenario_row ch h0 h1 14 (9 / 20) (1013 / 5000) (-1 / 20) (13 / 5000)
      (by norm_num) (by norm_num) (by norm_num) (by norm_num),
    scenario_row ch h0 h1 15 (1 / 2) (2501 / 10000) 0 (1 / 10000)
      (by norm_num) (by norm_num) (by norm_num) (by norm_num),
    scenario_row ch h0 h1 16 (11 / 20) (1513 / 5000) (1 / 20) (13 / 5000)
      (by norm_num) (by norm_num) (by norm_num) (by norm_num),
    ?_, ?_, ?_, ?_, ?_, ?_⟩ <;>
  norm_num at a1 a2 b1 b2 c1 c2 d1 d2 ⊢ <;>
  linarith

/-- Of two horizontal vectors the one with the smaller absolute x-component has the
smaller magnitude. -/
theorem mag_sq_lt_of_abs (a b : ℝ) (ha : 0 < a) (hab : a < b ∨ a < -b) :
    mag_sq (a, 0) < mag_sq (b, 0) := by
  rw [mag_sq_horizontal, mag_sq_horizontal]
  rcases hab with h | h
  · nlinarith
  · nlinarith

/-- After a successful `compute_field` the buffer holds the value of every cell. -/
theorem compute_field_stored {F D : Type} (ops : FloatOps F D) (s t : State F)
    (hlen : s.field.length = 800) (ht : compute_field ops s = some t)
    (i j : Nat) (hi : i < 20) (hj : j < 20) :
    stored_at t i j (cell_value ops s.charges i j) := by
  have h := (compute_field_cell ops s t hlen ht i j hi hj).2
  simpa [stored_at, cell_index, GRID_WIDTH] using h

/-- C10, the claim refuted: in the scenario `set_charges(0.25, 0.5, 1, 0.75, 0.5, -1)`
it is not the case that at cell `(5, 10)` the term of charge 1 (index 0) is non-zero
and of magnitude at least that of charge 2's term there and at least the field
magnitude at the cells `(4, 10)` and `(6, 10)`.  The sample point of cell `(5, 10)` is
`(5/20, 10/20) = (0.25, 0.5)`, the position of charge 1, so `dx = dy = 0` and the term
`(E*dx/r, E*dy/r)` is `(0, 0)`. -/
theorem scenario_counterexample :
    ¬ (charge_term realOps ⟨1 / 4, 1 / 2, 1⟩ (sample_x realOps 5) (sample_y realOps 10)
          ≠ (0, 0) ∧
        mag_sq (charge_term realOps ⟨3 / 4, 1 / 2, -1⟩ (sample_x realOps 5)
            (sample_y realOps 10)) ≤
          mag_sq (charge_term realOps ⟨1 / 4, 1 / 2, 1⟩ (sample_x realOps 5)
            (sample_y realOps 10)) ∧
        mag_sq (cell_value realOps
            (set_charges (init_state realOps) (1 / 4) (1 / 2) 1 (3 / 4) (1 / 2) (-1)).charges
            4 10) ≤
          mag_sq (charge_term realOps ⟨1 / 4, 1 / 2, 1⟩ (sample_x realOps 5)
            (sample_y realOps 10)) ∧
        mag_sq (cell_value realOps
            (set_charges (init_state realOps) (1 / 4) (1 / 2) 1 (3 / 4) (1 / 2) (-1)).charges
            6 10) ≤
          mag_sq (charge_term realOps ⟨1 / 4, 1 / 2, 1⟩ (sample_x realOps 5)
            (sample_y realOps 10))) := by
  intro h
  apply h.1
  rw [row_term (1 / 4) 1 5 0 (1 / 10000) (by norm_num) (by norm_num)]
  simp

/-- C10, amended: in exact arithmetic, after `set_charges(0.25, 0.5, 1, 0.75, 0.5, -1)`
and `compute_field` on the 800-slot buffer, the buffer holds at the cells `(4,10)`,
`(5,10)`, `(6,10)`, `(14,10)`, `(15,10)`, `(16,10)` vectors `v4 .. v16` such that:
at cell `(5,10)`, whose sample point is the position of charge 1, the term of charge 1
is exactly `(0, 0)` and the stored vector is the attractive term of charge 2 alone; it
is non-zero and points in the `+x` direction (towards charge 2), and its magnitude is
smaller than the magnitude at the neighbours `(4,10)` and `(6,10)`, whose vectors
point away from `(0.25, 0.5)`.  Symmetrically at cell `(15,10)` the term of charge 2 is
exactly `(0, 0)`, the stored vector is the repulsive term of charge 1 alone, non-zero
and pointing in the `+x` direction (away from charge 1), of magnitude smaller than at
the neighbours `(14,10)` and `(16,10)`, whose vectors point towards `(0.75, 0.5)`. -/
theorem scenario_amended (s : State ℝ) (hlen : s.field.length = 800) :
    ∃ t, compute_field realOps (set_charges s (1 / 4) (1 / 2) 1 (3 / 4) (1 / 2) (-1)) = some t ∧
    ∃ v4 v5 v6 v14 v15 v16 : ℝ × ℝ,
      stored_at t 4 10 v4 ∧ stored_at t 5 10 v5 ∧ stored_at t 6 10 v6 ∧
      stored_at t 14 10 v14 ∧ stored_at t 15 10 v15 ∧ stored_at t 16 10 v16 ∧
      charge_term realOps ⟨1 / 4, 1 / 2, 1⟩ (sample_x realOps 5) (sample_y realOps 10) = (0, 0) ∧
      v5 = charge_term realOps ⟨3 / 4, 1 / 2, -1⟩ (sample_x realOps 5) (sample_y realOps 10) ∧
      0 < v5.1 ∧ v5.2 = 0 ∧
      mag_sq v5 < mag_sq v4 ∧ mag_sq v5 < mag_sq v6 ∧
      v4.1 < 0 ∧ v4.2 = 0 ∧ 0 < v6.1 ∧ v6.2 = 0 ∧
      charge_term realOps ⟨3 / 4, 1 / 2, -1⟩ (sample_x realOps 15) (sample_y realOps 10) = (0, 0) ∧
      v15 = charge_term realOps ⟨1 / 4, 1 / 2, 1⟩ (sample_x realOps 15) (sample_y realOps 10) ∧
      0 < v15.1 ∧ v15.2 = 0 ∧
      mag_sq v15 < mag_sq v14 ∧ mag_sq v15 < mag_sq v16 ∧
      0 < v14.1 ∧ v14.2 = 0 ∧ v16.1 < 0 ∧ v16.2 = 0 := by
  obtain ⟨h0, h1, hf⟩ := set_charges_eq s (1 / 4) (1 / 2) 1 (3 / 4) (1 / 2) (-1)
  have hl : (set_charges s (1 / 4) (1 / 2) 1 (3 / 4) (1 / 2) (-1)).field.length = 800 := by
    rw [hf, hlen]
  obtain ⟨t, e⟩ := compute_field_returns realOps _ hl
  obtain ⟨f4, f5, f6, f14, f15, f16, e4, e5, e6, e14, e15, e16, p5, l4, l6, p15, l14, l16⟩ :=
    scenario_cells _ h0 h1
  have z1 : charge_term realOps ⟨1 / 4, 1 / 2, 1⟩ (sample_x realOps 5) (sample_y realOps 10)
      = (0, 0) := by
    rw [row_term (1 / 4) 1 5 0 (1 / 10000) (by norm_num) (by norm_num)]
    simp
  have z2 : charge_term realOps ⟨3 / 4, 1 / 2, -1⟩ (sample_x realOps 15) (sample_y realOps 10)
      = (0, 0) := by
    rw [row_term (3 / 4) (-1) 15 0 (1 / 10000) (by norm_num) (by norm_num)]
    simp
  have s5 := compute_field_stored realOps _ t hl e 5 10 (by norm_num) (by norm_num)
  have s15 := compute_field_stored realOps _ t hl e 15 10 (by norm_num) (by norm_num)
  have s4 := compute_field_stored realOps _ t hl e 4 10 (by norm_num) (by norm_num)
  have s6 := compute_field_stored realOps _ t hl e 6 10 (by norm_num) (by norm_num)
  have s14 := compute_field_stored realOps _ t hl e 14 10 (by norm_num) (by norm_num)
  have s16 := compute_field_stored realOps _ t hl e 16 10 (by norm_num) (by norm_num)
  have t5 : (f5, (0 : ℝ)) =
      charge_term realOps ⟨3 / 4, 1 / 2, -1⟩ (sample_x realOps 5) (sample_y realOps 10) := by
    rw [← e5, cell_value_terms, h0, h1, z1]
    simp
  have t15 : (f15, (0 : ℝ)) =
      charge_term realOps ⟨1 / 4, 1 / 2, 1⟩ (sample_x realOps 15) (sample_y realOps 10) := by
    rw [← e15, cell_value_terms, h0, h1, z2]
    simp
  rw [e4] at s4; rw [e5] at s5; rw [e6] at s6
  rw [e14] at s14; rw [e15] at s15; rw [e16] at s16
  refine ⟨t, e, (f4, 0), (f5, 0), (f6, 0), (f14, 0), (f15, 0), (f16, 0),
    s4, s5, s6, s14, s15, s16, z1, t5, p5, rfl,
    mag_sq_lt_of_abs f5 f4 p5 (Or.inr l4), mag_sq_lt_of_abs f5 f6 p5 (Or.inl l6),
    ?_, rfl, ?_, rfl, z2, t15, p15, rfl,
    mag_sq_lt_of_abs f15 f14 p15 (Or.inl l14), mag_sq_lt_of_abs f15 f16 p15 (Or.inr l16),
    ?_, rfl, ?_, rfl⟩
  · show f4 < 0
    linarith
  · show 0 < f6
    linarith
  · show 0 < f14
    linarith
  · show f16 < 0
    linarith

/-- C10 amended, from the module's initial state. -/
theorem scenario_amended_witness :
    (init_state realOps).field.length = 800 ∧
    ∃ t, compute_field realOps
        (set_charges (init_state realOps) (1 / 4) (1 / 2) 1 (3 / 4) (1 / 2) (-1)) = some t ∧
      ∃ v5 v15 : ℝ × ℝ, stored_at t 5 10 v5 ∧ stored_at t 15 10 v15 ∧
        0 < v5.1 ∧ v5.2 = 0 ∧ 0 < v15.1 ∧ v15.2 = 0 := by
  obtain ⟨t, e, v4, v5, v6, v14, v15, v16, -, s5, -, -, s15, -, -, -, p5, q5, -, -, -, -, -, -,
    -, -, p15, q15, -⟩ := scenario_amended (init_state realOps) (init_state_length realOps)
  exact ⟨init_state_length realOps, t, e, v5, v15, s5, s15, p5, q5, p15, q15⟩

/-! ## Exact arithmetic: the order of the charges -/

/-- The value of a slot depends on the charges only through the values of the cells. -/
theorem slot_value_congr {F D : Type} (ops : FloatOps F D) (ch ch' : Fin 2 → Charge F)
    (h : ∀ i j, cell_value ops ch i j = cell_value ops ch' i j) (k : Nat) :
    slot_value ops ch k = slot_value ops ch' k := by
  simp [slot_value, h]

/-- C18: in exact arithmetic, for every `(x1,y1,q1,x2,y2,q2)`, `compute_field` after
`set_charges(x1,y1,q1,x2,y2,q2)` and `compute_field` after
`set_charges(x2,y2,q2,x1,y1,q1)` both return on the 800-slot buffer and leave
identical buffers. -/
theorem charge_order_irrelevant (s : State ℝ) (hlen : s.field.length = 800)
    (x1 y1 q1 x2 y2 q2 : ℝ) :
    ∃ t t', compute_field realOps (set_charges s x1 y1 q1 x2 y2 q2) = some t ∧
      compute_field realOps (set_charges s x2 y2 q2 x1 y1 q1) = some t' ∧
      t.field = t'.field := by
  obtain ⟨a0, a1, af⟩ := set_charges_eq s x1 y1 q1 x2 y2 q2
  obtain ⟨b0, b1, bf⟩ := set_charges_eq s x2 y2 q2 x1 y1 q1
  have la : (set_charges s x1 y1 q1 x2 y2 q2).field.length = 800 := by rw [af, hlen]
  have lb : (set_charges s x2 y2 q2 x1 y1 q1).field.length = 800 := by rw [bf, hlen]
  obtain ⟨t, e⟩ := compute_field_returns realOps _ la
  obtain ⟨t', e'⟩ := compute_field_returns realOps _ lb
  refine ⟨t, t', e, e', ?_⟩
  rw [(compute_field_buffer realOps _ t la e).2, (compute_field_buffer realOps _ t' lb e').2]
  apply List.map_congr_left
  intro k _
  apply slot_value_congr
  intro i j
  rw [cell_value_terms, cell_value_terms, a0, a1, b0, b1]
  simp only [Prod.mk.injEq]
  constructor <;> ring

/-- C18 from the initial state with the charges `(1/4, 1/2, 1)` and `(3/4, 1/2, -1)`. -/
theorem charge_order_irrelevant_witness :
    (init_state realOps).field.length = 800 ∧
    ∃ t t', compute_field realOps
        (set_charges (init_state realOps) (1 / 4) (1 / 2) 1 (3 / 4) (1 / 2) (-1)) = some t ∧
      compute_field realOps
        (set_charges (init_state realOps) (3 / 4) (1 / 2) (-1) (1 / 4) (1 / 2) 1) = some t' ∧
      t.field = t'.field :=
  ⟨init_state_length realOps,
    charge_order_irrelevant (init_state realOps) (init_state_length realOps)
      (1 / 4) (1 / 2) 1 (3 / 4) (1 / 2) (-1)⟩

/-! ## Binary floating-point arithmetic: the number of bits -/

theorem bitlenAux_eq (f n acc : Nat) (h : n < 2 ^ f) :
    bitlenAux f n acc = acc + Nat.size n := by
  induction f generalizing n acc with
  | zero =>
    have : n = 0 := by simpa using h
    subst this
    simp [bitlenAux]
  | succ f ih =>
    unfold bitlenAux
    by_cases hn : n = 0
    · subst hn; simp
    · rw [if_neg hn, ih (n / 2) (acc + 1) (by rw [Nat.div_lt_iff_lt_mul (by norm_num)]; rw [pow_succ] at h; exact h)]
      have hs : Nat.size n = Nat.size (n / 2) + 1 := by
        apply le_antisymm
        · rw [Nat.size_le, pow_succ]
          have := Nat.lt_size_self (n / 2)
          omega
        · rw [Nat.succ_le, Nat.lt_size]
          have h1 : 2 ^ (Nat.size (n / 2)) ≤ n := by
            by_cases h2 : n / 2 = 0
            · rw [h2]; simp; omega
            · have := (Nat.lt_size (m := Nat.size (n / 2) - 1) (n := n / 2)).mp
                (by have := Nat.size_pos.mpr (Nat.pos_of_ne_zero h2); omega)
              have h3 : 2 ^ Nat.size (n / 2) = 2 ^ (Nat.size (n / 2) - 1) * 2 := by
                rw [← pow_succ]; congr 1
                have := Nat.size_pos.mpr (Nat.pos_of_ne_zero h2); omega
              rw [h3]; omega
          exact h1
      omega

/-- The number of bits computed by `bitlen` is `Nat.size`. -/
theorem bitlen_eq_size (n : Nat) : bitlen n = Nat.size n := by
  unfold bitlen
  rw [bitlenAux_eq n n 0 (Nat.lt_two_pow n), Nat.zero_add]

theorem lt_pow_bitlen (n : Nat) : n < 2 ^ bitlen n := by
  rw [bitlen_eq_size]; exact Nat.lt_size_self n

theorem bitlen_le_iff (n k : Nat) : bitlen n ≤ k ↔ n < 2 ^ k := by
  rw [bitlen_eq_size]; exact Nat.size_le

theorem lt_bitlen_iff (n k : Nat) : k < bitlen n ↔ 2 ^ k ≤ n := by
  rw [bitlen_eq_size]; exact Nat.lt_size

theorem bitlen_pos (n : Nat) (h : n ≠ 0) : 0 < bitlen n := by
  rw [lt_bitlen_iff]; simp; omega

theorem bitlen_mono {m n : Nat} (h : m ≤ n) : bitlen m ≤ bitlen n := by
  rw [bitlen_le_iff]; exact lt_of_le_of_lt h (lt_pow_bitlen n)

theorem bitlen_mul_pow (n k : Nat) (h : n ≠ 0) : bitlen (n * 2 ^ k) = bitlen n + k := by
  apply le_antisymm
  · rw [bitlen_le_iff, pow_add]
    exact Nat.mul_lt_mul_of_lt_of_le (lt_pow_bitlen n) le_rfl (by positivity)
  · have hp := bitlen_pos n h
    have : bitlen n + k - 1 < bitlen (n * 2 ^ k) := by
      rw [lt_bitlen_iff]
      have h1 : 2 ^ (bitlen n - 1) ≤ n := (lt_bitlen_iff n _).mp (by omega)
      have h2 : bitlen n + k - 1 = (bitlen n - 1) + k := by omega
      rw [h2, pow_add]
      exact Nat.mul_le_mul_right _ h1
    omega

/-! ## Binary floating-point arithmetic: signs and zeros -/

theorem pack_sign_bit (f : Fmt) (s : Bool) (q : Nat) (e : Int) :
    (Fl.pack f s q e).sign_bit = some s := by
  unfold Fl.pack
  split_ifs <;> rfl

theorem round_sign_bit (f : Fmt) (s : Bool) (m : Nat) (e : Int) (st : Bool) :
    (Fl.round f s m e st).sign_bit = some s := by
  unfold Fl.round
  split_ifs
  · rfl
  · exact pack_sign_bit _ _ _ _
  · exact pack_sign_bit _ _ _ _

theorem pack_neg (f : Fmt) (s : Bool) (q : Nat) (e : Int) :
    Fl.pack f (!s) q e = (Fl.pack f s q e).neg := by
  unfold Fl.pack
  split_ifs <;> rfl

/-- Rounding is symmetric in the sign. -/
theorem round_neg (f : Fmt) (s : Bool) (m : Nat) (e : Int) (st : Bool) :
    Fl.round f (!s) m e st = (Fl.round f s m e st).neg := by
  unfold Fl.round
  split_ifs
  · rfl
  · exact pack_neg _ _ _ _
  · exact pack_neg _ _ _ _

theorem round_zero (f : Fmt) (s : Bool) (e : Int) (st : Bool) :
    Fl.round f s 0 e st = Fl.fin s 0 0 := by
  simp [Fl.round]

theorem neg_nan : Fl.nan.neg = Fl.nan := rfl

theorem neg_inf (s : Bool) : (Fl.inf s).neg = Fl.inf (!s) := rfl

theorem neg_fin (s : Bool) (m : Nat) (e : Int) : (Fl.fin s m e).neg = Fl.fin (!s) m e := rfl

theorem neg_neg (x : Fl) : x.neg.neg = x := by
  cases x <;> simp [neg_nan, neg_inf, neg_fin]

theorem xor_not_left (s t : Bool) : xor (!s) t = !(xor s t) := by
  cases s <;> cases t <;> rfl

theorem xor_not_right (s t : Bool) : xor s (!t) = !(xor s t) := by
  cases s <;> cases t <;> rfl

theorem mul_neg_left (f : Fmt) (x y : Fl) : Fl.mul f x.neg y = (Fl.mul f x y).neg := by
  cases x <;> cases y <;>
    simp only [Fl.mul, neg_nan, neg_inf, neg_fin, xor_not_left, round_neg] <;>
    split_ifs <;> simp only [neg_nan, neg_inf]

theorem mul_neg_right (f : Fmt) (x y : Fl) : Fl.mul f x y.neg = (Fl.mul f x y).neg := by
  cases x <;> cases y <;>
    simp only [Fl.mul, neg_nan, neg_inf, neg_fin, xor_not_right, round_neg] <;>
    split_ifs <;> simp only [neg_nan, neg_inf]

theorem div_neg_left (f : Fmt) (x y : Fl) : Fl.div f x.neg y = (Fl.div f x y).neg := by
  cases x <;> cases y <;>
    simp only [Fl.div, neg_nan, neg_inf, neg_fin, xor_not_left, round_neg] <;>
    split_ifs <;> simp only [neg_nan, neg_inf]

/-! ## The loop body in terms of its intermediate values -/

/-- One pass through the body of the `c` loop adds `raw_term` to the accumulators. -/
theorem charge_step_eq {F D : Type} (ops : FloatOps F D) (ch : Charge F) (px py : F)
    (acc : F × F) :
    charge_step ops ch px py acc =
      (ops.add acc.1 (raw_term ops ch px py).1, ops.add acc.2 (raw_term ops ch px py).2) :=
  rfl

/-- The `c` loop unrolled: charge 0 first, then charge 1, from `(0.0f, 0.0f)`. -/
theorem cell_value_eq_steps {F D : Type} (ops : FloatOps F D) (ch : Fin 2 → Charge F)
    (i j : Nat) :
    cell_value ops ch i j =
      charge_step ops (ch 1) (sample_x ops i) (sample_y ops j)
        (charge_step ops (ch 0) (sample_x ops i) (sample_y ops j) (ops.zero, ops.zero)) := by
  simp [cell_value, List.finRange]

/-! ## Binary floating-point arithmetic: additions with zeros -/

theorem add_zero_left (f : Fmt) (x : Fl) :
    Fl.add f (Fl.fin false 0 0) x = if x.is_zero = true then Fl.fin false 0 0 else x := by
  cases x with
  | nan => rfl
  | inf s => rfl
  | fin t n k =>
    by_cases h : n = 0
    · simp [Fl.add, Fl.is_zero, h]
    · simp [Fl.add, Fl.is_zero, h]

/-- Adding a zero to a sum that started from `+0` changes nothing. -/
theorem add_zero_right (f : Fmt) (a z : Fl) (hz : z.is_zero = true) :
    Fl.add f (Fl.add f (Fl.fin false 0 0) a) z = Fl.add f (Fl.fin false 0 0) a := by
  cases z with
  | nan => simp [Fl.is_zero] at hz
  | inf s => simp [Fl.is_zero] at hz
  | fin t n k =>
    have hn : n = 0 := by simpa [Fl.is_zero] using hz
    subst hn
    rw [add_zero_left]
    cases a with
    | nan => rfl
    | inf s => rfl
    | fin s m e =>
      by_cases h : m = 0
      · simp [Fl.add, Fl.is_zero, h]
      · simp [Fl.add, Fl.is_zero, h]

/-- Starting the second summand from `+0` does not change a sum that started from
`+0`. -/
theorem add_add_zero (f : Fmt) (a b : Fl) :
    Fl.add f (Fl.add f (Fl.fin false 0 0) a) (Fl.add f (Fl.fin false 0 0) b) =
      Fl.add f (Fl.add f (Fl.fin false 0 0) a) b := by
  by_cases hb : b.is_zero = true
  · rw [add_zero_left f b, if_pos hb, add_zero_right f a b hb]
    exact add_zero_right f a _ rfl
  · rw [add_zero_left f b, if_neg hb]

theorem signed_add_not (s : Bool) (m : Nat) : signed s m + signed (!s) m = 0 := by
  cases s <;> simp [signed]

/-- A finite number plus its negation is `+0`. -/
theorem add_neg_self (f : Fmt) (s : Bool) (m : Nat) (e : Int) :
    Fl.add f (Fl.fin s m e) (Fl.fin (!s) m e) = Fl.fin false 0 0 := by
  by_cases h : m = 0
  · subst h; cases s <;> simp [Fl.add]
  · simp [Fl.add, h, signed_add_not]

/-- A finite number minus itself is `+0`. -/
theorem sub_self_fin (f : Fmt) (s : Bool) (m : Nat) (e : Int) :
    Fl.sub f (Fl.fin s m e) (Fl.fin s m e) = Fl.fin false 0 0 := by
  unfold Fl.sub
  rw [neg_fin]
  exact add_neg_self f s m e

/-! ## Binary32: a charge on a sample point -/

/-- C14: in binary32 arithmetic there is a charge configuration with finite inputs and
a charge located exactly at a sample point for which the cell's stored value is not a
finite number.  After `set_charges(0.25, 0.5, 2^84, 0.75, 0.5, 0)` from the initial
state, charge 0 sits on the sample point `(5/20, 10/20)` of cell `(5, 10)`; there
`dx = dy = 0`, `E = k*q/r2` overflows to `+inf`, `E*dx` is `inf*0`, and
`compute_field` stores `(NaN, NaN)` for the cell. -/
theorem coincidence_not_finite :
    ∃ (s t : State Fl) (i j : Nat) (c : Fin 2),
      s = set_charges (init_state ieeeOps) (Fl.fin false 8388608 (-25))
        (Fl.fin false 8388608 (-24)) (Fl.fin false 8388608 61)
        (Fl.fin false 12582912 (-24)) (Fl.fin false 8388608 (-24)) (Fl.fin false 0 0) ∧
      s.field.length = 800 ∧ i < 20 ∧ j < 20 ∧
      (s.charges c).x = sample_x ieeeOps i ∧ (s.charges c).y = sample_y ieeeOps j ∧
      (s.charges c).q.is_finite = true ∧
      compute_field ieeeOps s = some t ∧
      stored_at t i j (Fl.nan, Fl.nan) ∧ Fl.nan.is_finite = false := by
  obtain ⟨h0, h1, hf⟩ := set_charges_eq (init_state ieeeOps) (Fl.fin false 8388608 (-25))
    (Fl.fin false 8388608 (-24)) (Fl.fin false 8388608 61)
    (Fl.fin false 12582912 (-24)) (Fl.fin false 8388608 (-24)) (Fl.fin false 0 0)
  have hl : (set_charges (init_state ieeeOps) (Fl.fin false 8388608 (-25))
      (Fl.fin false 8388608 (-24)) (Fl.fin false 8388608 61)
      (Fl.fin false 12582912 (-24)) (Fl.fin false 8388608 (-24)) (Fl.fin false 0 0)).field.length
      = 800 := by rw [hf]; exact init_state_length ieeeOps
  obtain ⟨t, e⟩ := compute_field_returns ieeeOps _ hl
  have hs := compute_field_stored ieeeOps _ t hl e 5 10 (by decide) (by decide)
  rw [cell_value_eq_steps, h0, h1] at hs
  have hv : charge_step ieeeOps
      ⟨Fl.fin false 12582912 (-24), Fl.fin false 8388608 (-24), Fl.fin false 0 0⟩
      (sample_x ieeeOps 5) (sample_y ieeeOps 10)
      (charge_step ieeeOps
        ⟨Fl.fin false 8388608 (-25), Fl.fin false 8388608 (-24), Fl.fin false 8388608 61⟩
        (sample_x ieeeOps 5) (sample_y ieeeOps 10) (ieeeOps.zero, ieeeOps.zero))
      = (Fl.nan, Fl.nan) := by decide!
  rw [hv] at hs
  refine ⟨_, t, 5, 10, 0, rfl, hl, by decide, by decide, ?_, ?_, ?_, e, hs, rfl⟩
  · rw [h0]; decide!
  · rw [h0]; decide!
  · rw [h0]; rfl

/-- The sample coordinates of the 20 columns and rows are finite binary32 numbers. -/
theorem sample_finite (i : Nat) (hi : i < 20) :
    (sample_x ieeeOps i).is_finite = true ∧ (sample_y ieeeOps i).is_finite = true := by
  interval_cases i <;> exact ⟨by decide!, by decide!⟩

theorem is_finite_iff (x : Fl) : x.is_finite = true ↔ ∃ s m e, x = Fl.fin s m e := by
  cases x <;> simp [Fl.is_finite]

theorem is_zero_iff (x : Fl) : x.is_zero = true ↔ ∃ s e, x = Fl.fin s 0 e := by
  cases x <;> simp [Fl.is_zero]

/-- A finite number times a zero is a zero. -/
theorem mul_zero_right (f : Fmt) (x z : Fl) (hx : x.is_finite = true)
    (hz : z.is_zero = true) : (Fl.mul f x z).is_zero = true := by
  obtain ⟨s, m, e, rfl⟩ := (is_finite_iff x).mp hx
  obtain ⟨t, k, rfl⟩ := (is_zero_iff z).mp hz
  simp [Fl.mul, round_zero, Fl.is_zero]

/-- A zero over a finite non-zero number is a zero. -/
theorem div_zero_left (f : Fmt) (z y : Fl) (hz : z.is_zero = true)
    (hy : y.is_finite = true) (hy0 : y.is_zero = false) : (Fl.div f z y).is_zero = true := by
  obtain ⟨t, k, rfl⟩ := (is_zero_iff z).mp hz
  obtain ⟨s, m, e, rfl⟩ := (is_finite_iff y).mp hy
  have hm : m ≠ 0 := by simpa [Fl.is_zero] using hy0
  simp [Fl.div, hm, round_zero, Fl.is_zero]

/-- In binary32, a charge that sits on the sample point and whose `E` is finite:
`dx = dy = +0`, `r2` is the binary32 number nearest to `1e-4`, `r` its rounded root,
and the pair added to the accumulators is a pair of zeros. -/
theorem coincident_raw (ch : Charge Fl) (px py : Fl) (hx : ch.x = px) (hy : ch.y = py)
    (hpx : px.is_finite = true) (hpy : py.is_finite = true)
    (hE : (term_E ieeeOps ch px py).is_finite = true) :
    term_dx ieeeOps ch px = Fl.fin false 0 0 ∧ term_dy ieeeOps ch py = Fl.fin false 0 0 ∧
    term_r2 ieeeOps ch px py = Fl.fin false 13743895 (-37) ∧
    term_r ieeeOps ch px py = Fl.fin false 10737418 (-30) ∧
    (raw_term ieeeOps ch px py).1.is_zero = true ∧
    (raw_term ieeeOps ch px py).2.is_zero = true := by
  obtain ⟨s, m, e, rfl⟩ := (is_finite_iff px).mp hpx
  obtain ⟨t, n, k, rfl⟩ := (is_finite_iff py).mp hpy
  have hdx : term_dx ieeeOps ch (Fl.fin s m e) = Fl.fin false 0 0 := by
    show Fl.sub binary32 (Fl.fin s m e) ch.x = _
    rw [hx]; exact sub_self_fin _ _ _ _
  have hdy : term_dy ieeeOps ch (Fl.fin t n k) = Fl.fin false 0 0 := by
    show Fl.sub binary32 (Fl.fin t n k) ch.y = _
    rw [hy]; exact sub_self_fin _ _ _ _
  have hr2 : term_r2 ieeeOps ch (Fl.fin s m e) (Fl.fin t n k) = Fl.fin false 13743895 (-37) := by
    unfold term_r2
    rw [hdx, hdy]
    decide!
  have hr : term_r ieeeOps ch (Fl.fin s m e) (Fl.fin t n k) = Fl.fin false 10737418 (-30) := by
    unfold term_r
    rw [hr2]
    decide!
  refine ⟨hdx, hdy, hr2, hr, ?_, ?_⟩
  · show (Fl.div binary32 (Fl.mul binary32 (term_E ieeeOps ch _ _) (term_dx ieeeOps ch _))
      (term_r ieeeOps ch _ _)).is_zero = true
    rw [hdx, hr]
    exact div_zero_left _ _ _ (mul_zero_right _ _ _ hE rfl) rfl rfl
  · show (Fl.div binary32 (Fl.mul binary32 (term_E ieeeOps ch _ _) (term_dy ieeeOps ch _))
      (term_r ieeeOps ch _ _)).is_zero = true
    rw [hdy, hr]
    exact div_zero_left _ _ _ (mul_zero_right _ _ _ hE rfl) rfl rfl

/-- In binary32 the term of a charge is its `raw_term` added to `+0`. -/
theorem charge_term_ieee (ch : Charge Fl) (px py : Fl) :
    charge_term ieeeOps ch px py =
      (Fl.add binary32 (Fl.fin false 0 0) (raw_term ieeeOps ch px py).1,
       Fl.add binary32 (Fl.fin false 0 0) (raw_term ieeeOps ch px py).2) :=
  rfl

/-- In binary32, adding to `(+0, +0)` a pair of zeros gives `(+0, +0)`. -/
theorem charge_term_zero_of_raw (ch : Charge Fl) (px py : Fl)
    (h1 : (raw_term ieeeOps ch px py).1.is_zero = true)
    (h2 : (raw_term ieeeOps ch px py).2.is_zero = true) :
    charge_term ieeeOps ch px py = (Fl.fin false 0 0, Fl.fin false 0 0) := by
  rw [charge_term_ieee, add_zero_left, add_zero_left, if_pos h1, if_pos h2]

/-- In binary32, when the pair added for one charge is a pair of zeros, the value of
the cell is the term of the other charge. -/
theorem cell_value_other_ieee (ch : Fin 2 → Charge Fl) (i j : Nat) (c c' : Fin 2)
    (hne : c' ≠ c)
    (h1 : (raw_term ieeeOps (ch c) (sample_x ieeeOps i) (sample_y ieeeOps j)).1.is_zero = true)
    (h2 : (raw_term ieeeOps (ch c) (sample_x ieeeOps i) (sample_y ieeeOps j)).2.is_zero = true) :
    cell_value ieeeOps ch i j =
      charge_term ieeeOps (ch c') (sample_x ieeeOps i) (sample_y ieeeOps j) := by
  rw [cell_value_eq_steps]
  have hc : c = 0 ∨ c = 1 := by fin_cases c <;> simp
  have hc' : c' = 0 ∨ c' = 1 := by fin_cases c' <;> simp
  rcases hc with rfl | rfl <;> rcases hc' with rfl | rfl
  · exact absurd rfl hne
  · have hz : charge_step ieeeOps (ch 0) (sample_x ieeeOps i) (sample_y ieeeOps j)
        (ieeeOps.zero, ieeeOps.zero) = (Fl.fin false 0 0, Fl.fin false 0 0) :=
      charge_term_zero_of_raw _ _ _ h1 h2
    rw [hz]
    rfl
  · show charge_step ieeeOps (ch 1) _ _ (charge_term ieeeOps (ch 0) _ _) = _
    rw [charge_step_eq, charge_term_ieee]
    show (Fl.add binary32 _ _, Fl.add binary32 _ _) = _
    simp only []
    rw [add_zero_right _ _ _ h1, add_zero_right _ _ _ h2]
  · exact absurd rfl hne

/-! ## Binary32: opposite charges at one point -/

theorem raw_term_neg_q (x y q px py : Fl) :
    raw_term ieeeOps ⟨x, y, q.neg⟩ px py =
      ((raw_term ieeeOps ⟨x, y, q⟩ px py).1.neg, (raw_term ieeeOps ⟨x, y, q⟩ px py).2.neg) := by
  have hE : term_E ieeeOps ⟨x, y, q.neg⟩ px py = (term_E ieeeOps ⟨x, y, q⟩ px py).neg := by
    show Fl.div binary32 (Fl.mul binary32 (coulomb_k ieeeOps) q.neg) _ = _
    rw [mul_neg_right, div_neg_left]
    rfl
  show (Fl.div binary32 (Fl.mul binary32 (term_E ieeeOps ⟨x, y, q.neg⟩ px py) _) _,
    Fl.div binary32 (Fl.mul binary32 (term_E ieeeOps ⟨x, y, q.neg⟩ px py) _) _) = _
  rw [hE, mul_neg_left, mul_neg_left, div_neg_left, div_neg_left]
  rfl

/-- A finite number added to `+0` and then to its negation gives `+0`. -/
theorem add_zero_add_neg (f : Fmt) (a : Fl) (ha : a.is_finite = true) :
    Fl.add f (Fl.add f (Fl.fin false 0 0) a) a.neg = Fl.fin false 0 0 := by
  obtain ⟨s, m, e, rfl⟩ := (is_finite_iff a).mp ha
  rw [add_zero_left, neg_fin]
  by_cases h : m = 0
  · subst h
    simp [Fl.is_zero, Fl.add]
  · simp only [Fl.is_zero, h, decide_False, Bool.false_eq_true, if_false]
    exact add_neg_self f s m e

/-! ## Binary floating-point arithmetic: the sign of a result -/

theorem mul_nan_left (f : Fmt) (y : Fl) : Fl.mul f Fl.nan y = Fl.nan := by
  cases y <;> rfl

theorem mul_nan_right (f : Fmt) (x : Fl) : Fl.mul f x Fl.nan = Fl.nan := by
  cases x <;> rfl

theorem div_nan_left (f : Fmt) (y : Fl) : Fl.div f Fl.nan y = Fl.nan := by
  cases y <;> rfl

theorem div_nan_right (f : Fmt) (x : Fl) : Fl.div f x Fl.nan = Fl.nan := by
  cases x <;> rfl

theorem add_nan_left (f : Fmt) (y : Fl) : Fl.add f Fl.nan y = Fl.nan := by
  cases y <;> rfl

theorem add_nan_right (f : Fmt) (x : Fl) : Fl.add f x Fl.nan = Fl.nan := by
  cases x <;> rfl

/-- A product is NaN or has the exclusive or of the sign bits of its factors. -/
theorem mul_sign (f : Fmt) (x y : Fl) :
    Fl.mul f x y = Fl.nan ∨
      ∃ a b, x.sign_bit = some a ∧ y.sign_bit = some b ∧
        (Fl.mul f x y).sign_bit = some (xor a b) := by
  cases x with
  | nan => left; exact mul_nan_left f y
  | inf a =>
    cases y with
    | nan => left; rfl
    | inf b => right; exact ⟨a, b, rfl, rfl, rfl⟩
    | fin b n k =>
      by_cases h : n = 0
      · left; simp only [Fl.mul, h, if_true]
      · right
        refine ⟨a, b, rfl, rfl, ?_⟩
        simp only [Fl.mul, h, if_false, Fl.sign_bit]
  | fin a m e =>
    cases y with
    | nan => left; rfl
    | inf b =>
      by_cases h : m = 0
      · left; simp only [Fl.mul, h, if_true]
      · right
        refine ⟨a, b, rfl, rfl, ?_⟩
        simp only [Fl.mul, h, if_false, Fl.sign_bit]
    | fin b n k => right; exact ⟨a, b, rfl, rfl, round_sign_bit _ _ _ _ _⟩

/-- A quotient is NaN or has the exclusive or of the sign bits of its operands. -/
theorem div_sign (f : Fmt) (x y : Fl) :
    Fl.div f x y = Fl.nan ∨
      ∃ a b, x.sign_bit = some a ∧ y.sign_bit = some b ∧
        (Fl.div f x y).sign_bit = some (xor a b) := by
  cases x with
  | nan => left; exact div_nan_left f y
  | inf a =>
    cases y with
    | nan => left; rfl
    | inf b => left; rfl
    | fin b n k => right; exact ⟨a, b, rfl, rfl, rfl⟩
  | fin a m e =>
    cases y with
    | nan => left; rfl
    | inf b => right; exact ⟨a, b, rfl, rfl, rfl⟩
    | fin b n k =>
      by_cases h : n = 0
      · by_cases h0 : m = 0
        · left; simp only [Fl.div, h, h0, if_true]
        · right
          refine ⟨a, b, rfl, rfl, ?_⟩
          simp only [Fl.div, h, h0, if_true, if_false, Fl.sign_bit]
      · right
        refine ⟨a, b, rfl, rfl, ?_⟩
        simp only [Fl.div, h, if_false]
        exact round_sign_bit _ _ _ _ _

/-- A datum is NaN or not negative: its sign bit, if any, is clear. -/
theorem sign_false_cases (x : Fl) (h : x = Fl.nan ∨ x.sign_bit = some false) :
    x = Fl.nan ∨ x = Fl.inf false ∨ ∃ m e, x = Fl.fin false m e := by
  rcases h with h | h
  · exact Or.inl h
  · cases x with
    | nan => exact Or.inl rfl
    | inf s => simp [Fl.sign_bit] at h; subst h; exact Or.inr (Or.inl rfl)
    | fin s m e => simp [Fl.sign_bit] at h; subst h; exact Or.inr (Or.inr ⟨m, e, rfl⟩)

/-- A square is NaN or not negative. -/
theorem mul_self_sign (f : Fmt) (x : Fl) :
    Fl.mul f x x = Fl.nan ∨ (Fl.mul f x x).sign_bit = some false := by
  rcases mul_sign f x x with h | ⟨a, b, ha, hb, h⟩
  · exact Or.inl h
  · rw [ha] at hb
    cases hb
    right
    rw [h]
    simp

theorem signed_false (m : Nat) : signed false m = (m : Int) := rfl

/-- The sum of two data that are NaN or not negative is NaN or not negative. -/
theorem add_sign_false (f : Fmt) (x y : Fl)
    (hx : x = Fl.nan ∨ x.sign_bit = some false) (hy : y = Fl.nan ∨ y.sign_bit = some false) :
    Fl.add f x y = Fl.nan ∨ (Fl.add f x y).sign_bit = some false := by
  rcases sign_false_cases x hx with rfl | rfl | ⟨m, e, rfl⟩
  · left; exact add_nan_left f y
  · rcases sign_false_cases y hy with rfl | rfl | ⟨n, k, rfl⟩
    · left; rfl
    · right; rfl
    · right; rfl
  · rcases sign_false_cases y hy with rfl | rfl | ⟨n, k, rfl⟩
    · left; rfl
    · right; rfl
    · right
      simp only [Fl.add]
      split_ifs with h1 h2 h3 h4
      · rfl
      · rfl
      · rfl
      · rfl
      · rw [round_sign_bit]
        have hc : ¬ (signed false (m * 2 ^ (e - min e k).toNat) +
            signed false (n * 2 ^ (k - min e k).toNat) < 0) := by
          simp only [signed_false, not_lt]
          positivity
        simp only [hc, decide_False]

/-- Narrowing keeps NaN and the sign bit. -/
theorem narrow_sign (f : Fmt) (x : Fl) (b : Bool) (h : x = Fl.nan ∨ x.sign_bit = some b) :
    Fl.narrow f x = Fl.nan ∨ (Fl.narrow f x).sign_bit = some b := by
  cases x with
  | nan => left; rfl
  | inf s => right; simpa [Fl.narrow, Fl.sign_bit] using h
  | fin s m e =>
    right
    have : s = b := by simpa [Fl.sign_bit] using h
    subst this
    exact round_sign_bit _ _ _ _ _

/-- The square root of a datum that is NaN or not negative is NaN or not negative. -/
theorem sqrt_sign (f : Fmt) (x : Fl) (h : x = Fl.nan ∨ x.sign_bit = some false) :
    Fl.sqrt f x = Fl.nan ∨ (Fl.sqrt f x).sign_bit = some false := by
  rcases sign_false_cases x h with rfl | rfl | ⟨m, e, rfl⟩
  · left; rfl
  · right; rfl
  · right
    by_cases h0 : m = 0
    · simp only [Fl.sqrt, h0, if_true, Fl.sign_bit]
    · have hs : Fl.sqrt f (Fl.fin false m e) = Fl.round f false (isqrt (m * 2 ^ sqrt_scale f e))
          ((e - (sqrt_scale f e : Nat)) / 2)
          (decide (isqrt (m * 2 ^ sqrt_scale f e) * isqrt (m * 2 ^ sqrt_scale f e)
            ≠ m * 2 ^ sqrt_scale f e)) := by
        simp [Fl.sqrt, h0]
      rw [hs]
      exact round_sign_bit _ _ _ _ _

/-- In binary32 the softened squared distance `r2` and its root `r` are NaN or not
negative, whatever the inputs. -/
theorem r2_r_sign (ch : Charge Fl) (px py : Fl) :
    (term_r2 ieeeOps ch px py = Fl.nan ∨ (term_r2 ieeeOps ch px py).sign_bit = some false) ∧
    (term_r ieeeOps ch px py = Fl.nan ∨ (term_r ieeeOps ch px py).sign_bit = some false) := by
  have h2 : term_r2 ieeeOps ch px py = Fl.nan ∨
      (term_r2 ieeeOps ch px py).sign_bit = some false := by
    show Fl.narrow binary32 (Fl.add binary64 (Fl.add binary32
      (Fl.mul binary32 (term_dx ieeeOps ch px) (term_dx ieeeOps ch px))
      (Fl.mul binary32 (term_dy ieeeOps ch py) (term_dy ieeeOps ch py)))
      (Fl.fin false 7378697629483821 (-66))) = Fl.nan ∨ _
    exact narrow_sign _ _ _ (add_sign_false _ _ _
      (add_sign_false _ _ _ (mul_self_sign _ _) (mul_self_sign _ _)) (Or.inr rfl))
  exact ⟨h2, sqrt_sign _ _ h2⟩

/-! ## Binary32: the sign of a charge's term -/

/-- What `compute_field` stores after `set_charges`, cell by cell: the loop body run
for charge 0 and then for charge 1, from `(0.0f, 0.0f)`. -/
theorem stored_after_set_charges {F D : Type} (ops : FloatOps F D) (s : State F)
    (hlen : s.field.length = 800) (x1 y1 q1 x2 y2 q2 : F) :
    ∃ t, compute_field ops (set_charges s x1 y1 q1 x2 y2 q2) = some t ∧
      ∀ i j, i < 20 → j < 20 →
        stored_at t i j
          (charge_step ops ⟨x2, y2, q2⟩ (sample_x ops i) (sample_y ops j)
            (charge_step ops ⟨x1, y1, q1⟩ (sample_x ops i) (sample_y ops j)
              (ops.zero, ops.zero))) := by
  obtain ⟨h0, h1, hf⟩ := set_charges_eq s x1 y1 q1 x2 y2 q2
  have hl : (set_charges s x1 y1 q1 x2 y2 q2).field.length = 800 := by rw [hf, hlen]
  obtain ⟨t, e⟩ := compute_field_returns ops _ hl
  refine ⟨t, e, ?_⟩
  intro i j hi hj
  have hs := compute_field_stored ops _ t hl e i j hi hj
  rw [cell_value_eq_steps, h0, h1] at hs
  exact hs

theorem sign_bit_nan_ne (a : Bool) : ¬ (Fl.nan.sign_bit = some a) := by
  simp [Fl.sign_bit]

/-- The sign of `k*q/r2*d/r` when `k`, `r2` and `r` are not negative: NaN, or the
exclusive or of the sign bits of `q` and `d`. -/
theorem chain_sign (f : Fmt) (k q r2 d r : Fl) (hk : k.sign_bit = some false)
    (hr2 : r2 = Fl.nan ∨ r2.sign_bit = some false)
    (hr : r = Fl.nan ∨ r.sign_bit = some false) :
    Fl.div f (Fl.mul f (Fl.div f (Fl.mul f k q) r2) d) r = Fl.nan ∨
      ∃ a b, q.sign_bit = some a ∧ d.sign_bit = some b ∧
        (Fl.div f (Fl.mul f (Fl.div f (Fl.mul f k q) r2) d) r).sign_bit
          = some (xor a b) := by
  rcases hr with rfl | hr
  · left; exact div_nan_right _ _
  rcases hr2 with rfl | hr2
  · left; rw [div_nan_right, mul_nan_left, div_nan_left]
  rcases mul_sign f k q with h1 | ⟨a1, b1, hk1, hq1, h1⟩
  · left; rw [h1, div_nan_left, mul_nan_left, div_nan_left]
  rcases div_sign f (Fl.mul f k q) r2 with h2 | ⟨a2, b2, ha2, hb2, h2⟩
  · left; rw [h2, mul_nan_left, div_nan_left]
  rcases mul_sign f (Fl.div f (Fl.mul f k q) r2) d with h3 | ⟨a3, b3, ha3, hb3, h3⟩
  · left; rw [h3, div_nan_left]
  rcases div_sign f (Fl.mul f (Fl.div f (Fl.mul f k q) r2) d) r with h4 | ⟨a4, b4, ha4, hb4, h4⟩
  · left; exact h4
  right
  refine ⟨b1, b3, hq1, hb3, ?_⟩
  rw [h4]
  rw [hk] at hk1
  rw [hr2] at hb2
  rw [hr] at hb4
  rw [h1] at ha2
  rw [h2] at ha3
  rw [h3] at ha4
  simp only [Option.some.injEq] at hk1 hb2 hb4 ha2 ha3 ha4
  subst hk1 hb2 hb4 ha2 ha3 ha4
  simp

theorem coulomb_k_ieee : coulomb_k ieeeOps = Fl.fin false 8776905 10 := by decide!

/-- In binary32 each component of the pair the loop body adds for a charge is NaN or
has the sign of `q` times the sign of the displacement component. -/
theorem raw_term_sign (ch : Charge Fl) (px py : Fl) :
    ((raw_term ieeeOps ch px py).1 = Fl.nan ∨
      ∃ a b, ch.q.sign_bit = some a ∧ (term_dx ieeeOps ch px).sign_bit = some b ∧
        (raw_term ieeeOps ch px py).1.sign_bit = some (xor a b)) ∧
    ((raw_term ieeeOps ch px py).2 = Fl.nan ∨
      ∃ a b, ch.q.sign_bit = some a ∧ (term_dy ieeeOps ch py).sign_bit = some b ∧
        (raw_term ieeeOps ch px py).2.sign_bit = some (xor a b)) := by
  obtain ⟨h2, hr⟩ := r2_r_sign ch px py
  have hk : (coulomb_k ieeeOps).sign_bit = some false := by rw [coulomb_k_ieee]; rfl
  exact ⟨chain_sign binary32 (coulomb_k ieeeOps) ch.q _ (term_dx ieeeOps ch px) _ hk h2 hr,
    chain_sign binary32 (coulomb_k ieeeOps) ch.q _ (term_dy ieeeOps ch py) _ hk h2 hr⟩

/-- A NaN or a zero times anything is a NaN or a zero. -/
theorem mul_zn_left (f : Fmt) (x y : Fl) (h : x = Fl.nan ∨ x.is_zero = true) :
    Fl.mul f x y = Fl.nan ∨ (Fl.mul f x y).is_zero = true := by
  rcases h with rfl | h
  · left; exact mul_nan_left f y
  · obtain ⟨s, e, rfl⟩ := (is_zero_iff x).mp h
    cases y with
    | nan => left; rfl
    | inf b => left; simp [Fl.mul]
    | fin t n k => right; simp [Fl.mul, round_zero, Fl.is_zero]

/-- Anything times a NaN or a zero is a NaN or a zero. -/
theorem mul_zn_right (f : Fmt) (x y : Fl) (h : y = Fl.nan ∨ y.is_zero = true) :
    Fl.mul f x y = Fl.nan ∨ (Fl.mul f x y).is_zero = true := by
  rcases h with rfl | h
  · left; exact mul_nan_right f x
  · obtain ⟨s, e, rfl⟩ := (is_zero_iff y).mp h
    cases x with
    | nan => left; rfl
    | inf b => left; simp [Fl.mul]
    | fin t n k => right; simp [Fl.mul, round_zero, Fl.is_zero]

/-- A NaN or a zero over anything is a NaN or a zero. -/
theorem div_zn_left (f : Fmt) (x y : Fl) (h : x = Fl.nan ∨ x.is_zero = true) :
    Fl.div f x y = Fl.nan ∨ (Fl.div f x y).is_zero = true := by
  rcases h with rfl | h
  · left; exact div_nan_left f y
  · obtain ⟨s, e, rfl⟩ := (is_zero_iff x).mp h
    cases y with
    | nan => left; rfl
    | inf b => right; rfl
    | fin t n k =>
      by_cases hn : n = 0
      · left; simp [Fl.div, hn]
      · right; simp [Fl.div, hn, round_zero, Fl.is_zero]

/-- In binary32 the pair the loop body adds for a charge of magnitude zero has
components that are NaN or zeros. -/
theorem raw_term_inert (ch : Charge Fl) (px py : Fl) (hq : ch.q.is_zero = true) :
    ((raw_term ieeeOps ch px py).1 = Fl.nan ∨ (raw_term ieeeOps ch px py).1.is_zero = true) ∧
    ((raw_term ieeeOps ch px py).2 = Fl.nan ∨ (raw_term ieeeOps ch px py).2.is_zero = true) := by
  have hE : term_E ieeeOps ch px py = Fl.nan ∨ (term_E ieeeOps ch px py).is_zero = true :=
    div_zn_left _ _ _ (mul_zn_right _ _ _ (Or.inr hq))
  exact ⟨div_zn_left _ _ _ (mul_zn_left _ _ _ hE), div_zn_left _ _ _ (mul_zn_left _ _ _ hE)⟩

/-- A sum that started from `+0`, of a summand `t` that is NaN or has a known sign bit and
of a summand `z` that is NaN or a zero, in either order, is NaN, a zero, or `t` itself. -/
theorem add_active_inert (f : Fmt) (t z : Fl) (hz : z = Fl.nan ∨ z.is_zero = true) :
    (Fl.add f (Fl.add f (Fl.fin false 0 0) t) z = Fl.nan ∨
      (Fl.add f (Fl.add f (Fl.fin false 0 0) t) z).is_zero = true ∨
      Fl.add f (Fl.add f (Fl.fin false 0 0) t) z = t) ∧
    (Fl.add f (Fl.add f (Fl.fin false 0 0) z) t = Fl.nan ∨
      (Fl.add f (Fl.add f (Fl.fin false 0 0) z) t).is_zero = true ∨
      Fl.add f (Fl.add f (Fl.fin false 0 0) z) t = t) := by
  have h0 : Fl.add f (Fl.fin false 0 0) t = Fl.nan ∨
      (Fl.add f (Fl.fin false 0 0) t).is_zero = true ∨ Fl.add f (Fl.fin false 0 0) t = t := by
    rw [add_zero_left]
    by_cases h : t.is_zero = true
    · right; left; rw [if_pos h]; rfl
    · right; right; rw [if_neg h]
  rcases hz with rfl | hz
  · exact ⟨Or.inl (add_nan_right _ _), Or.inl (by rw [add_nan_right, add_nan_left])⟩
  · refine ⟨by rw [add_zero_right f t z hz]; exact h0, ?_⟩
    have : Fl.add f (Fl.fin false 0 0) z = Fl.fin false 0 0 := by
      rw [add_zero_left, if_pos hz]
    rw [this]
    exact h0

/-- The sign statement for a component equal to a term component. -/
theorem sign_agrees_of (v t q d : Fl)
    (ht : t = Fl.nan ∨ ∃ a b, q.sign_bit = some a ∧ d.sign_bit = some b ∧
      t.sign_bit = some (xor a b))
    (hv : v = Fl.nan ∨ v.is_zero = true ∨ v = t) : Fl.sign_agrees v q d := by
  rcases hv with h | h | h
  · exact Or.inl h
  · exact Or.inr (Or.inl h)
  · subst h
    rcases ht with h | h
    · exact Or.inl h
    · exact Or.inr (Or.inr h)

/-! ## Binary32: a single charge at the centre of the grid -/

theorem neg_is_zero (x : Fl) : x.neg.is_zero = x.is_zero := by
  cases x <;> rfl

/-- A sum that started from `+0`, of a summand `t` and then of a summand that is NaN or a
zero, is NaN or `t` with its zero normalised to `+0`. -/
theorem add_zero_then (f : Fmt) (t z : Fl) (hz : z = Fl.nan ∨ z.is_zero = true) :
    Fl.add f (Fl.add f (Fl.fin false 0 0) t) z = Fl.nan ∨
      Fl.add f (Fl.add f (Fl.fin false 0 0) t) z
        = if t.is_zero = true then Fl.fin false 0 0 else t := by
  rcases hz with rfl | hz
  · left; exact add_nan_right _ _
  · right; rw [add_zero_right f t z hz, add_zero_left]

/-- Two sums of mirrored summands are mirror images of each other. -/
theorem sum_mirror (f : Fmt) (t t' z z' : Fl) (hz : z = Fl.nan ∨ z.is_zero = true)
    (hz' : z' = Fl.nan ∨ z'.is_zero = true)
    (ht : t' = t.neg ∨ (t' = t ∧ (t = Fl.nan ∨ t.is_zero = true))) :
    Fl.opposite (Fl.add f (Fl.add f (Fl.fin false 0 0) t) z)
      (Fl.add f (Fl.add f (Fl.fin false 0 0) t') z') := by
  rcases add_zero_then f t z hz with hv | hv
  · exact Or.inl hv
  rcases add_zero_then f t' z' hz' with hw | hw
  · exact Or.inr (Or.inl hw)
  rw [hv, hw]
  rcases ht with rfl | ⟨rfl, h | h⟩
  · rw [neg_is_zero]
    by_cases h : t.is_zero = true
    · rw [if_pos h, if_pos h]; exact Or.inr (Or.inr (Or.inl ⟨rfl, rfl⟩))
    · rw [if_neg h, if_neg h]; exact Or.inr (Or.inr (Or.inr rfl))
  · subst h; exact Or.inl rfl
  · rw [if_pos h]; exact Or.inr (Or.inr (Or.inl ⟨rfl, rfl⟩))

/-- The square of a mirrored displacement is the square of the displacement. -/
theorem mul_self_mirror (f : Fmt) (d d' : Fl)
    (h : d' = d.neg ∨ (d' = d ∧ d.is_zero = true)) : Fl.mul f d' d' = Fl.mul f d d := by
  rcases h with rfl | ⟨rfl, -⟩
  · rw [mul_neg_left, mul_neg_right, neg_neg]
  · rfl

/-- In binary32, at two sample points whose displacements from the charge are mirrored,
`r2`, `r` and `E` agree and the pairs the loop body adds are mirrored. -/
theorem raw_term_mirror (ch : Charge Fl) (px py px' py' : Fl)
    (hx : term_dx ieeeOps ch px' = (term_dx ieeeOps ch px).neg ∨
      (term_dx ieeeOps ch px' = term_dx ieeeOps ch px ∧
        (term_dx ieeeOps ch px).is_zero = true))
    (hy : term_dy ieeeOps ch py' = (term_dy ieeeOps ch py).neg ∨
      (term_dy ieeeOps ch py' = term_dy ieeeOps ch py ∧
        (term_dy ieeeOps ch py).is_zero = true)) :
    ((raw_term ieeeOps ch px' py').1 = (raw_term ieeeOps ch px py).1.neg ∨
      ((raw_term ieeeOps ch px' py').1 = (raw_term ieeeOps ch px py).1 ∧
        ((raw_term ieeeOps ch px py).1 = Fl.nan ∨
          (raw_term ieeeOps ch px py).1.is_zero = true))) ∧
    ((raw_term ieeeOps ch px' py').2 = (raw_term ieeeOps ch px py).2.neg ∨
      ((raw_term ieeeOps ch px' py').2 = (raw_term ieeeOps ch px py).2 ∧
        ((raw_term ieeeOps ch px py).2 = Fl.nan ∨
          (raw_term ieeeOps ch px py).2.is_zero = true))) := by
  have hr2 : term_r2 ieeeOps ch px' py' = term_r2 ieeeOps ch px py := by
    show Fl.narrow binary32 (Fl.add binary64 (Fl.add binary32
        (Fl.mul binary32 (term_dx ieeeOps ch px') (term_dx ieeeOps ch px'))
        (Fl.mul binary32 (term_dy ieeeOps ch py') (term_dy ieeeOps ch py')))
        (Fl.fin false 7378697629483821 (-66))) =
      Fl.narrow binary32 (Fl.add binary64 (Fl.add binary32
        (Fl.mul binary32 (term_dx ieeeOps ch px) (term_dx ieeeOps ch px))
        (Fl.mul binary32 (term_dy ieeeOps ch py) (term_dy ieeeOps ch py)))
        (Fl.fin false 7378697629483821 (-66)))
    rw [mul_self_mirror _ _ _ hx, mul_self_mirror _ _ _ hy]
  have hr : term_r ieeeOps ch px' py' = term_r ieeeOps ch px py := by
    unfold term_r; rw [hr2]
  have hE : term_E ieeeOps ch px' py' = term_E ieeeOps ch px py := by
    unfold term_E; rw [hr2]
  constructor
  · show Fl.div binary32 (Fl.mul binary32 (term_E ieeeOps ch px' py') (term_dx ieeeOps ch px'))
        (term_r ieeeOps ch px' py') =
        (Fl.div binary32 (Fl.mul binary32 (term_E ieeeOps ch px py) (term_dx ieeeOps ch px))
          (term_r ieeeOps ch px py)).neg ∨
      (Fl.div binary32 (Fl.mul binary32 (term_E ieeeOps ch px' py') (term_dx ieeeOps ch px'))
        (term_r ieeeOps ch px' py') =
        Fl.div binary32 (Fl.mul binary32 (term_E ieeeOps ch px py) (term_dx ieeeOps ch px))
          (term_r ieeeOps ch px py) ∧
        (Fl.div binary32 (Fl.mul binary32 (term_E ieeeOps ch px py) (term_dx ieeeOps ch px))
          (term_r ieeeOps ch px py) = Fl.nan ∨
         (Fl.div binary32 (Fl.mul binary32 (term_E ieeeOps ch px py) (term_dx ieeeOps ch px))
          (term_r ieeeOps ch px py)).is_zero = true))
    rw [hr, hE]
    rcases hx with h | ⟨h, h0⟩
    · left; rw [h, mul_neg_right, div_neg_left]
    · right; rw [h]
      exact ⟨rfl, div_zn_left _ _ _ (mul_zn_right _ _ _ (Or.inr h0))⟩
  · show Fl.div binary32 (Fl.mul binary32 (term_E ieeeOps ch px' py') (term_dy ieeeOps ch py'))
        (term_r ieeeOps ch px' py') =
        (Fl.div binary32 (Fl.mul binary32 (term_E ieeeOps ch px py) (term_dy ieeeOps ch py))
          (term_r ieeeOps ch px py)).neg ∨
      (Fl.div binary32 (Fl.mul binary32 (term_E ieeeOps ch px' py') (term_dy ieeeOps ch py'))
        (term_r ieeeOps ch px' py') =
        Fl.div binary32 (Fl.mul binary32 (term_E ieeeOps ch px py) (term_dy ieeeOps ch py))
          (term_r ieeeOps ch px py) ∧
        (Fl.div binary32 (Fl.mul binary32 (term_E ieeeOps ch px py) (term_dy ieeeOps ch py))
          (term_r ieeeOps ch px py) = Fl.nan ∨
         (Fl.div binary32 (Fl.mul binary32 (term_E ieeeOps ch px py) (term_dy ieeeOps ch py))
          (term_r ieeeOps ch px py)).is_zero = true))
    rw [hr, hE]
    rcases hy with h | ⟨h, h0⟩
    · left; rw [h, mul_neg_right, div_neg_left]
    · right; rw [h]
      exact ⟨rfl, div_zn_left _ _ _ (mul_zn_right _ _ _ (Or.inr h0))⟩

/-- For a mirrored offset `a` the columns `10 + a` and `10 - a` are in the grid and their
displacements from `0.5`, as computed in binary32, are mirrored. -/
theorem mirrored_offsets_spec (a : Int) (ha : a ∈ mirrored_offsets) :
    (10 + a).toNat < 20 ∧ (10 - a).toNat < 20 ∧
    (Fl.sub binary32 (sample_x ieeeOps (10 - a).toNat) (Fl.fin false 8388608 (-24)) =
        (Fl.sub binary32 (sample_x ieeeOps (10 + a).toNat) (Fl.fin false 8388608 (-24))).neg ∨
      (Fl.sub binary32 (sample_x ieeeOps (10 - a).toNat) (Fl.fin false 8388608 (-24)) =
        Fl.sub binary32 (sample_x ieeeOps (10 + a).toNat) (Fl.fin false 8388608 (-24)) ∧
       (Fl.sub binary32 (sample_x ieeeOps (10 + a).toNat)
        (Fl.fin false 8388608 (-24))).is_zero = true)) := by
  simp only [mirrored_offsets, List.mem_cons, List.mem_singleton, List.not_mem_nil,
    or_false] at ha
  rcases ha with rfl | rfl | rfl | rfl | rfl | rfl | rfl | rfl | rfl | rfl | rfl
  · exact ⟨by decide, by decide, Or.inr ⟨by decide!, by decide!⟩⟩
  all_goals exact ⟨by decide, by decide, Or.inl (by decide!)⟩

/-- For an offset `a` between `-9` and `9` the column `10 + a` is in the grid and its
displacement from `0.5`, as computed in binary32, has the sign of `a`. -/
theorem offset_sign (a : Int) (h1 : -9 ≤ a) (h2 : a ≤ 9) :
    (10 + a).toNat < 20 ∧
    (Fl.sub binary32 (sample_x ieeeOps (10 + a).toNat) (Fl.fin false 8388608 (-24))).sign_bit
      = (Fl.ofInt binary32 a).sign_bit := by
  interval_cases a <;> exact ⟨by decide, by decide!⟩

theorem sign_agrees_congr (v q d d' : Fl) (h : d.sign_bit = d'.sign_bit)
    (hv : Fl.sign_agrees v q d) : Fl.sign_agrees v q d' := by
  unfold Fl.sign_agrees at hv ⊢
  rw [← h]
  exact hv

theorem sample_y_eq_sample_x {F D : Type} (ops : FloatOps F D) (j : Nat) :
    sample_y ops j = sample_x ops j := rfl

/-! ## Binary floating-point arithmetic: rounding does not cross a representable number -/

theorem two_zpow_pos (z : Int) : (0 : ℚ) < (2 : ℚ) ^ z := zpow_pos (by norm_num) z

theorem ge_mono (x : Fl) (c c' : ℚ) (h : Fl.ge x c) (hc : c' ≤ c) : Fl.ge x c' := by
  rcases h with h | ⟨m, e, h, hv⟩
  · exact Or.inl h
  · exact Or.inr ⟨m, e, h, le_trans hc hv⟩

/-- The datum packed from a non-zero significand has the value of the significand. -/
theorem pack_ge (f : Fmt) (hp : 1 ≤ f.prec) (q : Nat) (e : Int) (hq : q ≠ 0) :
    Fl.ge (Fl.pack f false q e) ((q : ℚ) * (2 : ℚ) ^ e) := by
  unfold Fl.pack
  rw [if_neg hq]
  split_ifs with h1 h2 h3
  · exact Or.inl rfl
  · right
    refine ⟨_, _, rfl, ?_⟩
    obtain ⟨p, hp'⟩ : ∃ p, f.prec = p + 1 := ⟨f.prec - 1, by omega⟩
    rw [h1, hp', Nat.add_sub_cancel, zpow_add_one₀ (by norm_num : (2 : ℚ) ≠ 0)]
    push_cast
    rw [pow_succ]
    apply le_of_eq
    ring
  · exact Or.inl rfl
  · exact Or.inr ⟨_, _, rfl, le_rfl⟩

theorem shift_round_ge (m sh : Nat) (st : Bool) : m / 2 ^ sh ≤ shift_round m sh st := by
  unfold shift_round
  split_ifs <;> omega

/-- Rounding to nearest does not cross a number of the format: when the exact value
`m * 2^e` is at least `mw * 2^ew`, a number of at most `prec` bits with `emin <= ew`, so
is the rounded value. -/
theorem round_ge (f : Fmt) (hp : 1 ≤ f.prec) (m : Nat) (e : Int) (st : Bool)
    (mw : Nat) (ew : Int) (hpos : 0 < mw) (hmw : mw ≤ 2 ^ f.prec) (hew : f.emin ≤ ew)
    (h : (mw : ℚ) * (2 : ℚ) ^ ew ≤ (m : ℚ) * (2 : ℚ) ^ e) :
    Fl.ge (Fl.round f false m e st) ((mw : ℚ) * (2 : ℚ) ^ ew) := by
  have h2 : (2 : ℚ) ≠ 0 := by norm_num
  have hcpos : (0 : ℚ) < (mw : ℚ) * (2 : ℚ) ^ ew :=
    mul_pos (by exact_mod_cast hpos) (two_zpow_pos ew)
  have hm : m ≠ 0 := by
    rintro rfl
    simp at h
    linarith
  unfold Fl.round
  rw [if_neg hm]
  generalize hE : max (e + (bitlen m : Int) - (f.prec : Int)) f.emin = E
  by_cases hc : E ≤ e
  · rw [if_pos hc]
    have hq : m * 2 ^ (e - E).toNat ≠ 0 := by positivity
    refine ge_mono _ _ _ (pack_ge f hp _ E hq) ?_
    have hk : ((e - E).toNat : Int) = e - E := Int.toNat_of_nonneg (by omega)
    have hv : ((m * 2 ^ (e - E).toNat : Nat) : ℚ) * (2 : ℚ) ^ E = (m : ℚ) * (2 : ℚ) ^ e := by
      push_cast
      rw [mul_assoc, ← zpow_natCast, ← zpow_add₀ h2, hk]
      congr 2
      omega
    rw [hv]
    exact h
  · rw [if_neg hc]
    have hsh : (((E - e).toNat : Nat) : Int) = E - e := Int.toNat_of_nonneg (by omega)
    generalize hS : (E - e).toNat = sh at hsh
    have hkey : (mw : ℚ) * (2 : ℚ) ^ ew ≤ ((m / 2 ^ sh : Nat) : ℚ) * (2 : ℚ) ^ E := by
      by_cases hle : E ≤ ew
      · have hd : (((ew - E).toNat : Nat) : Int) = ew - E := Int.toNat_of_nonneg (by omega)
        generalize hD : (ew - E).toNat = d at hd
        have hnat : mw * 2 ^ d * 2 ^ sh ≤ m := by
          have h3 : ((mw * 2 ^ d * 2 ^ sh : Nat) : ℚ) * (2 : ℚ) ^ e ≤ (m : ℚ) * (2 : ℚ) ^ e := by
            refine le_trans (le_of_eq ?_) h
            push_cast
            rw [mul_assoc, mul_assoc, ← zpow_natCast, ← zpow_natCast, ← zpow_add₀ h2,
              ← zpow_add₀ h2]
            congr 2
            omega
          have h4 := le_of_mul_le_mul_right h3 (two_zpow_pos e)
          exact_mod_cast h4
        have hdiv : mw * 2 ^ d ≤ m / 2 ^ sh :=
          (Nat.le_div_iff_mul_le (by positivity)).mpr hnat
        have h5 : ((mw * 2 ^ d : Nat) : ℚ) ≤ ((m / 2 ^ sh : Nat) : ℚ) := by exact_mod_cast hdiv
        refine le_trans (le_of_eq ?_) (mul_le_mul_of_nonneg_right h5 (le_of_lt (two_zpow_pos E)))
        push_cast
        rw [mul_assoc, ← zpow_natCast, ← zpow_add₀ h2]
        congr 2
        omega
      · have hE' : E = e + (bitlen m : Int) - (f.prec : Int) := by
          rw [← hE]
          rw [← hE] at hle
          omega
        have hL : bitlen m = sh + f.prec := by omega
        have hbl : 2 ^ (sh + f.prec - 1) ≤ m := by
          rw [← hL]
          exact (lt_bitlen_iff m (bitlen m - 1)).mp (by have := bitlen_pos m hm; omega)
        have hdiv : 2 ^ (f.prec - 1) ≤ m / 2 ^ sh := by
          apply (Nat.le_div_iff_mul_le (by positivity)).mpr
          rw [← pow_add]
          have : f.prec - 1 + sh = sh + f.prec - 1 := by omega
          rw [this]
          exact hbl
        have h5 : ((2 ^ (f.prec - 1) : Nat) : ℚ) ≤ ((m / 2 ^ sh : Nat) : ℚ) := by
          exact_mod_cast hdiv
        have h6 : (mw : ℚ) ≤ ((2 ^ f.prec : Nat) : ℚ) := by exact_mod_cast hmw
        have h7 : (2 : ℚ) ^ (ew + 1) ≤ (2 : ℚ) ^ E :=
          zpow_le_zpow_right₀ (by norm_num) (by omega)
        calc (mw : ℚ) * (2 : ℚ) ^ ew
            ≤ ((2 ^ f.prec : Nat) : ℚ) * (2 : ℚ) ^ ew :=
              mul_le_mul_of_nonneg_right h6 (le_of_lt (two_zpow_pos ew))
          _ = ((2 ^ (f.prec - 1) : Nat) : ℚ) * (2 : ℚ) ^ (ew + 1) := by
              obtain ⟨p, hp'⟩ : ∃ p, f.prec = p + 1 := ⟨f.prec - 1, by omega⟩
              rw [hp', Nat.add_sub_cancel, zpow_add_one₀ h2]
              push_cast
              rw [pow_succ]
              ring
          _ ≤ ((2 ^ (f.prec - 1) : Nat) : ℚ) * (2 : ℚ) ^ E :=
              mul_le_mul_of_nonneg_left h7 (by positivity)
          _ ≤ ((m / 2 ^ sh : Nat) : ℚ) * (2 : ℚ) ^ E :=
              mul_le_mul_of_nonneg_right h5 (le_of_lt (two_zpow_pos E))
    have hfl : m / 2 ^ sh ≠ 0 := by
      intro h0
      rw [h0] at hkey
      simp at hkey
      linarith
    have hq1 := shift_round_ge m sh st
    have hq : shift_round m sh st ≠ 0 := by
      intro h0
      rw [h0] at hq1
      exact hfl (Nat.le_zero.mp hq1)
    refine ge_mono _ _ _ (pack_ge f hp _ E hq) (le_trans hkey ?_)
    exact mul_le_mul_of_nonneg_right (by exact_mod_cast hq1) (le_of_lt (two_zpow_pos E))

/-! ## Binary32: the softened squared distance is at least `(float)1e-4` -/

theorem sign_false_iff (x : Fl) :
    x.sign_bit = some false ↔ x = Fl.inf false ∨ ∃ m e, x = Fl.fin false m e := by
  cases x <;> simp [Fl.sign_bit]

theorem ge_sign (x : Fl) (c : ℚ) (h : Fl.ge x c) : x.sign_bit = some false := by
  rcases h with rfl | ⟨m, e, rfl, -⟩ <;> rfl

/-- A datum that is at least a positive number is not a zero. -/
theorem ge_not_zero (x : Fl) (c : ℚ) (hc : 0 < c) (h : Fl.ge x c) :
    x.is_zero = false ∧ x ≠ Fl.nan := by
  rcases h with rfl | ⟨m, e, rfl, hv⟩
  · exact ⟨rfl, by simp⟩
  · refine ⟨?_, by simp⟩
    have hm : m ≠ 0 := by
      rintro rfl
      simp at hv
      linarith
    simp [Fl.is_zero, hm]

/-- The square of a datum that is not NaN is not NaN and not negative. -/
theorem mul_self_sign_strict (f : Fmt) (x : Fl) (hx : x ≠ Fl.nan) :
    (Fl.mul f x x).sign_bit = some false := by
  cases x with
  | nan => exact absurd rfl hx
  | inf s => cases s <;> rfl
  | fin s m e =>
    show (Fl.round f (xor s s) (m * m) (e + e) false).sign_bit = some false
    rw [round_sign_bit]
    cases s <;> rfl

/-- The sum of two data that are not NaN and not negative is not NaN and not negative. -/
theorem add_sign_false_strict (f : Fmt) (x y : Fl) (hx : x.sign_bit = some false)
    (hy : y.sign_bit = some false) : (Fl.add f x y).sign_bit = some false := by
  rcases add_sign_false f x y (Or.inr hx) (Or.inr hy) with h | h
  · exfalso
    rcases (sign_false_iff x).mp hx with rfl | ⟨m, e, rfl⟩ <;>
      rcases (sign_false_iff y).mp hy with rfl | ⟨n, k, rfl⟩
    · simp [Fl.add] at h
    · simp [Fl.add] at h
    · simp [Fl.add] at h
    · have := round_sign_bit f
        (decide (signed false (m * 2 ^ (e - min e k).toNat) +
          signed false (n * 2 ^ (k - min e k).toNat) < 0))
        (signed false (m * 2 ^ (e - min e k).toNat) +
          signed false (n * 2 ^ (k - min e k).toNat)).natAbs (min e k) false
      simp only [Fl.add] at h
      split_ifs at h
      rw [h] at this
      exact sign_bit_nan_ne _ this
  · exact h

/-- The sum of a datum that is not NaN and not negative and of a positive finite number
is at least every number of the format that the positive number is at least. -/
theorem add_ge (f : Fmt) (hp : 1 ≤ f.prec) (x : Fl) (hx : x.sign_bit = some false)
    (n : Nat) (k : Int) (mw : Nat) (ew : Int) (hpos : 0 < mw) (hmw : mw ≤ 2 ^ f.prec)
    (hew : f.emin ≤ ew) (h : (mw : ℚ) * (2 : ℚ) ^ ew ≤ (n : ℚ) * (2 : ℚ) ^ k) :
    Fl.ge (Fl.add f x (Fl.fin false n k)) ((mw : ℚ) * (2 : ℚ) ^ ew) := by
  have h2 : (2 : ℚ) ≠ 0 := by norm_num
  have hcpos : (0 : ℚ) < (mw : ℚ) * (2 : ℚ) ^ ew :=
    mul_pos (by exact_mod_cast hpos) (two_zpow_pos ew)
  have hn : n ≠ 0 := by
    rintro rfl
    simp at h
    linarith
  rcases (sign_false_iff x).mp hx with rfl | ⟨m, e, rfl⟩
  · exact Or.inl rfl
  · by_cases hm : m = 0
    · subst hm
      have : Fl.add f (Fl.fin false 0 e) (Fl.fin false n k) = Fl.fin false n k := by
        simp [Fl.add, hn]
      rw [this]
      exact Or.inr ⟨n, k, rfl, h⟩
    · have hsum : signed false (m * 2 ^ (e - min e k).toNat) +
          signed false (n * 2 ^ (k - min e k).toNat) =
          ((m * 2 ^ (e - min e k).toNat + n * 2 ^ (k - min e k).toNat : Nat) : Int) := by
        simp [signed_false]
      have hne : m * 2 ^ (e - min e k).toNat + n * 2 ^ (k - min e k).toNat ≠ 0 := by
        have : 0 < m * 2 ^ (e - min e k).toNat := by positivity
        omega
      have hadd : Fl.add f (Fl.fin false m e) (Fl.fin false n k) =
          Fl.round f false (m * 2 ^ (e - min e k).toNat + n * 2 ^ (k - min e k).toNat)
            (min e k) false := by
        simp only [Fl.add, if_neg hm, if_neg hn, hsum]
        rw [if_neg (by exact_mod_cast hne)]
        congr 1
      rw [hadd]
      apply round_ge f hp _ _ _ mw ew hpos hmw hew
      refine le_trans h ?_
      have hb : (((k - min e k).toNat : Nat) : Int) = k - min e k :=
        Int.toNat_of_nonneg (by omega)
      have hv : (n : ℚ) * (2 : ℚ) ^ k =
          ((n * 2 ^ (k - min e k).toNat : Nat) : ℚ) * (2 : ℚ) ^ (min e k) := by
        push_cast
        rw [mul_assoc, ← zpow_natCast, ← zpow_add₀ h2, hb]
        congr 2
        omega
      rw [hv]
      apply mul_le_mul_of_nonneg_right _ (le_of_lt (two_zpow_pos _))
      push_cast
      have : (0 : ℚ) ≤ (m : ℚ) * 2 ^ (e - min e k).toNat := by positivity
      linarith

/-- Narrowing a datum that is at least a number of the narrow format keeps it at least
that number. -/
theorem narrow_ge (f : Fmt) (hp : 1 ≤ f.prec) (x : Fl) (mw : Nat) (ew : Int)
    (hpos : 0 < mw) (hmw : mw ≤ 2 ^ f.prec) (hew : f.emin ≤ ew)
    (h : Fl.ge x ((mw : ℚ) * (2 : ℚ) ^ ew)) :
    Fl.ge (Fl.narrow f x) ((mw : ℚ) * (2 : ℚ) ^ ew) := by
  rcases h with rfl | ⟨m, e, rfl, hv⟩
  · exact Or.inl rfl
  · exact round_ge f hp m e false mw ew hpos hmw hew hv

/-- In binary32 the softened squared distance of two displacements whose squares sum to
a datum that is not NaN is at least `(float)1e-4 = 13743895 * 2^-37`. -/
theorem soft_r2_ge_of_sum (dx dy : Fl)
    (hs : (Fl.add binary32 (Fl.mul binary32 dx dx) (Fl.mul binary32 dy dy)).sign_bit
      = some false) :
    Fl.ge (soft_r2 ieeeOps dx dy) ((13743895 : ℚ) * (2 : ℚ) ^ (-37 : Int)) := by
  show Fl.ge (Fl.narrow binary32 (Fl.add binary64
    (Fl.add binary32 (Fl.mul binary32 dx dx) (Fl.mul binary32 dy dy))
    (Fl.fin false 7378697629483821 (-66)))) _
  have h1 := add_ge binary64 (by decide) _ hs 7378697629483821 (-66) 7378697629483821 (-66)
    (by norm_num) (by norm_num [binary64]) (by norm_num [binary64]) le_rfl
  have h2 := ge_mono _ _ (((13743895 : Nat) : ℚ) * (2 : ℚ) ^ (-37 : Int)) h1 (by norm_num)
  have h3 := narrow_ge binary32 (by decide) _ 13743895 (-37) (by norm_num)
    (by norm_num [binary32]) (by norm_num [binary32]) h2
  exact_mod_cast h3

/-- In binary32 the softened squared distance is NaN or at least `(float)1e-4`. -/
theorem soft_r2_ge (dx dy : Fl) :
    soft_r2 ieeeOps dx dy = Fl.nan ∨
      Fl.ge (soft_r2 ieeeOps dx dy) ((13743895 : ℚ) * (2 : ℚ) ^ (-37 : Int)) := by
  rcases add_sign_false binary32 _ _ (mul_self_sign binary32 dx) (mul_self_sign binary32 dy)
    with h | h
  · left
    show Fl.narrow binary32 (Fl.add binary64
      (Fl.add binary32 (Fl.mul binary32 dx dx) (Fl.mul binary32 dy dy))
      (Fl.fin false 7378697629483821 (-66))) = Fl.nan
    rw [h]
    rfl
  · exact Or.inr (soft_r2_ge_of_sum dx dy h)

/-- In binary32 the softened squared distance of two displacements that are not NaN is at
least `(float)1e-4`. -/
theorem soft_r2_ge_strict (dx dy : Fl) (hx : dx ≠ Fl.nan) (hy : dy ≠ Fl.nan) :
    Fl.ge (soft_r2 ieeeOps dx dy) ((13743895 : ℚ) * (2 : ℚ) ^ (-37 : Int)) :=
  soft_r2_ge_of_sum dx dy (add_sign_false_strict _ _ _ (mul_self_sign_strict _ dx hx)
    (mul_self_sign_strict _ dy hy))

/-- The difference of two finite numbers is not NaN. -/
theorem sub_finite_ne_nan (f : Fmt) (x y : Fl) (hx : x.is_finite = true)
    (hy : y.is_finite = true) : Fl.sub f x y ≠ Fl.nan := by
  obtain ⟨s, m, e, rfl⟩ := (is_finite_iff x).mp hx
  obtain ⟨t, n, k, rfl⟩ := (is_finite_iff y).mp hy
  intro h
  have hsb : ∃ b, (Fl.sub f (Fl.fin s m e) (Fl.fin t n k)).sign_bit = some b := by
    unfold Fl.sub
    rw [neg_fin]
    simp only [Fl.add]
    split_ifs
    · exact ⟨_, rfl⟩
    · exact ⟨_, rfl⟩
    · exact ⟨_, rfl⟩
    · exact ⟨_, rfl⟩
    · exact ⟨_, round_sign_bit _ _ _ _ _⟩
  obtain ⟨b, hb⟩ := hsb
  rw [h] at hb
  exact sign_bit_nan_ne _ hb

/-! ## Binary32: the root of the softened squared distance is positive -/

theorem isqrtAux_mono (n b r : Nat) : r ≤ isqrtAux n b r := by
  induction b generalizing r with
  | zero => exact le_rfl
  | succ b ih =>
    unfold isqrtAux
    split_ifs
    · exact le_trans (Nat.le_add_right r (2 ^ b)) (ih _)
    · exact ih r

theorem isqrtAux_ge (n h : Nat) (hn : 2 ^ (2 * h) ≤ n) (b r : Nat) (hb : h < b)
    (hr : r = 0 ∨ 2 ^ h ≤ r) : 2 ^ h ≤ isqrtAux n b r := by
  induction b generalizing r with
  | zero => omega
  | succ b ih =>
    unfold isqrtAux
    by_cases hlt : h < b
    · have hp : 2 ^ h ≤ 2 ^ b := Nat.pow_le_pow_right (by norm_num) (le_of_lt hlt)
      split_ifs
      · exact ih _ hlt (Or.inr (le_trans hp (Nat.le_add_left _ _)))
      · exact ih _ hlt hr
    · have hEq : h = b := by omega
      subst hEq
      rcases hr with rfl | hr
      · have hc : (0 + 2 ^ h) * (0 + 2 ^ h) ≤ n := by
          rw [Nat.zero_add, ← pow_add]
          have : h + h = 2 * h := by omega
          rw [this]
          exact hn
        rw [if_pos hc]
        exact le_trans (by rw [Nat.zero_add]) (isqrtAux_mono n h (0 + 2 ^ h))
      · split_ifs
        · exact le_trans (le_trans hr (Nat.le_add_right _ _)) (isqrtAux_mono n h _)
        · exact le_trans hr (isqrtAux_mono n h r)

/-- The integer square root of a number that is at least `4^h` is at least `2^h`. -/
theorem isqrt_ge (n h : Nat) (hn : 2 ^ (2 * h) ≤ n) : 2 ^ h ≤ isqrt n := by
  unfold isqrt
  apply isqrtAux_ge n h hn (bitlen n) 0 _ (Or.inl rfl)
  rw [lt_bitlen_iff]
  exact le_trans (Nat.pow_le_pow_right (by norm_num) (by omega)) hn

theorem sqrt_scale_even (f : Fmt) (e : Int) : (e - (sqrt_scale f e : Int)) % 2 = 0 := by
  unfold sqrt_scale
  split_ifs with h
  · push_cast at h ⊢
    omega
  · push_cast at h ⊢
    omega

/-- The square root of a datum that is at least `4^g` is at least `2^g`, when `2^g` is a
number of the format. -/
theorem sqrt_ge (f : Fmt) (hp : 1 ≤ f.prec) (g : Int) (hg : f.emin ≤ g) (x : Fl)
    (h : Fl.ge x ((2 : ℚ) ^ (2 * g))) : Fl.ge (Fl.sqrt f x) ((2 : ℚ) ^ g) := by
  have h2 : (2 : ℚ) ≠ 0 := by norm_num
  rcases h with rfl | ⟨m, e, rfl, hv⟩
  · exact Or.inl rfl
  · have hm : m ≠ 0 := by
      rintro rfl
      have := two_zpow_pos (2 * g)
      simp at hv
      linarith
    have hs : Fl.sqrt f (Fl.fin false m e) = Fl.round f false (isqrt (m * 2 ^ sqrt_scale f e))
        ((e - (sqrt_scale f e : Nat)) / 2)
        (decide (isqrt (m * 2 ^ sqrt_scale f e) * isqrt (m * 2 ^ sqrt_scale f e)
          ≠ m * 2 ^ sqrt_scale f e)) := by
      simp [Fl.sqrt, hm]
    rw [hs]
    have hev := sqrt_scale_even f e
    generalize hsc : sqrt_scale f e = sc at hev
    generalize her : (e - (sc : Int)) / 2 = er
    have h2er : 2 * er = e - (sc : Int) := by omega
    have hone : (2 : ℚ) ^ g = ((1 : Nat) : ℚ) * (2 : ℚ) ^ g := by simp
    rw [hone]
    apply round_ge f hp _ _ _ 1 g (by norm_num) (Nat.one_le_two_pow) hg
    rw [← hone]
    have hnval : ((m * 2 ^ sc : Nat) : ℚ) * (2 : ℚ) ^ (2 * er) = (m : ℚ) * (2 : ℚ) ^ e := by
      push_cast
      rw [mul_assoc, ← zpow_natCast, ← zpow_add₀ h2]
      congr 2
      omega
    by_cases hc : er ≤ g
    · have hh : (((g - er).toNat : Nat) : Int) = g - er := Int.toNat_of_nonneg (by omega)
      generalize hH : (g - er).toNat = hN at hh
      have hpow : 2 ^ (2 * hN) ≤ m * 2 ^ sc := by
        have h3 : ((2 ^ (2 * hN) : Nat) : ℚ) * (2 : ℚ) ^ (2 * er)
            ≤ ((m * 2 ^ sc : Nat) : ℚ) * (2 : ℚ) ^ (2 * er) := by
          rw [hnval]
          refine le_trans (le_of_eq ?_) hv
          push_cast
          rw [← zpow_natCast, ← zpow_add₀ h2]
          congr 1
          push_cast
          omega
        have h4 := le_of_mul_le_mul_right h3 (two_zpow_pos _)
        exact_mod_cast h4
      have hroot := isqrt_ge _ _ hpow
      have h5 : ((2 ^ hN : Nat) : ℚ) ≤ ((isqrt (m * 2 ^ sc) : Nat) : ℚ) := by
        exact_mod_cast hroot
      refine le_trans (le_of_eq ?_) (mul_le_mul_of_nonneg_right h5 (le_of_lt (two_zpow_pos er)))
      push_cast
      rw [← zpow_natCast, ← zpow_add₀ h2]
      congr 1
      omega
    · have hpow : 2 ^ (2 * 0) ≤ m * 2 ^ sc := by
        have : 0 < m * 2 ^ sc := by positivity
        show 1 ≤ m * 2 ^ sc
        omega
      have hroot := isqrt_ge _ _ hpow
      have h5 : (1 : ℚ) ≤ ((isqrt (m * 2 ^ sc) : Nat) : ℚ) := by
        exact_mod_cast hroot
      calc (2 : ℚ) ^ g ≤ (2 : ℚ) ^ er := zpow_le_zpow_right₀ (by norm_num) (by omega)
        _ = 1 * (2 : ℚ) ^ er := (one_mul _).symm
        _ ≤ _ := mul_le_mul_of_nonneg_right h5 (le_of_lt (two_zpow_pos er))

/-- In binary32 the root `r` is NaN when `r2` is, and at least `2^-7` when `r2` is at
least `(float)1e-4`. -/
theorem term_r_ge (ch : Charge Fl) (px py : Fl)
    (h : Fl.ge (term_r2 ieeeOps ch px py) ((13743895 : ℚ) * (2 : ℚ) ^ (-37 : Int))) :
    Fl.ge (term_r ieeeOps ch px py) ((2 : ℚ) ^ (-7 : Int)) := by
  show Fl.ge (Fl.sqrt binary32 (term_r2 ieeeOps ch px py)) _
  apply sqrt_ge binary32 (by decide) (-7) (by decide)
  exact ge_mono _ _ _ h (by norm_num)

/-- In binary32, for every charge and sample point: `r2` is NaN or at least
`(float)1e-4`, and `r` is NaN or at least `2^-7`; neither is a zero. -/
theorem divisors_ge (ch : Charge Fl) (px py : Fl) :
    (term_r2 ieeeOps ch px py = Fl.nan ∨
      Fl.ge (term_r2 ieeeOps ch px py) ((13743895 : ℚ) * (2 : ℚ) ^ (-37 : Int))) ∧
    (term_r ieeeOps ch px py = Fl.nan ∨
      Fl.ge (term_r ieeeOps ch px py) ((2 : ℚ) ^ (-7 : Int))) ∧
    (term_r2 ieeeOps ch px py).is_zero = false ∧
    (term_r ieeeOps ch px py).is_zero = false := by
  rcases soft_r2_ge (term_dx ieeeOps ch px) (term_dy ieeeOps ch py) with h | h
  · have h' : term_r2 ieeeOps ch px py = Fl.nan := h
    have hr : term_r ieeeOps ch px py = Fl.nan := by
      show Fl.sqrt binary32 (term_r2 ieeeOps ch px py) = Fl.nan
      rw [h']; rfl
    refine ⟨Or.inl h', Or.inl hr, ?_, ?_⟩
    · rw [h']; rfl
    · rw [hr]; rfl
  · have h' : Fl.ge (term_r2 ieeeOps ch px py) ((13743895 : ℚ) * (2 : ℚ) ^ (-37 : Int)) := h
    have hr := term_r_ge ch px py h'
    exact ⟨Or.inr h', Or.inr hr, (ge_not_zero _ _ (by norm_num) h').1,
      (ge_not_zero _ _ (by norm_num) hr).1⟩

/-- In binary32, for a charge at a finite position and a finite sample point, `r2` is
`+inf` or a finite number at least `(float)1e-4`, and `r` is `+inf` or a finite number
at least `2^-7`. -/
theorem divisors_ge_of_finite (ch : Charge Fl) (px py : Fl) (hx : ch.x.is_finite = true)
    (hy : ch.y.is_finite = true) (hpx : px.is_finite = true) (hpy : py.is_finite = true) :
    Fl.ge (term_r2 ieeeOps ch px py) ((13743895 : ℚ) * (2 : ℚ) ^ (-37 : Int)) ∧
    Fl.ge (term_r ieeeOps ch px py) ((2 : ℚ) ^ (-7 : Int)) := by
  have h : Fl.ge (term_r2 ieeeOps ch px py) ((13743895 : ℚ) * (2 : ℚ) ^ (-37 : Int)) :=
    soft_r2_ge_strict _ _ (sub_finite_ne_nan binary32 px ch.x hpx hx)
      (sub_finite_ne_nan binary32 py ch.y hpy hy)
  exact ⟨h, term_r_ge ch px py h⟩

/-! ## Binary32: the divisors of the loop body -/

/-- In binary32, for a charge that sits on a finite sample point: `dx = dy = +0`, `r2` is
`(float)1e-4 = 13743895 * 2^-37` and `r` is its rounded root `10737418 * 2^-30`. -/
theorem coincident_divisors (ch : Charge Fl) (px py : Fl) (hx : ch.x = px) (hy : ch.y = py)
    (hpx : px.is_finite = true) (hpy : py.is_finite = true) :
    term_dx ieeeOps ch px = Fl.fin false 0 0 ∧ term_dy ieeeOps ch py = Fl.fin false 0 0 ∧
    term_r2 ieeeOps ch px py = Fl.fin false 13743895 (-37) ∧
    term_r ieeeOps ch px py = Fl.fin false 10737418 (-30) := by
  obtain ⟨s, m, e, rfl⟩ := (is_finite_iff px).mp hpx
  obtain ⟨t, n, k, rfl⟩ := (is_finite_iff py).mp hpy
  have hdx : term_dx ieeeOps ch (Fl.fin s m e) = Fl.fin false 0 0 := by
    show Fl.sub binary32 (Fl.fin s m e) ch.x = _
    rw [hx]; exact sub_self_fin _ _ _ _
  have hdy : term_dy ieeeOps ch (Fl.fin t n k) = Fl.fin false 0 0 := by
    show Fl.sub binary32 (Fl.fin t n k) ch.y = _
    rw [hy]; exact sub_self_fin _ _ _ _
  have hr2 : term_r2 ieeeOps ch (Fl.fin s m e) (Fl.fin t n k) = Fl.fin false 13743895 (-37) := by
    unfold term_r2
    rw [hdx, hdy]
    decide!
  have hr : term_r ieeeOps ch (Fl.fin s m e) (Fl.fin t n k) = Fl.fin false 10737418 (-30) := by
    unfold term_r
    rw [hr2]
    decide!
  exact ⟨hdx, hdy, hr2, hr⟩

/-- The claim C9 refuted in binary32: the charge `(0.25, 0.5, 1)` sits on the sample
point of cell `(5, 10)`, and there `r2` is `(float)1e-4 = 13743895 * 2^-37`, which is
less than `1e-4`: the sum `0 + 1e-4` is narrowed to `float`. -/
theorem softening_counterexample :
    (⟨Fl.fin false 8388608 (-25), Fl.fin false 8388608 (-24), Fl.fin false 8388608 (-23)⟩ :
        Charge Fl).x = sample_x ieeeOps 5 ∧
    (⟨Fl.fin false 8388608 (-25), Fl.fin false 8388608 (-24), Fl.fin false 8388608 (-23)⟩ :
        Charge Fl).y = sample_y ieeeOps 10 ∧
    term_r2 ieeeOps
        ⟨Fl.fin false 8388608 (-25), Fl.fin false 8388608 (-24), Fl.fin false 8388608 (-23)⟩
        (sample_x ieeeOps 5) (sample_y ieeeOps 10) = Fl.fin false 13743895 (-37) ∧
    (Fl.fin false 13743895 (-37)).toRat < 1 / 10000 ∧
    ¬ ((1 : ℚ) / 10000 ≤ (term_r2 ieeeOps
        ⟨Fl.fin false 8388608 (-25), Fl.fin false 8388608 (-24), Fl.fin false 8388608 (-23)⟩
        (sample_x ieeeOps 5) (sample_y ieeeOps 10)).toRat) := by
  have h : term_r2 ieeeOps
      ⟨Fl.fin false 8388608 (-25), Fl.fin false 8388608 (-24), Fl.fin false 8388608 (-23)⟩
      (sample_x ieeeOps 5) (sample_y ieeeOps 10) = Fl.fin false 13743895 (-37) := by decide!
  refine ⟨by decide!, by decide!, h, by norm_num [Fl.toRat], ?_⟩
  rw [h]
  norm_num [Fl.toRat]

/-- C9, amended: in binary32 arithmetic, for every state with the 800-slot buffer, every
cell of the grid and each charge, `compute_field` returns, and the divisors of the two
divisions of the loop body, `r2` and `r = sqrtf(r2)`, are never zero: `r2` is NaN or at
least `(float)1e-4 = 13743895 * 2^-37` (the binary32 number nearest to `1e-4`, just
below it), `r` is NaN or at least `2^-7`, and for a charge at a finite position neither
is NaN.  When the sample point coincides with the charge position, `r2` is exactly
`(float)1e-4` and `r` is `10737418 * 2^-30`. -/
theorem softening_total (s : State Fl) (hlen : s.field.length = 800) (c : Fin 2)
    (i j : Nat) (hi : i < 20) (hj : j < 20) :
    (∃ t, compute_field ieeeOps s = some t) ∧
    (∀ acc : Fl × Fl,
      charge_step ieeeOps (s.charges c) (sample_x ieeeOps i) (sample_y ieeeOps j) acc =
        (Fl.add binary32 acc.1
          (Fl.div binary32
            (Fl.mul binary32
              (Fl.div binary32 (Fl.mul binary32 (coulomb_k ieeeOps) (s.charges c).q)
                (term_r2 ieeeOps (s.charges c) (sample_x ieeeOps i) (sample_y ieeeOps j)))
              (term_dx ieeeOps (s.charges c) (sample_x ieeeOps i)))
            (term_r ieeeOps (s.charges c) (sample_x ieeeOps i) (sample_y ieeeOps j))),
         Fl.add binary32 acc.2
          (Fl.div binary32
            (Fl.mul binary32
              (Fl.div binary32 (Fl.mul binary32 (coulomb_k ieeeOps) (s.charges c).q)
                (term_r2 ieeeOps (s.charges c) (sample_x ieeeOps i) (sample_y ieeeOps j)))
              (term_dy ieeeOps (s.charges c) (sample_y ieeeOps j)))
            (term_r ieeeOps (s.charges c) (sample_x ieeeOps i) (sample_y ieeeOps j))))) ∧
    (term_r2 ieeeOps (s.charges c) (sample_x ieeeOps i) (sample_y ieeeOps j) = Fl.nan ∨
      Fl.ge (term_r2 ieeeOps (s.charges c) (sample_x ieeeOps i) (sample_y ieeeOps j))
        ((13743895 : ℚ) * (2 : ℚ) ^ (-37 : Int))) ∧
    (term_r ieeeOps (s.charges c) (sample_x ieeeOps i) (sample_y ieeeOps j) = Fl.nan ∨
      Fl.ge (term_r ieeeOps (s.charges c) (sample_x ieeeOps i) (sample_y ieeeOps j))
        ((2 : ℚ) ^ (-7 : Int))) ∧
    (term_r2 ieeeOps (s.charges c) (sample_x ieeeOps i) (sample_y ieeeOps j)).is_zero = false ∧
    (term_r ieeeOps (s.charges c) (sample_x ieeeOps i) (sample_y ieeeOps j)).is_zero = false ∧
    ((s.charges c).x.is_finite = true → (s.charges c).y.is_finite = true →
      Fl.ge (term_r2 ieeeOps (s.charges c) (sample_x ieeeOps i) (sample_y ieeeOps j))
        ((13743895 : ℚ) * (2 : ℚ) ^ (-37 : Int)) ∧
      Fl.ge (term_r ieeeOps (s.charges c) (sample_x ieeeOps i) (sample_y ieeeOps j))
        ((2 : ℚ) ^ (-7 : Int))) ∧
    ((s.charges c).x = sample_x ieeeOps i → (s.charges c).y = sample_y ieeeOps j →
      term_r2 ieeeOps (s.charges c) (sample_x ieeeOps i) (sample_y ieeeOps j)
        = Fl.fin false 13743895 (-37) ∧
      term_r ieeeOps (s.charges c) (sample_x ieeeOps i) (sample_y ieeeOps j)
        = Fl.fin false 10737418 (-30)) := by
  obtain ⟨d1, d2, d3, d4⟩ := divisors_ge (s.charges c) (sample_x ieeeOps i) (sample_y ieeeOps j)
  refine ⟨compute_field_returns ieeeOps s hlen, fun _ => rfl, d1, d2, d3, d4, ?_, ?_⟩
  · intro hx hy
    exact divisors_ge_of_finite _ _ _ hx hy (sample_finite i hi).1 (sample_finite j hj).2
  · intro hx hy
    obtain ⟨-, -, h1, h2⟩ := coincident_divisors (s.charges c) _ _ hx hy
      (sample_finite i hi).1 (sample_finite j hj).2
    exact ⟨h1, h2⟩

/-- C9 amended, after `set_charges(0.25, 0.5, 1, 0.75, 0.5, -1)` from the initial state,
for charge 0 at cell `(5, 10)`, whose sample point is the position of the charge. -/
theorem softening_total_witness :
    (∃ t, compute_field ieeeOps
      (set_charges (init_state ieeeOps) (Fl.fin false 8388608 (-25))
        (Fl.fin false 8388608 (-24)) (Fl.fin false 8388608 (-23))
        (Fl.fin false 12582912 (-24)) (Fl.fin false 8388608 (-24))
        (Fl.fin true 8388608 (-23))) = some t) ∧
    term_r2 ieeeOps
      ⟨Fl.fin false 8388608 (-25), Fl.fin false 8388608 (-24), Fl.fin false 8388608 (-23)⟩
      (sample_x ieeeOps 5) (sample_y ieeeOps 10) = Fl.fin false 13743895 (-37) ∧
    term_r ieeeOps
      ⟨Fl.fin false 8388608 (-25), Fl.fin false 8388608 (-24), Fl.fin false 8388608 (-23)⟩
      (sample_x ieeeOps 5) (sample_y ieeeOps 10) = Fl.fin false 10737418 (-30) := by
  obtain ⟨h0, -, hf⟩ := set_charges_eq (init_state ieeeOps) (Fl.fin false 8388608 (-25))
    (Fl.fin false 8388608 (-24)) (Fl.fin false 8388608 (-23))
    (Fl.fin false 12582912 (-24)) (Fl.fin false 8388608 (-24)) (Fl.fin true 8388608 (-23))
  obtain ⟨ht, -, -, -, -, -, -, hco⟩ := softening_total
    (set_charges (init_state ieeeOps) (Fl.fin false 8388608 (-25))
      (Fl.fin false 8388608 (-24)) (Fl.fin false 8388608 (-23))
      (Fl.fin false 12582912 (-24)) (Fl.fin false 8388608 (-24)) (Fl.fin true 8388608 (-23)))
    (by rw [hf]; exact init_state_length ieeeOps) 0 5 10 (by decide) (by decide)
  rw [h0] at hco
  exact ⟨ht, hco (by decide!) (by decide!)⟩

/-! ## Binary32: the field of two charges and the fields of each alone -/

theorem mul_inf_zn (f : Fmt) (x : Fl) (d : Bool) (h : x = Fl.nan ∨ x.is_zero = true) :
    Fl.mul f x (Fl.inf d) = Fl.nan := by
  rcases h with rfl | h
  · rfl
  · obtain ⟨s, e, rfl⟩ := (is_zero_iff x).mp h
    simp [Fl.mul]

/-- Anything over `+inf` is a NaN or a zero. -/
theorem div_inf_zn (f : Fmt) (x : Fl) :
    Fl.div f x (Fl.inf false) = Fl.nan ∨ (Fl.div f x (Fl.inf false)).is_zero = true := by
  cases x with
  | nan => left; rfl
  | inf s => left; rfl
  | fin s m e => right; rfl

/-- In binary32 an infinite displacement makes `r2` a NaN or `+inf`. -/
theorem soft_r2_inf_left (d : Bool) (dy : Fl) :
    soft_r2 ieeeOps (Fl.inf d) dy = Fl.nan ∨ soft_r2 ieeeOps (Fl.inf d) dy = Fl.inf false := by
  have hm : Fl.mul binary32 (Fl.inf d) (Fl.inf d) = Fl.inf false := by cases d <;> rfl
  show Fl.narrow binary32 (Fl.add binary64 (Fl.add binary32
      (Fl.mul binary32 (Fl.inf d) (Fl.inf d)) (Fl.mul binary32 dy dy))
      (Fl.fin false 7378697629483821 (-66))) = Fl.nan ∨
    Fl.narrow binary32 (Fl.add binary64 (Fl.add binary32
      (Fl.mul binary32 (Fl.inf d) (Fl.inf d)) (Fl.mul binary32 dy dy))
      (Fl.fin false 7378697629483821 (-66))) = Fl.inf false
  rw [hm]
  rcases sign_false_cases _ (mul_self_sign binary32 dy) with h | h | ⟨m, e, h⟩ <;> rw [h]
  · left; rfl
  · right; rfl
  · right; rfl

theorem soft_r2_inf_right (dx : Fl) (d : Bool) :
    soft_r2 ieeeOps dx (Fl.inf d) = Fl.nan ∨ soft_r2 ieeeOps dx (Fl.inf d) = Fl.inf false := by
  have hm : Fl.mul binary32 (Fl.inf d) (Fl.inf d) = Fl.inf false := by cases d <;> rfl
  show Fl.narrow binary32 (Fl.add binary64 (Fl.add binary32
      (Fl.mul binary32 dx dx) (Fl.mul binary32 (Fl.inf d) (Fl.inf d)))
      (Fl.fin false 7378697629483821 (-66))) = Fl.nan ∨
    Fl.narrow binary32 (Fl.add binary64 (Fl.add binary32
      (Fl.mul binary32 dx dx) (Fl.mul binary32 (Fl.inf d) (Fl.inf d)))
      (Fl.fin false 7378697629483821 (-66))) = Fl.inf false
  rw [hm]
  rcases sign_false_cases _ (mul_self_sign binary32 dx) with h | h | ⟨m, e, h⟩ <;> rw [h]
  · left; rfl
  · right; rfl
  · right; rfl

/-- A zero over a datum that is at least a positive number is a zero. -/
theorem div_zero_ge (f : Fmt) (z y : Fl) (c : ℚ) (hc : 0 < c) (hz : z.is_zero = true)
    (hy : Fl.ge y c) : (Fl.div f z y).is_zero = true := by
  obtain ⟨t, k, rfl⟩ := (is_zero_iff z).mp hz
  have h0 := (ge_not_zero y c hc hy).1
  rcases hy with rfl | ⟨m, e, rfl, -⟩
  · rfl
  · exact div_zero_left f _ _ rfl rfl h0

/-- One component of the loop body's pair, `k*q/r2*d/r`, for the magnitude `+0`: it is a
zero, or else the component is NaN for every magnitude.  Here `r2` is NaN or at least a
positive number, `r` likewise, and an infinite `d` forces `r2` to be NaN or `+inf`. -/
theorem component_zero_or_nan (k r2 d r : Fl) (c c' : ℚ) (hc : 0 < c) (hc' : 0 < c')
    (hk : k.is_finite = true)
    (hr2 : r2 = Fl.nan ∨ Fl.ge r2 c) (hr : r = Fl.nan ∨ Fl.ge r c')
    (hd : ∀ b, d = Fl.inf b → r2 = Fl.nan ∨ r2 = Fl.inf false) :
    (Fl.div binary32 (Fl.mul binary32 (Fl.div binary32
        (Fl.mul binary32 k (Fl.fin false 0 0)) r2) d) r).is_zero = true ∨
    ∀ q, Fl.div binary32 (Fl.mul binary32 (Fl.div binary32
        (Fl.mul binary32 k q) r2) d) r = Fl.nan := by
  rcases hr with rfl | hr
  · right; intro q; exact div_nan_right _ _
  rcases hr2 with rfl | hr2
  · right; intro q; rw [div_nan_right, mul_nan_left, div_nan_left]
  cases d with
  | nan => right; intro q; rw [mul_nan_right, div_nan_left]
  | inf b =>
    right
    intro q
    rcases hd b rfl with h | h
    · rw [h, div_nan_right, mul_nan_left, div_nan_left]
    · rw [h, mul_inf_zn _ _ _ (div_inf_zn _ _), div_nan_left]
  | fin t n e =>
    left
    have h1 : (Fl.mul binary32 k (Fl.fin false 0 0)).is_zero = true :=
      mul_zero_right _ _ _ hk rfl
    have h2 := div_zero_ge binary32 _ r2 c hc h1 hr2
    have h3 : (Fl.mul binary32 (Fl.div binary32 (Fl.mul binary32 k (Fl.fin false 0 0)) r2)
        (Fl.fin t n e)).is_zero = true := by
      obtain ⟨s', e', h'⟩ := (is_zero_iff _).mp h2
      rw [h']
      simp [Fl.mul, round_zero, Fl.is_zero]
    exact div_zero_ge binary32 _ r c' hc' h3 hr

/-- In binary32, for a position and a sample point, each component of the pair the loop
body adds for the magnitude `+0` is a zero, or else that component is NaN for every
magnitude at that position. -/
theorem raw_term_zero_or_nan (x y px py : Fl) :
    ((raw_term ieeeOps ⟨x, y, Fl.fin false 0 0⟩ px py).1.is_zero = true ∨
      ∀ q, (raw_term ieeeOps ⟨x, y, q⟩ px py).1 = Fl.nan) ∧
    ((raw_term ieeeOps ⟨x, y, Fl.fin false 0 0⟩ px py).2.is_zero = true ∨
      ∀ q, (raw_term ieeeOps ⟨x, y, q⟩ px py).2 = Fl.nan) := by
  obtain ⟨d1, d2, -, -⟩ := divisors_ge ⟨x, y, Fl.fin false 0 0⟩ px py
  have hk : (coulomb_k ieeeOps).is_finite = true := by rw [coulomb_k_ieee]; rfl
  constructor
  · exact component_zero_or_nan (coulomb_k ieeeOps) _ (Fl.sub binary32 px x) _ _ _
      (by norm_num) (by norm_num) hk d1 d2
      (fun b hb => by
        show soft_r2 ieeeOps (Fl.sub binary32 px x) (Fl.sub binary32 py y) = Fl.nan ∨
          soft_r2 ieeeOps (Fl.sub binary32 px x) (Fl.sub binary32 py y) = Fl.inf false
        rw [hb]; exact soft_r2_inf_left b _)
  · exact component_zero_or_nan (coulomb_k ieeeOps) _ (Fl.sub binary32 py y) _ _ _
      (by norm_num) (by norm_num) hk d1 d2
      (fun b hb => by
        show soft_r2 ieeeOps (Fl.sub binary32 px x) (Fl.sub binary32 py y) = Fl.nan ∨
          soft_r2 ieeeOps (Fl.sub binary32 px x) (Fl.sub binary32 py y) = Fl.inf false
        rw [hb]; exact soft_r2_inf_right _ b)

/-- The sum accumulated for two charges is the binary32 sum of the two sums in each of
which one summand is replaced by that of a zero magnitude. -/
theorem add_superpose (f : Fmt) (a b z1 z2 : Fl)
    (h1 : z1.is_zero = true ∨ a = Fl.nan) (h2 : z2.is_zero = true ∨ b = Fl.nan) :
    Fl.add f (Fl.add f (Fl.fin false 0 0) a) b =
      Fl.add f (Fl.add f (Fl.add f (Fl.fin false 0 0) a) z2)
        (Fl.add f (Fl.add f (Fl.fin false 0 0) z1) b) := by
  rcases h1 with h1 | rfl
  · rcases h2 with h2 | rfl
    · rw [add_zero_right f a z2 h2]
      have : Fl.add f (Fl.fin false 0 0) z1 = Fl.fin false 0 0 := by
        rw [add_zero_left, if_pos h1]
      rw [this, add_add_zero]
    · rw [add_nan_right, add_nan_right, add_nan_right]
  · rw [add_nan_right, add_nan_left, add_nan_left, add_nan_left]

/-- The claim C4 refuted in binary32: from the initial state with the charges
`(0.25, 0.5, 1)` and `(0.75, 0.5, -1)`, the x-component stored for cell `(3, 7)` is
`-129905156096` with both charges, `-152691523584` with the first alone and
`22786369536` with the second alone: the exact sum of the last two is `-129905154048`,
which is not the first. -/
theorem superposition_counterexample :
    ∃ tb t1 t2,
      compute_field ieeeOps
        (set_charges (init_state ieeeOps) (Fl.fin false 8388608 (-25))
          (Fl.fin false 8388608 (-24)) (Fl.fin false 8388608 (-23))
          (Fl.fin false 12582912 (-24)) (Fl.fin false 8388608 (-24))
          (Fl.fin true 8388608 (-23))) = some tb ∧
      compute_field ieeeOps
        (set_charges (init_state ieeeOps) (Fl.fin false 8388608 (-25))
          (Fl.fin false 8388608 (-24)) (Fl.fin false 8388608 (-23))
          (Fl.fin false 12582912 (-24)) (Fl.fin false 8388608 (-24))
          (Fl.fin false 0 0)) = some t1 ∧
      compute_field ieeeOps
        (set_charges (init_state ieeeOps) (Fl.fin false 8388608 (-25))
          (Fl.fin false 8388608 (-24)) (Fl.fin false 0 0)
          (Fl.fin false 12582912 (-24)) (Fl.fin false 8388608 (-24))
          (Fl.fin true 8388608 (-23))) = some t2 ∧
      stored_at tb 3 7 (Fl.fin true 15857563 13, Fl.fin true 13631635 14) ∧
      stored_at t1 3 7 (Fl.fin true 9319551 14, Fl.fin true 13979327 14) ∧
      stored_at t2 3 7 (Fl.fin false 11126157 11, Fl.fin false 11126157 9) ∧
      (Fl.fin true 15857563 13).toRat = -129905156096 ∧
      (Fl.fin true 9319551 14).toRat + (Fl.fin false 11126157 11).toRat = -129905154048 ∧
      (Fl.fin true 15857563 13).toRat ≠
        (Fl.fin true 9319551 14).toRat + (Fl.fin false 11126157 11).toRat := by
  obtain ⟨tb, eb, hb⟩ := stored_after_set_charges ieeeOps (init_state ieeeOps)
    (init_state_length ieeeOps) (Fl.fin false 8388608 (-25))
    (Fl.fin false 8388608 (-24)) (Fl.fin false 8388608 (-23))
    (Fl.fin false 12582912 (-24)) (Fl.fin false 8388608 (-24)) (Fl.fin true 8388608 (-23))
  obtain ⟨t1, e1, h1⟩ := stored_after_set_charges ieeeOps (init_state ieeeOps)
    (init_state_length ieeeOps) (Fl.fin false 8388608 (-25))
    (Fl.fin false 8388608 (-24)) (Fl.fin false 8388608 (-23))
    (Fl.fin false 12582912 (-24)) (Fl.fin false 8388608 (-24)) (Fl.fin false 0 0)
  obtain ⟨t2, e2, h2⟩ := stored_after_set_charges ieeeOps (init_state ieeeOps)
    (init_state_length ieeeOps) (Fl.fin false 8388608 (-25))
    (Fl.fin false 8388608 (-24)) (Fl.fin false 0 0)
    (Fl.fin false 12582912 (-24)) (Fl.fin false 8388608 (-24)) (Fl.fin true 8388608 (-23))
  have sb := hb 3 7 (by decide) (by decide)
  have s1 := h1 3 7 (by decide) (by decide)
  have s2 := h2 3 7 (by decide) (by decide)
  have vb : charge_step ieeeOps
      ⟨Fl.fin false 12582912 (-24), Fl.fin false 8388608 (-24), Fl.fin true 8388608 (-23)⟩
      (sample_x ieeeOps 3) (sample_y ieeeOps 7)
      (charge_step ieeeOps
        ⟨Fl.fin false 8388608 (-25), Fl.fin false 8388608 (-24), Fl.fin false 8388608 (-23)⟩
        (sample_x ieeeOps 3) (sample_y ieeeOps 7) (ieeeOps.zero, ieeeOps.zero))
      = (Fl.fin true 15857563 13, Fl.fin true 13631635 14) := by decide!
  have v1 : charge_step ieeeOps
      ⟨Fl.fin false 12582912 (-24), Fl.fin false 8388608 (-24), Fl.fin false 0 0⟩
      (sample_x ieeeOps 3) (sample_y ieeeOps 7)
      (charge_step ieeeOps
        ⟨Fl.fin false 8388608 (-25), Fl.fin false 8388608 (-24), Fl.fin false 8388608 (-23)⟩
        (sample_x ieeeOps 3) (sample_y ieeeOps 7) (ieeeOps.zero, ieeeOps.zero))
      = (Fl.fin true 9319551 14, Fl.fin true 13979327 14) := by decide!
  have v2 : charge_step ieeeOps
      ⟨Fl.fin false 12582912 (-24), Fl.fin false 8388608 (-24), Fl.fin true 8388608 (-23)⟩
      (sample_x ieeeOps 3) (sample_y ieeeOps 7)
      (charge_step ieeeOps
        ⟨Fl.fin false 8388608 (-25), Fl.fin false 8388608 (-24), Fl.fin false 0 0⟩
        (sample_x ieeeOps 3) (sample_y ieeeOps 7) (ieeeOps.zero, ieeeOps.zero))
      = (Fl.fin false 11126157 11, Fl.fin false 11126157 9) := by decide!
  rw [vb] at sb
  rw [v1] at s1
  rw [v2] at s2
  refine ⟨tb, t1, t2, eb, e1, e2, sb, s1, s2, ?_, ?_, ?_⟩ <;> norm_num [Fl.toRat]

/-- C4, amended: in binary32 arithmetic, for every `(x1,y1,q1,x2,y2,q2)`, every state
with the 800-slot buffer and every cell, each component stored by `compute_field` after
`set_charges(x1,y1,q1,x2,y2,q2)` is the binary32 sum (the exact sum rounded to nearest,
NaN and infinities propagated) of the components stored after
`set_charges(x1,y1,q1,x2,y2,0)` and after `set_charges(x1,y1,0,x2,y2,q2)`. -/
theorem superposition (s : State Fl) (hlen : s.field.length = 800)
    (x1 y1 q1 x2 y2 q2 : Fl) :
    ∃ tb t1 t2,
      compute_field ieeeOps (set_charges s x1 y1 q1 x2 y2 q2) = some tb ∧
      compute_field ieeeOps (set_charges s x1 y1 q1 x2 y2 (Fl.fin false 0 0)) = some t1 ∧
      compute_field ieeeOps (set_charges s x1 y1 (Fl.fin false 0 0) x2 y2 q2) = some t2 ∧
      ∀ i j, i < 20 → j < 20 → ∃ a b : Fl × Fl,
        stored_at t1 i j a ∧ stored_at t2 i j b ∧
        stored_at tb i j (Fl.add binary32 a.1 b.1, Fl.add binary32 a.2 b.2) := by
  obtain ⟨tb, eb, hb⟩ := stored_after_set_charges ieeeOps s hlen x1 y1 q1 x2 y2 q2
  obtain ⟨t1, e1, h1⟩ := stored_after_set_charges ieeeOps s hlen x1 y1 q1 x2 y2
    (Fl.fin false 0 0)
  obtain ⟨t2, e2, h2⟩ := stored_after_set_charges ieeeOps s hlen x1 y1 (Fl.fin false 0 0)
    x2 y2 q2
  refine ⟨tb, t1, t2, eb, e1, e2, ?_⟩
  intro i j hi hj
  refine ⟨_, _, h1 i j hi hj, h2 i j hi hj, ?_⟩
  have sb := hb i j hi hj
  rw [charge_step_eq, charge_step_eq] at sb ⊢
  rw [charge_step_eq, charge_step_eq]
  obtain ⟨z1x, z1y⟩ := raw_term_zero_or_nan x1 y1 (sample_x ieeeOps i) (sample_y ieeeOps j)
  obtain ⟨z2x, z2y⟩ := raw_term_zero_or_nan x2 y2 (sample_x ieeeOps i) (sample_y ieeeOps j)
  have ex := add_superpose binary32
    (raw_term ieeeOps ⟨x1, y1, q1⟩ (sample_x ieeeOps i) (sample_y ieeeOps j)).1
    (raw_term ieeeOps ⟨x2, y2, q2⟩ (sample_x ieeeOps i) (sample_y ieeeOps j)).1
    (raw_term ieeeOps ⟨x1, y1, Fl.fin false 0 0⟩ (sample_x ieeeOps i) (sample_y ieeeOps j)).1
    (raw_term ieeeOps ⟨x2, y2, Fl.fin false 0 0⟩ (sample_x ieeeOps i) (sample_y ieeeOps j)).1
    (z1x.imp id (fun h => h q1)) (z2x.imp id (fun h => h q2))
  have ey := add_superpose binary32
    (raw_term ieeeOps ⟨x1, y1, q1⟩ (sample_x ieeeOps i) (sample_y ieeeOps j)).2
    (raw_term ieeeOps ⟨x2, y2, q2⟩ (sample_x ieeeOps i) (sample_y ieeeOps j)).2
    (raw_term ieeeOps ⟨x1, y1, Fl.fin false 0 0⟩ (sample_x ieeeOps i) (sample_y ieeeOps j)).2
    (raw_term ieeeOps ⟨x2, y2, Fl.fin false 0 0⟩ (sample_x ieeeOps i) (sample_y ieeeOps j)).2
    (z1y.imp id (fun h => h q1)) (z2y.imp id (fun h => h q2))
  have hv : (ieeeOps.add (ieeeOps.add ieeeOps.zero
        (raw_term ieeeOps ⟨x1, y1, q1⟩ (sample_x ieeeOps i) (sample_y ieeeOps j)).1)
        (raw_term ieeeOps ⟨x2, y2, q2⟩ (sample_x ieeeOps i) (sample_y ieeeOps j)).1,
      ieeeOps.add (ieeeOps.add ieeeOps.zero
        (raw_term ieeeOps ⟨x1, y1, q1⟩ (sample_x ieeeOps i) (sample_y ieeeOps j)).2)
        (raw_term ieeeOps ⟨x2, y2, q2⟩ (sample_x ieeeOps i) (sample_y ieeeOps j)).2) =
      (Fl.add binary32
        (ieeeOps.add (ieeeOps.add ieeeOps.zero
          (raw_term ieeeOps ⟨x1, y1, q1⟩ (sample_x ieeeOps i) (sample_y ieeeOps j)).1)
          (raw_term ieeeOps ⟨x2, y2, Fl.fin false 0 0⟩ (sample_x ieeeOps i)
            (sample_y ieeeOps j)).1)
        (ieeeOps.add (ieeeOps.add ieeeOps.zero
          (raw_term ieeeOps ⟨x1, y1, Fl.fin false 0 0⟩ (sample_x ieeeOps i)
            (sample_y ieeeOps j)).1)
          (raw_term ieeeOps ⟨x2, y2, q2⟩ (sample_x ieeeOps i) (sample_y ieeeOps j)).1),
       Fl.add binary32
        (ieeeOps.add (ieeeOps.add ieeeOps.zero
          (raw_term ieeeOps ⟨x1, y1, q1⟩ (sample_x ieeeOps i) (sample_y ieeeOps j)).2)
          (raw_term ieeeOps ⟨x2, y2, Fl.fin false 0 0⟩ (sample_x ieeeOps i)
            (sample_y ieeeOps j)).2)
        (ieeeOps.add (ieeeOps.add ieeeOps.zero
          (raw_term ieeeOps ⟨x1, y1, Fl.fin false 0 0⟩ (sample_x ieeeOps i)
            (sample_y ieeeOps j)).2)
          (raw_term ieeeOps ⟨x2, y2, q2⟩ (sample_x ieeeOps i) (sample_y ieeeOps j)).2)) :=
    Prod.ext ex ey
  simp only [] at sb ⊢
  rw [← hv]
  exact sb

/-- C4 amended, from the initial state with the charges `(0.25, 0.5, 1)` and
`(0.75, 0.5, -1)`. -/
theorem superposition_witness :
    ∃ tb t1 t2,
      compute_field ieeeOps
        (set_charges (init_state ieeeOps) (Fl.fin false 8388608 (-25))
          (Fl.fin false 8388608 (-24)) (Fl.fin false 8388608 (-23))
          (Fl.fin false 12582912 (-24)) (Fl.fin false 8388608 (-24))
          (Fl.fin true 8388608 (-23))) = some tb ∧
      compute_field ieeeOps
        (set_charges (init_state ieeeOps) (Fl.fin false 8388608 (-25))
          (Fl.fin false 8388608 (-24)) (Fl.fin false 8388608 (-23))
          (Fl.fin false 12582912 (-24)) (Fl.fin false 8388608 (-24))
          (Fl.fin false 0 0)) = some t1 ∧
      compute_field ieeeOps
        (set_charges (init_state ieeeOps) (Fl.fin false 8388608 (-25))
          (Fl.fin false 8388608 (-24)) (Fl.fin false 0 0)
          (Fl.fin false 12582912 (-24)) (Fl.fin false 8388608 (-24))
          (Fl.fin true 8388608 (-23))) = some t2 ∧
      ∀ i j, i < 20 → j < 20 → ∃ a b : Fl × Fl,
        stored_at t1 i j a ∧ stored_at t2 i j b ∧
        stored_at tb i j (Fl.add binary32 a.1 b.1, Fl.add binary32 a.2 b.2) :=
  superposition (init_state ieeeOps) (init_state_length ieeeOps)
    (Fl.fin false 8388608 (-25)) (Fl.fin false 8388608 (-24)) (Fl.fin false 8388608 (-23))
    (Fl.fin false 12582912 (-24)) (Fl.fin false 8388608 (-24)) (Fl.fin true 8388608 (-23))

/-! ## Binary floating-point arithmetic: upper bounds -/

theorem abs_le_nonneg (x : Fl) (c : ℚ) (h : Fl.abs_le x c) : 0 ≤ c := by
  obtain ⟨s, m, e, -, hv⟩ := h
  exact le_trans (mul_nonneg (Nat.cast_nonneg m) (le_of_lt (two_zpow_pos e))) hv

theorem abs_le_mono (x : Fl) (c c' : ℚ) (h : Fl.abs_le x c) (hc : c ≤ c') : Fl.abs_le x c' := by
  obtain ⟨s, m, e, hx, hv⟩ := h
  exact ⟨s, m, e, hx, le_trans hv hc⟩

theorem abs_le_finite (x : Fl) (c : ℚ) (h : Fl.abs_le x c) : x.is_finite = true := by
  obtain ⟨s, m, e, rfl, -⟩ := h
  rfl

theorem abs_le_neg (x : Fl) (c : ℚ) (h : Fl.abs_le x c) : Fl.abs_le x.neg c := by
  obtain ⟨s, m, e, rfl, hv⟩ := h
  exact ⟨!s, m, e, rfl, hv⟩

theorem abs_le_zero (s : Bool) (e : Int) (c : ℚ) (hc : 0 ≤ c) : Fl.abs_le (Fl.fin s 0 e) c :=
  ⟨s, 0, e, rfl, by simpa using hc⟩

theorem shift_round_le (m sh N : Nat) (st : Bool) (h : m ≤ N * 2 ^ sh) :
    shift_round m sh st ≤ N := by
  unfold shift_round
  have hpos : 0 < 2 ^ sh := by positivity
  have hfl : m / 2 ^ sh ≤ N := by
    calc m / 2 ^ sh ≤ (N * 2 ^ sh) / 2 ^ sh := Nat.div_le_div_right h
      _ = N := Nat.mul_div_cancel _ hpos
  split_ifs with hc
  · by_contra hcon
    have heq : m / 2 ^ sh = N := by omega
    have h1 : N * 2 ^ sh ≤ m := by rw [← heq]; exact Nat.div_mul_le_self m (2 ^ sh)
    have h2 : m = N * 2 ^ sh := le_antisymm h h1
    have h3 : m % 2 ^ sh = 0 := by rw [h2]; exact Nat.mul_mod_left _ _
    have h4 : 0 < 2 ^ (sh - 1) := by positivity
    rw [h3] at hc
    rcases hc with hc | ⟨hc, -⟩ <;> omega
  · exact hfl

theorem scaled_value (mw : Nat) (ew E : Int) (hE : E ≤ ew) :
    ((mw * 2 ^ (ew - E).toNat : Nat) : ℚ) * (2 : ℚ) ^ E = (mw : ℚ) * (2 : ℚ) ^ ew := by
  have hd : (((ew - E).toNat : Nat) : Int) = ew - E := Int.toNat_of_nonneg (by omega)
  push_cast
  rw [mul_assoc, ← zpow_natCast, ← zpow_add₀ (by norm_num : (2 : ℚ) ≠ 0), hd]
  congr 2
  omega

/-- The datum packed from a significand that does not exceed a number of the format does
not exceed it. -/
theorem pack_le (f : Fmt) (hp : 1 ≤ f.prec) (s : Bool) (q : Nat) (E : Int) (mw : Nat)
    (ew : Int) (hmw : mw < 2 ^ f.prec) (hE : E ≤ ew) (hemax : ew ≤ f.emax)
    (h : q ≤ mw * 2 ^ (ew - E).toNat) :
    Fl.abs_le (Fl.pack f s q E) ((mw : ℚ) * (2 : ℚ) ^ ew) := by
  have hval := scaled_value mw ew E hE
  have hq : (q : ℚ) * (2 : ℚ) ^ E ≤ (mw : ℚ) * (2 : ℚ) ^ ew := by
    rw [← hval]
    exact mul_le_mul_of_nonneg_right (by exact_mod_cast h) (le_of_lt (two_zpow_pos E))
  have hc0 : (0 : ℚ) ≤ (mw : ℚ) * (2 : ℚ) ^ ew :=
    mul_nonneg (Nat.cast_nonneg mw) (le_of_lt (two_zpow_pos ew))
  unfold Fl.pack
  split_ifs with h0 h1 h2 h3
  · exact abs_le_zero s 0 _ hc0
  · exfalso
    have hd : (ew - E).toNat ≠ 0 := by
      intro h0'
      rw [h0', pow_zero, mul_one, h1] at h
      omega
    have : 1 ≤ ew - E := by
      by_contra hlt
      apply hd
      have : ew - E ≤ 0 := by omega
      exact Int.toNat_eq_zero.mpr this
    omega
  · refine ⟨s, _, _, rfl, le_trans (le_of_eq ?_) hq⟩
    obtain ⟨p, hp'⟩ : ∃ p, f.prec = p + 1 := ⟨f.prec - 1, by omega⟩
    rw [h1, hp', Nat.add_sub_cancel, zpow_add_one₀ (by norm_num : (2 : ℚ) ≠ 0)]
    push_cast
    rw [pow_succ]
    ring
  · exfalso; omega
  · exact ⟨s, q, E, rfl, hq⟩

/-- Rounding to nearest does not exceed a number of the format that the exact value does
not exceed: when `m * 2^e <= mw * 2^ew` with `mw < 2^prec` and `emin <= ew <= emax`,
the rounded datum is finite and at most `mw * 2^ew` in absolute value. -/
theorem round_le (f : Fmt) (hp : 1 ≤ f.prec) (s : Bool) (m : Nat) (e : Int) (st : Bool)
    (mw : Nat) (ew : Int) (hmw : mw < 2 ^ f.prec) (hew : f.emin ≤ ew) (hemax : ew ≤ f.emax)
    (h : (m : ℚ) * (2 : ℚ) ^ e ≤ (mw : ℚ) * (2 : ℚ) ^ ew) :
    Fl.abs_le (Fl.round f s m e st) ((mw : ℚ) * (2 : ℚ) ^ ew) := by
  have h2 : (2 : ℚ) ≠ 0 := by norm_num
  have hc0 : (0 : ℚ) ≤ (mw : ℚ) * (2 : ℚ) ^ ew :=
    mul_nonneg (Nat.cast_nonneg mw) (le_of_lt (two_zpow_pos ew))
  unfold Fl.round
  by_cases hm : m = 0
  · rw [if_pos hm]
    exact abs_le_zero s 0 _ hc0
  rw [if_neg hm]
  have hL := bitlen_pos m hm
  have hE1 : e + (bitlen m : Int) - (f.prec : Int) ≤ ew := by
    by_contra hcon
    have hlow : 2 ^ (bitlen m - 1) ≤ m := (lt_bitlen_iff m (bitlen m - 1)).mp (by omega)
    have h3 : ((2 ^ (bitlen m - 1) : Nat) : ℚ) * (2 : ℚ) ^ e ≤ (m : ℚ) * (2 : ℚ) ^ e :=
      mul_le_mul_of_nonneg_right (by exact_mod_cast hlow) (le_of_lt (two_zpow_pos e))
    have h4 : (mw : ℚ) * (2 : ℚ) ^ ew < ((2 ^ f.prec : Nat) : ℚ) * (2 : ℚ) ^ ew :=
      mul_lt_mul_of_pos_right (by exact_mod_cast hmw) (two_zpow_pos ew)
    have h5 : ((2 ^ f.prec : Nat) : ℚ) * (2 : ℚ) ^ ew
        ≤ ((2 ^ (bitlen m - 1) : Nat) : ℚ) * (2 : ℚ) ^ e := by
      push_cast
      rw [← zpow_natCast, ← zpow_natCast, ← zpow_add₀ h2, ← zpow_add₀ h2]
      apply zpow_le_zpow_right₀ (by norm_num)
      push_cast [Nat.cast_sub hL]
      omega
    linarith
  generalize hEq : max (e + (bitlen m : Int) - (f.prec : Int)) f.emin = E
  have hE : E ≤ ew := by rw [← hEq]; exact max_le hE1 hew
  have hval := scaled_value mw ew E hE
  by_cases hc : E ≤ e
  · rw [if_pos hc]
    apply pack_le f hp s _ E mw ew hmw hE hemax
    have hk : (((e - E).toNat : Nat) : Int) = e - E := Int.toNat_of_nonneg (by omega)
    have hv : ((m * 2 ^ (e - E).toNat : Nat) : ℚ) * (2 : ℚ) ^ E = (m : ℚ) * (2 : ℚ) ^ e :=
      scaled_value m e E hc
    have h3 : ((m * 2 ^ (e - E).toNat : Nat) : ℚ) * (2 : ℚ) ^ E
        ≤ ((mw * 2 ^ (ew - E).toNat : Nat) : ℚ) * (2 : ℚ) ^ E := by
      rw [hv, hval]; exact h
    have h4 := le_of_mul_le_mul_right h3 (two_zpow_pos E)
    exact_mod_cast h4
  · rw [if_neg hc]
    have hsh : (((E - e).toNat : Nat) : Int) = E - e := Int.toNat_of_nonneg (by omega)
    generalize hS : (E - e).toNat = sh at hsh
    apply pack_le f hp s _ E mw ew hmw hE hemax
    apply shift_round_le m sh _ st
    have h3 : (m : ℚ) * (2 : ℚ) ^ e
        ≤ ((mw * 2 ^ (ew - E).toNat * 2 ^ sh : Nat) : ℚ) * (2 : ℚ) ^ e := by
      refine le_trans h (le_of_eq ?_)
      rw [← hval]
      push_cast
      rw [mul_assoc, mul_assoc, mul_assoc, ← zpow_natCast (2 : ℚ) sh, ← zpow_add₀ h2]
      congr 3
      omega
    have h4 := le_of_mul_le_mul_right h3 (two_zpow_pos e)
    exact_mod_cast h4

/-- The product of two finite numbers bounded by `a` and `b` is finite and bounded by
every number of the format that is at least `a * b`. -/
theorem mul_le (f : Fmt) (hp : 1 ≤ f.prec) (x y : Fl) (a b : ℚ) (hx : Fl.abs_le x a)
    (hy : Fl.abs_le y b) (mw : Nat) (ew : Int) (hmw : mw < 2 ^ f.prec) (hew : f.emin ≤ ew)
    (hemax : ew ≤ f.emax) (h : a * b ≤ (mw : ℚ) * (2 : ℚ) ^ ew) :
    Fl.abs_le (Fl.mul f x y) ((mw : ℚ) * (2 : ℚ) ^ ew) := by
  have hb := abs_le_nonneg y b hy
  obtain ⟨s, m, e, rfl, hm⟩ := hx
  obtain ⟨t, n, k, rfl, hn⟩ := hy
  show Fl.abs_le (Fl.round f (xor s t) (m * n) (e + k) false) _
  apply round_le f hp _ _ _ _ mw ew hmw hew hemax
  refine le_trans ?_ h
  have h1 : ((m * n : Nat) : ℚ) * (2 : ℚ) ^ (e + k)
      = ((m : ℚ) * (2 : ℚ) ^ e) * ((n : ℚ) * (2 : ℚ) ^ k) := by
    push_cast
    rw [zpow_add₀ (by norm_num : (2 : ℚ) ≠ 0)]
    ring
  rw [h1]
  exact mul_le_mul hm hn (mul_nonneg (Nat.cast_nonneg n) (le_of_lt (two_zpow_pos k)))
    (le_trans (mul_nonneg (Nat.cast_nonneg m) (le_of_lt (two_zpow_pos e))) hm)

/-- The quotient of a finite number bounded by `a` by a datum that is at least `b > 0`
is finite and bounded by every number of the format that is at least `a / b`. -/
theorem div_le (f : Fmt) (hp : 1 ≤ f.prec) (x y : Fl) (a b : ℚ) (hx : Fl.abs_le x a)
    (hb : 0 < b) (hy : Fl.ge y b) (mw : Nat) (ew : Int) (hmw : mw < 2 ^ f.prec)
    (hew : f.emin ≤ ew) (hemax : ew ≤ f.emax) (h : a / b ≤ (mw : ℚ) * (2 : ℚ) ^ ew) :
    Fl.abs_le (Fl.div f x y) ((mw : ℚ) * (2 : ℚ) ^ ew) := by
  have h2 : (2 : ℚ) ≠ 0 := by norm_num
  have hc0 : (0 : ℚ) ≤ (mw : ℚ) * (2 : ℚ) ^ ew :=
    mul_nonneg (Nat.cast_nonneg mw) (le_of_lt (two_zpow_pos ew))
  obtain ⟨s, m, e, rfl, hm⟩ := hx
  rcases hy with rfl | ⟨n, k, rfl, hn⟩
  · exact abs_le_zero _ 0 _ hc0
  · have hn0 : n ≠ 0 := by
      rintro rfl
      simp at hn
      linarith
    have hnpos : (0 : ℚ) < (n : ℚ) := by exact_mod_cast Nat.pos_of_ne_zero hn0
    have hd : Fl.div f (Fl.fin s m e) (Fl.fin false n k) =
        Fl.round f (xor s false) (m * 2 ^ (f.prec + 2 + bitlen n) / n)
          (e - k - (f.prec + 2 + bitlen n : Nat))
          (decide (m * 2 ^ (f.prec + 2 + bitlen n) % n ≠ 0)) := by
      simp only [Fl.div, if_neg hn0]
    rw [hd]
    apply round_le f hp _ _ _ _ mw ew hmw hew hemax
    refine le_trans ?_ h
    generalize f.prec + 2 + bitlen n = K
    have hq : ((m * 2 ^ K / n : Nat) : ℚ) ≤ ((m * 2 ^ K : Nat) : ℚ) / (n : ℚ) :=
      Nat.cast_div_le
    have hnk : (0 : ℚ) < (n : ℚ) * (2 : ℚ) ^ k := mul_pos hnpos (two_zpow_pos k)
    have e1 : ((m * 2 ^ K : Nat) : ℚ) / (n : ℚ) * (2 : ℚ) ^ (e - k - (K : Int))
        = ((m : ℚ) * (2 : ℚ) ^ e) / ((n : ℚ) * (2 : ℚ) ^ k) := by
      have hk0 : (2 : ℚ) ^ k ≠ 0 := ne_of_gt (two_zpow_pos k)
      have hK0 : (2 : ℚ) ^ (K : Int) ≠ 0 := ne_of_gt (two_zpow_pos _)
      rw [zpow_sub₀ h2, zpow_sub₀ h2]
      push_cast
      rw [← zpow_natCast (2 : ℚ) K]
      field_simp
      ring
    calc ((m * 2 ^ K / n : Nat) : ℚ) * (2 : ℚ) ^ (e - k - (K : Int))
        ≤ ((m * 2 ^ K : Nat) : ℚ) / (n : ℚ) * (2 : ℚ) ^ (e - k - (K : Int)) :=
          mul_le_mul_of_nonneg_right hq (le_of_lt (two_zpow_pos _))
      _ = ((m : ℚ) * (2 : ℚ) ^ e) / ((n : ℚ) * (2 : ℚ) ^ k) := e1
      _ ≤ a / ((n : ℚ) * (2 : ℚ) ^ k) := div_le_div_of_nonneg_right hm (le_of_lt hnk)
      _ ≤ a / b :=
          div_le_div_of_nonneg_left
            (le_trans (mul_nonneg (Nat.cast_nonneg m) (le_of_lt (two_zpow_pos e))) hm) hb hn

theorem natAbs_signed (s : Bool) (m : Nat) : (signed s m).natAbs = m := by
  cases s <;> simp [signed]

/-- The sum of two finite numbers bounded by `a` and `b` is finite and bounded by every
number of the format that is at least `a + b`. -/
theorem add_le (f : Fmt) (hp : 1 ≤ f.prec) (x y : Fl) (a b : ℚ) (hx : Fl.abs_le x a)
    (hy : Fl.abs_le y b) (mw : Nat) (ew : Int) (hmw : mw < 2 ^ f.prec) (hew : f.emin ≤ ew)
    (hemax : ew ≤ f.emax) (h : a + b ≤ (mw : ℚ) * (2 : ℚ) ^ ew) :
    Fl.abs_le (Fl.add f x y) ((mw : ℚ) * (2 : ℚ) ^ ew) := by
  have h2 : (2 : ℚ) ≠ 0 := by norm_num
  have ha := abs_le_nonneg x a hx
  have hb := abs_le_nonneg y b hy
  have hc0 : (0 : ℚ) ≤ (mw : ℚ) * (2 : ℚ) ^ ew := le_trans (add_nonneg ha hb) h
  obtain ⟨s, m, e, rfl, hm⟩ := hx
  obtain ⟨t, n, k, rfl, hn⟩ := hy
  simp only [Fl.add]
  split_ifs with h1 h3 h4 h5
  · exact abs_le_zero _ 0 _ hc0
  · exact ⟨t, n, k, rfl, by linarith⟩
  · exact ⟨s, m, e, rfl, by linarith⟩
  · exact abs_le_zero _ 0 _ hc0
  · apply round_le f hp _ _ _ _ mw ew hmw hew hemax
    refine le_trans ?_ h
    have hab : (signed s (m * 2 ^ (e - min e k).toNat) +
        signed t (n * 2 ^ (k - min e k).toNat)).natAbs
        ≤ m * 2 ^ (e - min e k).toNat + n * 2 ^ (k - min e k).toNat := by
      refine le_trans (Int.natAbs_add_le _ _) ?_
      rw [natAbs_signed, natAbs_signed]
    have hv1 : ((m * 2 ^ (e - min e k).toNat : Nat) : ℚ) * (2 : ℚ) ^ (min e k)
        = (m : ℚ) * (2 : ℚ) ^ e := scaled_value m e (min e k) (min_le_left e k)
    have hv2 : ((n * 2 ^ (k - min e k).toNat : Nat) : ℚ) * (2 : ℚ) ^ (min e k)
        = (n : ℚ) * (2 : ℚ) ^ k := scaled_value n k (min e k) (min_le_right e k)
    have h6 : (((signed s (m * 2 ^ (e - min e k).toNat) +
        signed t (n * 2 ^ (k - min e k).toNat)).natAbs : Nat) : ℚ)
        ≤ ((m * 2 ^ (e - min e k).toNat + n * 2 ^ (k - min e k).toNat : Nat) : ℚ) := by
      exact_mod_cast hab
    calc _ ≤ ((m * 2 ^ (e - min e k).toNat + n * 2 ^ (k - min e k).toNat : Nat) : ℚ)
          * (2 : ℚ) ^ (min e k) :=
          mul_le_mul_of_nonneg_right h6 (le_of_lt (two_zpow_pos _))
      _ = (m : ℚ) * (2 : ℚ) ^ e + (n : ℚ) * (2 : ℚ) ^ k := by
          rw [← hv1, ← hv2]; push_cast; ring
      _ ≤ a + b := add_le_add hm hn

/-- The difference of two finite numbers bounded by `a` and `b` is finite and bounded by
every number of the format that is at least `a + b`. -/
theorem sub_le (f : Fmt) (hp : 1 ≤ f.prec) (x y : Fl) (a b : ℚ) (hx : Fl.abs_le x a)
    (hy : Fl.abs_le y b) (mw : Nat) (ew : Int) (hmw : mw < 2 ^ f.prec) (hew : f.emin ≤ ew)
    (hemax : ew ≤ f.emax) (h : a + b ≤ (mw : ℚ) * (2 : ℚ) ^ ew) :
    Fl.abs_le (Fl.sub f x y) ((mw : ℚ) * (2 : ℚ) ^ ew) :=
  add_le f hp x y.neg a b hx (abs_le_neg y b hy) mw ew hmw hew hemax h

/-- A sum that started from `+0` is bounded as its summand is. -/
theorem add_zero_le (f : Fmt) (x : Fl) (a : ℚ) (hx : Fl.abs_le x a) :
    Fl.abs_le (Fl.add f (Fl.fin false 0 0) x) a := by
  rw [add_zero_left]
  split_ifs
  · exact abs_le_zero _ _ _ (abs_le_nonneg x a hx)
  · exact hx

/-! ## Binary32: the divisors grow with the displacement -/

/-- A non-zero significand `m` with exponent `e` lies between `2^(e + bitlen m - 1)` and
`2^(e + bitlen m)`. -/
theorem scale_bounds (m : Nat) (e : Int) (hm : m ≠ 0) :
    (2 : ℚ) ^ (e + (bitlen m : Int) - 1) ≤ (m : ℚ) * (2 : ℚ) ^ e ∧
    (m : ℚ) * (2 : ℚ) ^ e < (2 : ℚ) ^ (e + (bitlen m : Int)) := by
  have h2 : (2 : ℚ) ≠ 0 := by norm_num
  have hL := bitlen_pos m hm
  have hlow : 2 ^ (bitlen m - 1) ≤ m := (lt_bitlen_iff m (bitlen m - 1)).mp (by omega)
  have hup : m < 2 ^ bitlen m := lt_pow_bitlen m
  constructor
  · have h1 : (2 : ℚ) ^ (e + (bitlen m : Int) - 1)
        = ((2 ^ (bitlen m - 1) : Nat) : ℚ) * (2 : ℚ) ^ e := by
      push_cast
      rw [← zpow_natCast, ← zpow_add₀ h2]
      congr 1
      push_cast [Nat.cast_sub hL]
      omega
    rw [h1]
    exact mul_le_mul_of_nonneg_right (by exact_mod_cast hlow) (le_of_lt (two_zpow_pos e))
  · have h1 : (2 : ℚ) ^ (e + (bitlen m : Int))
        = ((2 ^ bitlen m : Nat) : ℚ) * (2 : ℚ) ^ e := by
      push_cast
      rw [← zpow_natCast, ← zpow_add₀ h2]
      congr 1
      omega
    rw [h1]
    exact mul_lt_mul_of_pos_right (by exact_mod_cast hup) (two_zpow_pos e)

theorem two_zpow_as_repr (g : Int) : (2 : ℚ) ^ g = ((1 : Nat) : ℚ) * (2 : ℚ) ^ g := by simp

/-- The square of a finite number of absolute value at least `2^a` is at least `4^a`. -/
theorem mul_self_ge (f : Fmt) (hp : 1 ≤ f.prec) (s : Bool) (m : Nat) (e : Int) (a : Int)
    (ha : f.emin ≤ 2 * a) (h : (2 : ℚ) ^ a ≤ (m : ℚ) * (2 : ℚ) ^ e) :
    Fl.ge (Fl.mul f (Fl.fin s m e) (Fl.fin s m e)) ((2 : ℚ) ^ (2 * a)) := by
  have h2 : (2 : ℚ) ≠ 0 := by norm_num
  have hx : xor s s = false := by cases s <;> rfl
  show Fl.ge (Fl.round f (xor s s) (m * m) (e + e) false) _
  rw [hx, two_zpow_as_repr]
  apply round_ge f hp _ _ _ 1 (2 * a) (by norm_num) Nat.one_le_two_pow ha
  rw [← two_zpow_as_repr]
  have h1 : ((m * m : Nat) : ℚ) * (2 : ℚ) ^ (e + e)
      = ((m : ℚ) * (2 : ℚ) ^ e) * ((m : ℚ) * (2 : ℚ) ^ e) := by
    push_cast
    rw [zpow_add₀ h2]
    ring
  have h3 : (2 : ℚ) ^ (2 * a) = (2 : ℚ) ^ a * (2 : ℚ) ^ a := by
    rw [← zpow_add₀ h2]
    congr 1
    omega
  rw [h1, h3]
  have hpos := le_of_lt (two_zpow_pos a)
  exact mul_le_mul h h hpos (le_trans hpos h)

/-- The sum of two finite numbers that are not negative is at least every number of the
format that the exact sum is at least. -/
theorem add_fin_ge (f : Fmt) (hp : 1 ≤ f.prec) (m : Nat) (e : Int) (n : Nat) (k : Int)
    (mw : Nat) (ew : Int) (hpos : 0 < mw) (hmw : mw ≤ 2 ^ f.prec) (hew : f.emin ≤ ew)
    (h : (mw : ℚ) * (2 : ℚ) ^ ew ≤ (m : ℚ) * (2 : ℚ) ^ e + (n : ℚ) * (2 : ℚ) ^ k) :
    Fl.ge (Fl.add f (Fl.fin false m e) (Fl.fin false n k)) ((mw : ℚ) * (2 : ℚ) ^ ew) := by
  have hcpos : (0 : ℚ) < (mw : ℚ) * (2 : ℚ) ^ ew :=
    mul_pos (by exact_mod_cast hpos) (two_zpow_pos ew)
  by_cases hm : m = 0
  · subst hm
    have hn : n ≠ 0 := by
      rintro rfl
      simp at h
      linarith
    have : Fl.add f (Fl.fin false 0 e) (Fl.fin false n k) = Fl.fin false n k := by
      simp [Fl.add, hn]
    rw [this]
    exact Or.inr ⟨n, k, rfl, by simpa using h⟩
  · by_cases hn : n = 0
    · subst hn
      have : Fl.add f (Fl.fin false m e) (Fl.fin false 0 k) = Fl.fin false m e := by
        simp [Fl.add, hm]
      rw [this]
      exact Or.inr ⟨m, e, rfl, by simpa using h⟩
    · have hsum : signed false (m * 2 ^ (e - min e k).toNat) +
          signed false (n * 2 ^ (k - min e k).toNat) =
          ((m * 2 ^ (e - min e k).toNat + n * 2 ^ (k - min e k).toNat : Nat) : Int) := by
        simp [signed_false]
      have hne : m * 2 ^ (e - min e k).toNat + n * 2 ^ (k - min e k).toNat ≠ 0 := by
        have : 0 < m * 2 ^ (e - min e k).toNat := by positivity
        omega
      have hadd : Fl.add f (Fl.fin false m e) (Fl.fin false n k) =
          Fl.round f false (m * 2 ^ (e - min e k).toNat + n * 2 ^ (k - min e k).toNat)
            (min e k) false := by
        simp only [Fl.add, if_neg hm, if_neg hn, hsum]
        rw [if_neg (by exact_mod_cast hne)]
        congr 1
      rw [hadd]
      apply round_ge f hp _ _ _ mw ew hpos hmw hew
      refine le_trans h (le_of_eq ?_)
      rw [← scaled_value m e (min e k) (min_le_left e k),
        ← scaled_value n k (min e k) (min_le_right e k)]
      push_cast
      ring

/-- The sum of a datum that is at least a number of the format and of a datum that is
not NaN and not negative is at least that number. -/
theorem add_ge_left (f : Fmt) (hp : 1 ≤ f.prec) (x y : Fl) (mw : Nat) (ew : Int)
    (hpos : 0 < mw) (hmw : mw ≤ 2 ^ f.prec) (hew : f.emin ≤ ew)
    (hx : Fl.ge x ((mw : ℚ) * (2 : ℚ) ^ ew)) (hy : y.sign_bit = some false) :
    Fl.ge (Fl.add f x y) ((mw : ℚ) * (2 : ℚ) ^ ew) := by
  rcases hx with rfl | ⟨m, e, rfl, hv⟩
  · rcases (sign_false_iff y).mp hy with rfl | ⟨n, k, rfl⟩
    · exact Or.inl rfl
    · exact Or.inl rfl
  · rcases (sign_false_iff y).mp hy with rfl | ⟨n, k, rfl⟩
    · exact Or.inl rfl
    · apply add_fin_ge f hp m e n k mw ew hpos hmw hew
      have : (0 : ℚ) ≤ (n : ℚ) * (2 : ℚ) ^ k :=
        mul_nonneg (Nat.cast_nonneg n) (le_of_lt (two_zpow_pos k))
      linarith

/-- The sum of a datum that is not NaN and not negative and of a datum that is at least a
number of the format is at least that number. -/
theorem add_ge_right (f : Fmt) (hp : 1 ≤ f.prec) (x y : Fl) (mw : Nat) (ew : Int)
    (hpos : 0 < mw) (hmw : mw ≤ 2 ^ f.prec) (hew : f.emin ≤ ew)
    (hx : x.sign_bit = some false) (hy : Fl.ge y ((mw : ℚ) * (2 : ℚ) ^ ew)) :
    Fl.ge (Fl.add f x y) ((mw : ℚ) * (2 : ℚ) ^ ew) := by
  rcases hy with rfl | ⟨n, k, rfl, hv⟩
  · rcases (sign_false_iff x).mp hx with rfl | ⟨m, e, rfl⟩
    · exact Or.inl rfl
    · exact Or.inl rfl
  · rcases (sign_false_iff x).mp hx with rfl | ⟨m, e, rfl⟩
    · exact Or.inl rfl
    · apply add_fin_ge f hp m e n k mw ew hpos hmw hew
      have : (0 : ℚ) ≤ (m : ℚ) * (2 : ℚ) ^ e :=
        mul_nonneg (Nat.cast_nonneg m) (le_of_lt (two_zpow_pos e))
      linarith

/-- In binary32 the softened squared distance is at least every power of two, not below
`2^-149`, that one of the two squares is at least. -/
theorem soft_r2_ge_square (dx dy : Fl) (g : Int) (hg : -149 ≤ g)
    (hx : (Fl.mul binary32 dx dx).sign_bit = some false)
    (hy : (Fl.mul binary32 dy dy).sign_bit = some false)
    (h : Fl.ge (Fl.mul binary32 dx dx) ((2 : ℚ) ^ g) ∨
      Fl.ge (Fl.mul binary32 dy dy) ((2 : ℚ) ^ g)) :
    Fl.ge (soft_r2 ieeeOps dx dy) ((2 : ℚ) ^ g) := by
  show Fl.ge (Fl.narrow binary32 (Fl.add binary64
    (Fl.add binary32 (Fl.mul binary32 dx dx) (Fl.mul binary32 dy dy))
    (Fl.fin false 7378697629483821 (-66)))) _
  rw [two_zpow_as_repr] at h ⊢
  have h1 : Fl.ge (Fl.add binary32 (Fl.mul binary32 dx dx) (Fl.mul binary32 dy dy))
      (((1 : Nat) : ℚ) * (2 : ℚ) ^ g) := by
    rcases h with h | h
    · exact add_ge_left binary32 (by decide) _ _ 1 g (by norm_num) (by norm_num [binary32])
        (by simpa [binary32] using hg) h hy
    · exact add_ge_right binary32 (by decide) _ _ 1 g (by norm_num) (by norm_num [binary32])
        (by simpa [binary32] using hg) hx h
  have h2 := add_ge_left binary64 (by decide) _ (Fl.fin false 7378697629483821 (-66)) 1 g
    (by norm_num) (by norm_num [binary64])
    (by have : (-1074 : Int) ≤ g := by omega
        simpa [binary64] using this) h1 rfl
  exact narrow_ge binary32 (by decide) _ 1 g (by norm_num) (by norm_num [binary32])
    (by simpa [binary32] using hg) h2

theorem mul_self_finite_sign (f : Fmt) (x : Fl) (hx : x.is_finite = true) :
    (Fl.mul f x x).sign_bit = some false :=
  mul_self_sign_strict f x (by
    obtain ⟨s, m, e, rfl⟩ := (is_finite_iff x).mp hx
    simp)

/-- In binary32, for finite displacements: if one of them has absolute value at least
`2^a`, with `-74 <= a`, then `r2` is at least `4^a` and `r` is at least `2^a`. -/
theorem divisors_ge_scale (ch : Charge Fl) (px py : Fl) (a : Int) (ha : -74 ≤ a)
    (hdx : (term_dx ieeeOps ch px).is_finite = true)
    (hdy : (term_dy ieeeOps ch py).is_finite = true)
    (h : (∃ s m e, term_dx ieeeOps ch px = Fl.fin s m e ∧ (2 : ℚ) ^ a ≤ (m : ℚ) * (2 : ℚ) ^ e) ∨
      (∃ s m e, term_dy ieeeOps ch py = Fl.fin s m e ∧ (2 : ℚ) ^ a ≤ (m : ℚ) * (2 : ℚ) ^ e)) :
    Fl.ge (term_r2 ieeeOps ch px py) ((2 : ℚ) ^ (2 * a)) ∧
    Fl.ge (term_r ieeeOps ch px py) ((2 : ℚ) ^ a) := by
  have hr2 : Fl.ge (term_r2 ieeeOps ch px py) ((2 : ℚ) ^ (2 * a)) := by
    apply soft_r2_ge_square _ _ (2 * a) (by omega) (mul_self_finite_sign _ _ hdx)
      (mul_self_finite_sign _ _ hdy)
    rcases h with ⟨s, m, e, hd, hv⟩ | ⟨s, m, e, hd, hv⟩
    · left
      rw [hd]
      exact mul_self_ge binary32 (by decide) s m e a
        (by have : (-149 : Int) ≤ 2 * a := by omega
            simpa [binary32] using this) hv
    · right
      rw [hd]
      exact mul_self_ge binary32 (by decide) s m e a
        (by have : (-149 : Int) ≤ 2 * a := by omega
            simpa [binary32] using this) hv
  refine ⟨hr2, ?_⟩
  show Fl.ge (Fl.sqrt binary32 (term_r2 ieeeOps ch px py)) _
  exact sqrt_ge binary32 (by decide) a
    (by have : (-149 : Int) ≤ a := by omega
        simpa [binary32] using this) _ hr2

/-! ## Binary32: a bound on the stored components -/

theorem below_pow2_abs_le (x : Fl) (g : Int) (h : x.below_pow2 g = true) :
    Fl.abs_le x ((2 : ℚ) ^ g) := by
  cases x with
  | nan => simp [Fl.below_pow2] at h
  | inf s => simp [Fl.below_pow2] at h
  | fin s m e =>
    have hle : e + (bitlen m : Int) ≤ g := by simpa [Fl.below_pow2] using h
    refine ⟨s, m, e, rfl, ?_⟩
    by_cases hm : m = 0
    · subst hm
      simpa using le_of_lt (two_zpow_pos g)
    · exact le_trans (le_of_lt (scale_bounds m e hm).2)
        (zpow_le_zpow_right₀ (by norm_num) hle)

/-- The sample coordinates are finite and at most 1. -/
theorem sample_abs_le (i : Nat) (hi : i < 20) :
    Fl.abs_le (sample_x ieeeOps i) 1 ∧ Fl.abs_le (sample_y ieeeOps i) 1 := by
  have h : (sample_x ieeeOps i).below_pow2 0 = true ∧ (sample_y ieeeOps i).below_pow2 0 = true := by
    interval_cases i <;> exact ⟨by decide!, by decide!⟩
  have e0 : (2 : ℚ) ^ (0 : Int) = 1 := by norm_num
  rw [← e0]
  exact ⟨below_pow2_abs_le _ 0 h.1, below_pow2_abs_le _ 0 h.2⟩

theorem repr_mul (A : Nat) (x y : Int) :
    ((A : ℚ) * (2 : ℚ) ^ x) * (2 : ℚ) ^ y = (A : ℚ) * (2 : ℚ) ^ (x + y) := by
  rw [zpow_add₀ (by norm_num : (2 : ℚ) ≠ 0)]
  ring

theorem repr_div (A : Nat) (x y : Int) :
    ((A : ℚ) * (2 : ℚ) ^ x) / (2 : ℚ) ^ y = (A : ℚ) * (2 : ℚ) ^ (x - y) := by
  rw [zpow_sub₀ (by norm_num : (2 : ℚ) ≠ 0)]
  ring

/-- One component of the loop body's pair, `P/r2*d/r` with `P = k*q`: when `|P|` is at
most `A * 2^eA`, `r2 >= 2^-14`, `r >= 2^-7`, and `r2 >= 4^a`, `r >= 2^a` whenever
`|d| >= 2^a`, the component is finite and at most `A * 2^(eA + 15)` in absolute value. -/
theorem component_le (P r2 d r : Fl) (A : Nat) (eA : Int) (hA : A < 2 ^ 24) (h1 : 10 ≤ eA)
    (h2 : eA ≤ 74) (hP : Fl.abs_le P ((A : ℚ) * (2 : ℚ) ^ eA))
    (hd : Fl.abs_le d ((2 : ℚ) ^ (65 : Int)))
    (hr2 : Fl.ge r2 ((2 : ℚ) ^ (-14 : Int))) (hr : Fl.ge r ((2 : ℚ) ^ (-7 : Int)))
    (hsc : ∀ a : Int, -7 ≤ a → ∀ s m e, d = Fl.fin s m e →
      (2 : ℚ) ^ a ≤ (m : ℚ) * (2 : ℚ) ^ e →
      Fl.ge r2 ((2 : ℚ) ^ (2 * a)) ∧ Fl.ge r ((2 : ℚ) ^ a)) :
    Fl.abs_le (Fl.div binary32 (Fl.mul binary32 (Fl.div binary32 P r2) d) r)
      ((A : ℚ) * (2 : ℚ) ^ (eA + 15)) := by
  have hp : 1 ≤ binary32.prec := by decide
  have hA' : A < 2 ^ binary32.prec := hA
  have hmono : ∀ x : Int, x ≤ eA + 15 →
      (A : ℚ) * (2 : ℚ) ^ x ≤ (A : ℚ) * (2 : ℚ) ^ (eA + 15) := fun x hx =>
    mul_le_mul_of_nonneg_left (zpow_le_zpow_right₀ (by norm_num) hx) (Nat.cast_nonneg A)
  obtain ⟨s, m, e, hdeq, hv⟩ := hd
  by_cases hsmall : (m : ℚ) * (2 : ℚ) ^ e ≤ (2 : ℚ) ^ (-7 : Int)
  · have hd' : Fl.abs_le d ((2 : ℚ) ^ (-7 : Int)) := ⟨s, m, e, hdeq, hsmall⟩
    have hE := div_le binary32 hp P r2 _ _ hP (two_zpow_pos _) hr2 A (eA + 14) hA'
      (by show (-149 : Int) ≤ _; omega) (by show _ ≤ (104 : Int); omega)
      (by rw [repr_div]; exact le_of_eq (by congr 2))
    have hM := mul_le binary32 hp _ d _ _ hE hd' A (eA + 7) hA'
      (by show (-149 : Int) ≤ _; omega) (by show _ ≤ (104 : Int); omega)
      (by rw [repr_mul]; exact le_of_eq (by congr 2; omega))
    have hD := div_le binary32 hp _ r _ _ hM (two_zpow_pos _) hr A (eA + 14) hA'
      (by show (-149 : Int) ≤ _; omega) (by show _ ≤ (104 : Int); omega)
      (by rw [repr_div]; exact le_of_eq (by congr 2; omega))
    exact abs_le_mono _ _ _ hD (hmono _ (by omega))
  · have hlt : (2 : ℚ) ^ (-7 : Int) < (m : ℚ) * (2 : ℚ) ^ e := lt_of_not_le hsmall
    have hm : m ≠ 0 := by
      rintro rfl
      have := two_zpow_pos (-7)
      simp at hlt
      linarith
    obtain ⟨hlo, hhi⟩ := scale_bounds m e hm
    generalize ha : e + (bitlen m : Int) - 1 = a at hlo
    have hhi' : (m : ℚ) * (2 : ℚ) ^ e < (2 : ℚ) ^ (a + 1) := by
      have : e + (bitlen m : Int) = a + 1 := by omega
      rw [this] at hhi
      exact hhi
    have ha1 : -7 ≤ a := by
      by_contra hcon
      have : (2 : ℚ) ^ (a + 1) ≤ (2 : ℚ) ^ (-7 : Int) :=
        zpow_le_zpow_right₀ (by norm_num) (by omega)
      linarith
    have ha2 : a ≤ 65 := by
      by_contra hcon
      have : (2 : ℚ) ^ (66 : Int) ≤ (2 : ℚ) ^ a :=
        zpow_le_zpow_right₀ (by norm_num) (by omega)
      have h65 : (2 : ℚ) ^ (65 : Int) < (2 : ℚ) ^ (66 : Int) := by norm_num
      linarith
    obtain ⟨g2, g1⟩ := hsc a ha1 s m e hdeq hlo
    have hd' : Fl.abs_le d ((2 : ℚ) ^ (a + 1)) := ⟨s, m, e, hdeq, le_of_lt hhi'⟩
    have hE := div_le binary32 hp P r2 _ _ hP (two_zpow_pos _) g2 A (eA - 2 * a) hA'
      (by show (-149 : Int) ≤ _; omega) (by show _ ≤ (104 : Int); omega)
      (by rw [repr_div])
    have hM := mul_le binary32 hp _ d _ _ hE hd' A (eA - a + 1) hA'
      (by show (-149 : Int) ≤ _; omega) (by show _ ≤ (104 : Int); omega)
      (by rw [repr_mul]; exact le_of_eq (by congr 2; omega))
    have hD := div_le binary32 hp _ r _ _ hM (two_zpow_pos _) g1 A (eA - 2 * a + 1) hA'
      (by show (-149 : Int) ≤ _; omega) (by show _ ≤ (104 : Int); omega)
      (by rw [repr_div]; exact le_of_eq (by congr 2; omega))
    exact abs_le_mono _ _ _ hD (hmono _ (by omega))

/-- In binary32, for a charge at a position of coordinates at most `2^64` in absolute
value, of magnitude at most `2^b` with `b <= 64`, and a sample point of coordinates at
most 1: both components of the pair the loop body adds are finite and at most
`(float)k * 2^(b + 15) = 8776905 * 2^(b + 25)` in absolute value. -/
theorem raw_term_le (ch : Charge Fl) (px py : Fl) (b : Nat) (hb : b ≤ 64)
    (hx : Fl.abs_le ch.x ((2 : ℚ) ^ (64 : Int))) (hy : Fl.abs_le ch.y ((2 : ℚ) ^ (64 : Int)))
    (hq : Fl.abs_le ch.q ((2 : ℚ) ^ (b : Int)))
    (hpx : Fl.abs_le px 1) (hpy : Fl.abs_le py 1) :
    Fl.abs_le (raw_term ieeeOps ch px py).1 ((8776905 : ℚ) * (2 : ℚ) ^ ((b : Int) + 25)) ∧
    Fl.abs_le (raw_term ieeeOps ch px py).2 ((8776905 : ℚ) * (2 : ℚ) ^ ((b : Int) + 25)) := by
  have hp : 1 ≤ binary32.prec := by decide
  have hk : Fl.abs_le (coulomb_k ieeeOps) (((8776905 : Nat) : ℚ) * (2 : ℚ) ^ (10 : Int)) := by
    rw [coulomb_k_ieee]
    exact ⟨false, 8776905, 10, rfl, le_rfl⟩
  have hP : Fl.abs_le (Fl.mul binary32 (coulomb_k ieeeOps) ch.q)
      (((8776905 : Nat) : ℚ) * (2 : ℚ) ^ ((10 : Int) + b)) :=
    mul_le binary32 hp _ _ _ _ hk hq 8776905 (10 + b) (by norm_num [binary32])
      (by show (-149 : Int) ≤ _; omega) (by show _ ≤ (104 : Int); omega)
      (by rw [repr_mul])
  have h65 : (1 : ℚ) + (2 : ℚ) ^ (64 : Int) ≤ ((1 : Nat) : ℚ) * (2 : ℚ) ^ (65 : Int) := by
    norm_num
  have e65 : ((1 : Nat) : ℚ) * (2 : ℚ) ^ (65 : Int) = (2 : ℚ) ^ (65 : Int) := by simp
  have hdx : Fl.abs_le (term_dx ieeeOps ch px) ((2 : ℚ) ^ (65 : Int)) := by
    rw [← e65]
    exact sub_le binary32 hp px ch.x 1 _ hpx hx 1 65 (by norm_num [binary32])
      (by decide) (by decide) h65
  have hdy : Fl.abs_le (term_dy ieeeOps ch py) ((2 : ℚ) ^ (65 : Int)) := by
    rw [← e65]
    exact sub_le binary32 hp py ch.y 1 _ hpy hy 1 65 (by norm_num [binary32])
      (by decide) (by decide) h65
  have fdx := abs_le_finite _ _ hdx
  have fdy := abs_le_finite _ _ hdy
  obtain ⟨g2, g1⟩ := divisors_ge_of_finite ch px py (abs_le_finite _ _ hx)
    (abs_le_finite _ _ hy) (abs_le_finite _ _ hpx) (abs_le_finite _ _ hpy)
  have g2' : Fl.ge (term_r2 ieeeOps ch px py) ((2 : ℚ) ^ (-14 : Int)) :=
    ge_mono _ _ _ g2 (by norm_num)
  have hcast : ((8776905 : Nat) : ℚ) * (2 : ℚ) ^ ((10 : Int) + b + 15)
      = (8776905 : ℚ) * (2 : ℚ) ^ ((b : Int) + 25) := by
    push_cast
    congr 2
    omega
  rw [← hcast]
  constructor
  · exact component_le _ _ _ _ 8776905 (10 + b) (by norm_num) (by omega) (by omega) hP hdx
      g2' g1 (fun a ha s m e hd hv =>
        divisors_ge_scale ch px py a (by omega) fdx fdy (Or.inl ⟨s, m, e, hd, hv⟩))
  · exact component_le _ _ _ _ 8776905 (10 + b) (by norm_num) (by omega) (by omega) hP hdy
      g2' g1 (fun a ha s m e hd hv =>
        divisors_ge_scale ch px py a (by omega) fdx fdy (Or.inr ⟨s, m, e, hd, hv⟩))

/-! ## Binary32: bounded inputs give finite values -/

/-- In binary32, for two charges of coordinates at most `2^64` and magnitudes at most
`2^b` in absolute value, `b <= 64`, and a cell of the grid: both components of the pair
held after the loop body has run for the first and then for the second charge, from
`(0.0f, 0.0f)`, are finite and at most `8776905 * 2^(b + 26)` in absolute value. -/
theorem steps_le (c0 c1 : Charge Fl) (b : Nat) (hb : b ≤ 64)
    (hx0 : Fl.abs_le c0.x ((2 : ℚ) ^ (64 : Int))) (hy0 : Fl.abs_le c0.y ((2 : ℚ) ^ (64 : Int)))
    (hq0 : Fl.abs_le c0.q ((2 : ℚ) ^ (b : Int)))
    (hx1 : Fl.abs_le c1.x ((2 : ℚ) ^ (64 : Int))) (hy1 : Fl.abs_le c1.y ((2 : ℚ) ^ (64 : Int)))
    (hq1 : Fl.abs_le c1.q ((2 : ℚ) ^ (b : Int)))
    (i j : Nat) (hi : i < 20) (hj : j < 20) :
    Fl.abs_le (charge_step ieeeOps c1 (sample_x ieeeOps i) (sample_y ieeeOps j)
      (charge_step ieeeOps c0 (sample_x ieeeOps i) (sample_y ieeeOps j)
        (ieeeOps.zero, ieeeOps.zero))).1 ((8776905 : ℚ) * (2 : ℚ) ^ ((b : Int) + 26)) ∧
    Fl.abs_le (charge_step ieeeOps c1 (sample_x ieeeOps i) (sample_y ieeeOps j)
      (charge_step ieeeOps c0 (sample_x ieeeOps i) (sample_y ieeeOps j)
        (ieeeOps.zero, ieeeOps.zero))).2 ((8776905 : ℚ) * (2 : ℚ) ^ ((b : Int) + 26)) := by
  have hp : 1 ≤ binary32.prec := by decide
  rw [charge_step_eq, charge_step_eq]
  obtain ⟨a1, a2⟩ := raw_term_le c0 (sample_x ieeeOps i) (sample_y ieeeOps j) b hb
    hx0 hy0 hq0 (sample_abs_le i hi).1 (sample_abs_le j hj).2
  obtain ⟨b1, b2⟩ := raw_term_le c1 (sample_x ieeeOps i) (sample_y ieeeOps j) b hb
    hx1 hy1 hq1 (sample_abs_le i hi).1 (sample_abs_le j hj).2
  have hsum : (8776905 : ℚ) * (2 : ℚ) ^ ((b : Int) + 25) + (8776905 : ℚ) * (2 : ℚ) ^ ((b : Int) + 25)
      ≤ ((8776905 : Nat) : ℚ) * (2 : ℚ) ^ ((b : Int) + 26) := by
    have : (2 : ℚ) ^ ((b : Int) + 26) = (2 : ℚ) ^ ((b : Int) + 25) * 2 := by
      rw [← zpow_add_one₀ (by norm_num : (2 : ℚ) ≠ 0)]
      congr 1
    rw [this]
    push_cast
    apply le_of_eq
    ring
  have hcast : ((8776905 : Nat) : ℚ) * (2 : ℚ) ^ ((b : Int) + 26)
      = (8776905 : ℚ) * (2 : ℚ) ^ ((b : Int) + 26) := by push_cast; rfl
  have c1' := add_le binary32 hp _ _ _ _ (add_zero_le binary32 _ _ a1) b1 8776905 (b + 26)
    (by norm_num [binary32]) (by show (-149 : Int) ≤ _; omega)
    (by show _ ≤ (104 : Int); omega) hsum
  have c2' := add_le binary32 hp _ _ _ _ (add_zero_le binary32 _ _ a2) b2 8776905 (b + 26)
    (by norm_num [binary32]) (by show (-149 : Int) ≤ _; omega)
    (by show _ ≤ (104 : Int); omega) hsum
  rw [hcast] at c1' c2'
  exact ⟨c1', c2'⟩

/-- The bound of `steps_le` for the value of a cell. -/
theorem cell_value_le (ch : Fin 2 → Charge Fl) (b : Nat) (hb : b ≤ 64)
    (hx : ∀ c, Fl.abs_le (ch c).x ((2 : ℚ) ^ (64 : Int)))
    (hy : ∀ c, Fl.abs_le (ch c).y ((2 : ℚ) ^ (64 : Int)))
    (hq : ∀ c, Fl.abs_le (ch c).q ((2 : ℚ) ^ (b : Int)))
    (i j : Nat) (hi : i < 20) (hj : j < 20) :
    Fl.abs_le (cell_value ieeeOps ch i j).1 ((8776905 : ℚ) * (2 : ℚ) ^ ((b : Int) + 26)) ∧
    Fl.abs_le (cell_value ieeeOps ch i j).2 ((8776905 : ℚ) * (2 : ℚ) ^ ((b : Int) + 26)) := by
  rw [cell_value_eq_steps]
  exact steps_le (ch 0) (ch 1) b hb (hx 0) (hy 0) (hq 0) (hx 1) (hy 1) (hq 1) i j hi hj

/-- The charges left by `set_charges` are bounded when the six arguments are. -/
theorem set_charges_bounded (s : State Fl) (x1 y1 q1 x2 y2 q2 : Fl) (X Q : ℚ)
    (hx1 : Fl.abs_le x1 X) (hy1 : Fl.abs_le y1 X) (hq1 : Fl.abs_le q1 Q)
    (hx2 : Fl.abs_le x2 X) (hy2 : Fl.abs_le y2 X) (hq2 : Fl.abs_le q2 Q) :
    (∀ c, Fl.abs_le ((set_charges s x1 y1 q1 x2 y2 q2).charges c).x X) ∧
    (∀ c, Fl.abs_le ((set_charges s x1 y1 q1 x2 y2 q2).charges c).y X) ∧
    (∀ c, Fl.abs_le ((set_charges s x1 y1 q1 x2 y2 q2).charges c).q Q) := by
  obtain ⟨h0, h1, -⟩ := set_charges_eq s x1 y1 q1 x2 y2 q2
  have hc : ∀ c : Fin 2, c = 0 ∨ c = 1 := by
    intro c
    fin_cases c <;> simp
  refine ⟨?_, ?_, ?_⟩ <;> intro c <;> rcases hc c with rfl | rfl
  · rw [h0]; exact hx1
  · rw [h1]; exact hx2
  · rw [h0]; exact hy1
  · rw [h1]; exact hy2
  · rw [h0]; exact hq1
  · rw [h1]; exact hq2

/-- In binary32, `E = k*q/r2` is finite for a charge at a finite position whose magnitude
is at most `2^64` in absolute value, at a finite sample point. -/
theorem term_E_finite (ch : Charge Fl) (px py : Fl)
    (hq : Fl.abs_le ch.q ((2 : ℚ) ^ (64 : Int)))
    (hx : ch.x.is_finite = true) (hy : ch.y.is_finite = true)
    (hpx : px.is_finite = true) (hpy : py.is_finite = true) :
    (term_E ieeeOps ch px py).is_finite = true := by
  have hp : 1 ≤ binary32.prec := by decide
  have hk : Fl.abs_le (coulomb_k ieeeOps) (((8776905 : Nat) : ℚ) * (2 : ℚ) ^ (10 : Int)) := by
    rw [coulomb_k_ieee]
    exact ⟨false, 8776905, 10, rfl, le_rfl⟩
  have hP : Fl.abs_le (Fl.mul binary32 (coulomb_k ieeeOps) ch.q)
      (((8776905 : Nat) : ℚ) * (2 : ℚ) ^ ((10 : Int) + 64)) :=
    mul_le binary32 hp _ _ _ _ hk hq 8776905 (10 + 64) (by norm_num [binary32])
      (by decide) (by decide) (by rw [repr_mul])
  obtain ⟨g2, -⟩ := divisors_ge_of_finite ch px py hx hy hpx hpy
  have g2' : Fl.ge (term_r2 ieeeOps ch px py) ((2 : ℚ) ^ (-14 : Int)) :=
    ge_mono _ _ _ g2 (by norm_num)
  have hE := div_le binary32 hp _ _ _ _ hP (two_zpow_pos _) g2' 8776905 (10 + 64 + 14)
    (by norm_num [binary32]) (by decide) (by decide)
    (by rw [repr_div]; exact le_of_eq (by congr 2))
  exact abs_le_finite _ _ hE

/-- A displacement over a root that is at least `2^-7` and at least `2^a` whenever the
displacement is: the quotient is finite and at most 2 in absolute value. -/
theorem quotient_le (d r : Fl) (hd : Fl.abs_le d ((2 : ℚ) ^ (65 : Int)))
    (hr : Fl.ge r ((2 : ℚ) ^ (-7 : Int)))
    (hsc : ∀ a : Int, -7 ≤ a → ∀ s m e, d = Fl.fin s m e →
      (2 : ℚ) ^ a ≤ (m : ℚ) * (2 : ℚ) ^ e → Fl.ge r ((2 : ℚ) ^ a)) :
    Fl.abs_le (Fl.div binary32 d r) 2 := by
  have hp : 1 ≤ binary32.prec := by decide
  have e2 : ((1 : Nat) : ℚ) * (2 : ℚ) ^ (1 : Int) = 2 := by norm_num
  obtain ⟨s, m, e, hdeq, hv⟩ := hd
  rw [← e2]
  by_cases hsmall : (m : ℚ) * (2 : ℚ) ^ e ≤ (2 : ℚ) ^ (-7 : Int)
  · have hd' : Fl.abs_le d ((2 : ℚ) ^ (-7 : Int)) := ⟨s, m, e, hdeq, hsmall⟩
    exact div_le binary32 hp d r _ _ hd' (two_zpow_pos _) hr 1 1 (by norm_num [binary32])
      (by decide) (by decide) (by norm_num)
  · have hlt : (2 : ℚ) ^ (-7 : Int) < (m : ℚ) * (2 : ℚ) ^ e := lt_of_not_le hsmall
    have hm : m ≠ 0 := by
      rintro rfl
      have := two_zpow_pos (-7)
      simp at hlt
      linarith
    obtain ⟨hlo, hhi⟩ := scale_bounds m e hm
    generalize ha : e + (bitlen m : Int) - 1 = a at hlo
    have hhi' : (m : ℚ) * (2 : ℚ) ^ e < (2 : ℚ) ^ (a + 1) := by
      have : e + (bitlen m : Int) = a + 1 := by omega
      rw [this] at hhi
      exact hhi
    have ha1 : -7 ≤ a := by
      by_contra hcon
      have : (2 : ℚ) ^ (a + 1) ≤ (2 : ℚ) ^ (-7 : Int) :=
        zpow_le_zpow_right₀ (by norm_num) (by omega)
      linarith
    have g1 := hsc a ha1 s m e hdeq hlo
    have hd' : Fl.abs_le d ((2 : ℚ) ^ (a + 1)) := ⟨s, m, e, hdeq, le_of_lt hhi'⟩
    refine div_le binary32 hp d r _ _ hd' (two_zpow_pos _) g1 1 1 (by norm_num [binary32])
      (by decide) (by decide) (le_of_eq ?_)
    rw [← zpow_sub₀ (by norm_num : (2 : ℚ) ≠ 0)]
    have : a + 1 - a = 1 := by omega
    rw [this]
    norm_num

/-- In binary32, for a charge of coordinates at most `2^64` in absolute value and a sample
point of coordinates at most 1, both components of `(dx/r, dy/r)` are finite and at most
2 in absolute value. -/
theorem displacement_over_r_le (ch : Charge Fl) (px py : Fl)
    (hx : Fl.abs_le ch.x ((2 : ℚ) ^ (64 : Int))) (hy : Fl.abs_le ch.y ((2 : ℚ) ^ (64 : Int)))
    (hpx : Fl.abs_le px 1) (hpy : Fl.abs_le py 1) :
    Fl.abs_le (displacement_over_r ieeeOps ch px py).1 2 ∧
    Fl.abs_le (displacement_over_r ieeeOps ch px py).2 2 := by
  have hp : 1 ≤ binary32.prec := by decide
  have h65 : (1 : ℚ) + (2 : ℚ) ^ (64 : Int) ≤ ((1 : Nat) : ℚ) * (2 : ℚ) ^ (65 : Int) := by
    norm_num
  have e65 : ((1 : Nat) : ℚ) * (2 : ℚ) ^ (65 : Int) = (2 : ℚ) ^ (65 : Int) := by simp
  have hdx : Fl.abs_le (term_dx ieeeOps ch px) ((2 : ℚ) ^ (65 : Int)) := by
    rw [← e65]
    exact sub_le binary32 hp px ch.x 1 _ hpx hx 1 65 (by norm_num [binary32])
      (by decide) (by decide) h65
  have hdy : Fl.abs_le (term_dy ieeeOps ch py) ((2 : ℚ) ^ (65 : Int)) := by
    rw [← e65]
    exact sub_le binary32 hp py ch.y 1 _ hpy hy 1 65 (by norm_num [binary32])
      (by decide) (by decide) h65
  have fdx := abs_le_finite _ _ hdx
  have fdy := abs_le_finite _ _ hdy
  obtain ⟨-, g1⟩ := divisors_ge_of_finite ch px py (abs_le_finite _ _ hx)
    (abs_le_finite _ _ hy) (abs_le_finite _ _ hpx) (abs_le_finite _ _ hpy)
  exact ⟨quotient_le _ _ hdx g1 (fun a ha s m e hd hv =>
      (divisors_ge_scale ch px py a (by omega) fdx fdy (Or.inl ⟨s, m, e, hd, hv⟩)).2),
    quotient_le _ _ hdy g1 (fun a ha s m e hd hv =>
      (divisors_ge_scale ch px py a (by omega) fdx fdy (Or.inr ⟨s, m, e, hd, hv⟩)).2)⟩

theorem abs_le_half_pow64 : Fl.abs_le (Fl.fin false 8388608 (-24)) ((2 : ℚ) ^ (64 : Int)) :=
  below_pow2_abs_le _ 64 (by decide)

theorem abs_le_zero_pow (g : Int) : Fl.abs_le (Fl.fin false 0 0) ((2 : ℚ) ^ g) :=
  abs_le_zero _ _ _ (le_of_lt (two_zpow_pos g))

/-- The buffer holds one pair for a cell. -/
theorem stored_at_unique {F : Type} (t : State F) (i j : Nat) (v w : F × F)
    (hv : stored_at t i j v) (hw : stored_at t i j w) : v = w :=
  Prod.ext (Option.some.inj (hv.1.symm.trans hw.1)) (Option.some.inj (hv.2.symm.trans hw.2))

/-! ## Binary32: the statements proved in exact arithmetic, on the arithmetic of the program -/

/-- The addition of a format is commutative. -/
theorem add_comm_fl (f : Fmt) (x y : Fl) : Fl.add f x y = Fl.add f y x := by
  cases x with
  | nan => rw [add_nan_left, add_nan_right]
  | inf a =>
    cases y with
    | nan => rfl
    | inf b =>
      by_cases h : a = b
      · subst h; rfl
      · have h' : ¬ b = a := fun e => h e.symm
        simp only [Fl.add, if_neg h, if_neg h']
    | fin t n k => rfl
  | fin s m e =>
    cases y with
    | nan => rfl
    | inf b => rfl
    | fin t n k =>
      simp only [Fl.add]
      by_cases hm : m = 0
      · by_cases hn : n = 0
        · subst hm; subst hn
          simp only [if_true, Bool.and_comm]
        · simp only [if_pos hm, if_neg hn]
      · by_cases hn : n = 0
        · simp only [if_neg hm, if_pos hn]
        · simp only [if_neg hm, if_neg hn, min_comm k e,
            add_comm (signed t (n * 2 ^ (k - min e k).toNat))]

/-- A sum that started from `+0` does not depend on the order of its two summands. -/
theorem add_swap (f : Fmt) (a b : Fl) :
    Fl.add f (Fl.add f (Fl.fin false 0 0) a) b = Fl.add f (Fl.add f (Fl.fin false 0 0) b) a := by
  rw [← add_add_zero f a b, ← add_add_zero f b a, add_comm_fl]

/-- In binary32 arithmetic, for every `(x1,y1,q1,x2,y2,q2)`, NaN and infinities included,
`compute_field` after `set_charges(x1,y1,q1,x2,y2,q2)` and `compute_field` after
`set_charges(x2,y2,q2,x1,y1,q1)` both return on the 800-slot buffer and leave identical
buffers. -/
theorem swapped_charges_binary32 (s : State Fl) (hlen : s.field.length = 800)
    (x1 y1 q1 x2 y2 q2 : Fl) :
    ∃ t t', compute_field ieeeOps (set_charges s x1 y1 q1 x2 y2 q2) = some t ∧
      compute_field ieeeOps (set_charges s x2 y2 q2 x1 y1 q1) = some t' ∧
      t.field = t'.field := by
  obtain ⟨a0, a1, af⟩ := set_charges_eq s x1 y1 q1 x2 y2 q2
  obtain ⟨b0, b1, bf⟩ := set_charges_eq s x2 y2 q2 x1 y1 q1
  have la : (set_charges s x1 y1 q1 x2 y2 q2).field.length = 800 := by rw [af, hlen]
  have lb : (set_charges s x2 y2 q2 x1 y1 q1).field.length = 800 := by rw [bf, hlen]
  obtain ⟨t, e⟩ := compute_field_returns ieeeOps _ la
  obtain ⟨t', e'⟩ := compute_field_returns ieeeOps _ lb
  refine ⟨t, t', e, e', ?_⟩
  rw [(compute_field_buffer ieeeOps _ t la e).2, (compute_field_buffer ieeeOps _ t' lb e').2]
  apply List.map_congr_left
  intro k _
  apply slot_value_congr
  intro i j
  rw [cell_value_eq_steps, cell_value_eq_steps, a0, a1, b0, b1, charge_step_eq, charge_step_eq,
    charge_step_eq, charge_step_eq]
  exact Prod.ext (add_swap binary32 _ _) (add_swap binary32 _ _)

/-- In binary32 arithmetic, when both magnitudes are zeros and the coordinates of both
charges are at most `2^64` in absolute value, `compute_field` returns on the 800-slot
buffer and stores exactly `(+0, +0)` in every cell. -/
theorem zero_magnitudes_binary32 (s : State Fl) (hlen : s.field.length = 800)
    (hq : ∀ c, (s.charges c).q.is_zero = true)
    (hx : ∀ c, Fl.abs_le (s.charges c).x ((2 : ℚ) ^ (64 : Int)))
    (hy : ∀ c, Fl.abs_le (s.charges c).y ((2 : ℚ) ^ (64 : Int))) :
    ∃ t, compute_field ieeeOps s = some t ∧
      ∀ i j, i < 20 → j < 20 → stored_at t i j (Fl.fin false 0 0, Fl.fin false 0 0) := by
  obtain ⟨t, e⟩ := compute_field_returns ieeeOps s hlen
  refine ⟨t, e, ?_⟩
  intro i j hi hj
  have hs := compute_field_stored ieeeOps s t hlen e i j hi hj
  have hzero : ∀ c, (raw_term ieeeOps (s.charges c) (sample_x ieeeOps i)
        (sample_y ieeeOps j)).1.is_zero = true ∧
      (raw_term ieeeOps (s.charges c) (sample_x ieeeOps i)
        (sample_y ieeeOps j)).2.is_zero = true := by
    intro c
    have hqc : Fl.abs_le (s.charges c).q ((2 : ℚ) ^ ((0 : Nat) : Int)) := by
      obtain ⟨sg, ex, h⟩ := (is_zero_iff _).mp (hq c)
      rw [h]
      exact abs_le_zero _ _ _ (le_of_lt (two_zpow_pos _))
    obtain ⟨f1, f2⟩ := raw_term_le (s.charges c) (sample_x ieeeOps i) (sample_y ieeeOps j) 0
      (by decide) (hx c) (hy c) hqc (sample_abs_le i hi).1 (sample_abs_le j hj).2
    obtain ⟨z1, z2⟩ := raw_term_inert (s.charges c) (sample_x ieeeOps i) (sample_y ieeeOps j)
      (hq c)
    constructor
    · rcases z1 with z | z
      · have := abs_le_finite _ _ f1
        rw [z] at this
        simp [Fl.is_finite] at this
      · exact z
    · rcases z2 with z | z
      · have := abs_le_finite _ _ f2
        rw [z] at this
        simp [Fl.is_finite] at this
      · exact z
  have hv : cell_value ieeeOps s.charges i j = (Fl.fin false 0 0, Fl.fin false 0 0) := by
    rw [cell_value_eq_steps, charge_step_eq, charge_step_eq]
    show (Fl.add binary32 (Fl.add binary32 (Fl.fin false 0 0) _) _,
      Fl.add binary32 (Fl.add binary32 (Fl.fin false 0 0) _) _) = _
    rw [add_zero_right _ _ _ (hzero 1).1, add_zero_right _ _ _ (hzero 1).2,
      add_zero_left, add_zero_left, if_pos (hzero 0).1, if_pos (hzero 0).2]
  rw [hv] at hs
  exact hs

/-- In binary32 arithmetic, after `set_charges(0.25, 0.5, 1, 0.75, 0.5, -1)` from the
initial state: cell `(5, 10)` lies on charge 1, whose term there is `(0, 0)`, and holds
`(35928645632, 0)`, the term of charge 2 alone, pointing in `+x` and smaller than its
neighbours `(4, 10)`, which holds `(-3359926386688, 0)`, and `(6, 10)`, which holds
`(3433971318784, 0)`; symmetrically cell `(15, 10)` lies on charge 2 and holds
`(35928645632, 0)`, between `(3433971318784, 0)` at `(14, 10)` and
`(-3359925075968, 0)` at `(16, 10)`. -/
theorem scenario_binary32 :
    ∃ t, compute_field ieeeOps
        (set_charges (init_state ieeeOps) (Fl.fin false 8388608 (-25))
          (Fl.fin false 8388608 (-24)) (Fl.fin false 8388608 (-23))
          (Fl.fin false 12582912 (-24)) (Fl.fin false 8388608 (-24))
          (Fl.fin true 8388608 (-23))) = some t ∧
      stored_at t 4 10 (Fl.fin true 12817102 18, Fl.fin false 0 0) ∧
      stored_at t 5 10 (Fl.fin false 8771642 12, Fl.fin false 0 0) ∧
      stored_at t 6 10 (Fl.fin false 13099561 18, Fl.fin false 0 0) ∧
      stored_at t 14 10 (Fl.fin false 13099561 18, Fl.fin false 0 0) ∧
      stored_at t 15 10 (Fl.fin false 8771642 12, Fl.fin false 0 0) ∧
      stored_at t 16 10 (Fl.fin true 12817097 18, Fl.fin false 0 0) ∧
      charge_term ieeeOps
        ⟨Fl.fin false 8388608 (-25), Fl.fin false 8388608 (-24), Fl.fin false 8388608 (-23)⟩
        (sample_x ieeeOps 5) (sample_y ieeeOps 10) = (Fl.fin false 0 0, Fl.fin false 0 0) ∧
      charge_term ieeeOps
        ⟨Fl.fin false 12582912 (-24), Fl.fin false 8388608 (-24), Fl.fin true 8388608 (-23)⟩
        (sample_x ieeeOps 5) (sample_y ieeeOps 10) = (Fl.fin false 8771642 12, Fl.fin false 0 0) ∧
      charge_term ieeeOps
        ⟨Fl.fin false 12582912 (-24), Fl.fin false 8388608 (-24), Fl.fin true 8388608 (-23)⟩
        (sample_x ieeeOps 15) (sample_y ieeeOps 10) = (Fl.fin false 0 0, Fl.fin false 0 0) ∧
      charge_term ieeeOps
        ⟨Fl.fin false 8388608 (-25), Fl.fin false 8388608 (-24), Fl.fin false 8388608 (-23)⟩
        (sample_x ieeeOps 15) (sample_y ieeeOps 10) = (Fl.fin false 8771642 12, Fl.fin false 0 0) ∧
      (Fl.fin false 8771642 12).toRat = 35928645632 ∧
      (Fl.fin true 12817102 18).toRat = -3359926386688 ∧
      (Fl.fin false 13099561 18).toRat = 3433971318784 ∧
      (Fl.fin true 12817097 18).toRat = -3359925075968 := by
  obtain ⟨t, e, h⟩ := stored_after_set_charges ieeeOps (init_state ieeeOps)
    (init_state_length ieeeOps) (Fl.fin false 8388608 (-25))
    (Fl.fin false 8388608 (-24)) (Fl.fin false 8388608 (-23))
    (Fl.fin false 12582912 (-24)) (Fl.fin false 8388608 (-24)) (Fl.fin true 8388608 (-23))
  have cellv : ∀ i, i < 20 → ∀ v : Fl × Fl,
      charge_step ieeeOps
        ⟨Fl.fin false 12582912 (-24), Fl.fin false 8388608 (-24), Fl.fin true 8388608 (-23)⟩
        (sample_x ieeeOps i) (sample_y ieeeOps 10)
        (charge_step ieeeOps
          ⟨Fl.fin false 8388608 (-25), Fl.fin false 8388608 (-24), Fl.fin false 8388608 (-23)⟩
          (sample_x ieeeOps i) (sample_y ieeeOps 10) (ieeeOps.zero, ieeeOps.zero)) = v →
      stored_at t i 10 v := by
    intro i hi v hv
    rw [← hv]
    exact h i 10 hi (by decide)
  refine ⟨t, e, cellv 4 (by decide) _ (by decide!), cellv 5 (by decide) _ (by decide!),
    cellv 6 (by decide) _ (by decide!), cellv 14 (by decide) _ (by decide!),
    cellv 15 (by decide) _ (by decide!), cellv 16 (by decide) _ (by decide!),
    by decide!, by decide!, by decide!, by decide!, ?_, ?_, ?_, ?_⟩ <;> norm_num [Fl.toRat]

/-! ## Binary32: two opposite charges at one point, the stored field -/

/-- The claim C11 refuted in binary32: after `set_charges(0.25, 0.5, 2^100, 0.25, 0.5,
-2^100)` the product `k*q` overflows to an infinity for both charges, the two terms at
cell `(0, 0)`, far from the shared point, are NaN, and the value of the cell is
`(NaN, NaN)`, not `(0, 0)`. -/
theorem cancellation_counterexample :
    ∃ t, compute_field ieeeOps
        (set_charges (init_state ieeeOps) (Fl.fin false 8388608 (-25))
          (Fl.fin false 8388608 (-24)) (Fl.fin false 8388608 77)
          (Fl.fin false 8388608 (-25)) (Fl.fin false 8388608 (-24))
          (Fl.fin false 8388608 77).neg) = some t ∧
      stored_at t 0 0 (Fl.nan, Fl.nan) ∧
      ¬ stored_at t 0 0 (ieeeOps.zero, ieeeOps.zero) := by
  obtain ⟨h0, h1, hf⟩ := set_charges_eq (init_state ieeeOps) (Fl.fin false 8388608 (-25))
    (Fl.fin false 8388608 (-24)) (Fl.fin false 8388608 77)
    (Fl.fin false 8388608 (-25)) (Fl.fin false 8388608 (-24)) (Fl.fin false 8388608 77).neg
  have hl : (set_charges (init_state ieeeOps) (Fl.fin false 8388608 (-25))
      (Fl.fin false 8388608 (-24)) (Fl.fin false 8388608 77)
      (Fl.fin false 8388608 (-25)) (Fl.fin false 8388608 (-24))
      (Fl.fin false 8388608 77).neg).field.length = 800 := by
    rw [hf]; exact init_state_length ieeeOps
  obtain ⟨t, e⟩ := compute_field_returns ieeeOps _ hl
  have hs := compute_field_stored ieeeOps _ t hl e 0 0 (by decide) (by decide)
  rw [cell_value_eq_steps, h0, h1] at hs
  have hv : charge_step ieeeOps
      ⟨Fl.fin false 8388608 (-25), Fl.fin false 8388608 (-24), (Fl.fin false 8388608 77).neg⟩
      (sample_x ieeeOps 0) (sample_y ieeeOps 0)
      (charge_step ieeeOps
        ⟨Fl.fin false 8388608 (-25), Fl.fin false 8388608 (-24), Fl.fin false 8388608 77⟩
        (sample_x ieeeOps 0) (sample_y ieeeOps 0) (ieeeOps.zero, ieeeOps.zero))
      = (Fl.nan, Fl.nan) := by decide!
  rw [hv] at hs
  refine ⟨t, e, hs, ?_⟩
  intro h
  have := hs.1.symm.trans h.1
  simp [ieeeOps] at this

/-- C11, amended: in binary32 arithmetic, for every position `(x, y)` and every
magnitude `q`, after `set_charges(x, y, q, x, y, -q)` the pair the loop body adds for
charge 2 is the negation of the pair it adds for charge 1 at every sample point, and
`compute_field` on the 800-slot buffer returns and stores exactly `(0, 0)` in every
cell at which the pair of charge 1 is finite (no overflow to an infinity or NaN).  When
`|x|`, `|y|` and `|q|` are at most `2^64` that is every one of the 400 cells. -/
theorem cancellation (s : State Fl) (hlen : s.field.length = 800) (x y q : Fl) :
    (∀ i j : Nat,
      raw_term ieeeOps ((set_charges s x y q x y q.neg).charges 1)
          (sample_x ieeeOps i) (sample_y ieeeOps j) =
        ((raw_term ieeeOps ((set_charges s x y q x y q.neg).charges 0)
            (sample_x ieeeOps i) (sample_y ieeeOps j)).1.neg,
         (raw_term ieeeOps ((set_charges s x y q x y q.neg).charges 0)
            (sample_x ieeeOps i) (sample_y ieeeOps j)).2.neg)) ∧
    ∃ t, compute_field ieeeOps (set_charges s x y q x y q.neg) = some t ∧
      (∀ i j, i < 20 → j < 20 →
        (raw_term ieeeOps ⟨x, y, q⟩ (sample_x ieeeOps i) (sample_y ieeeOps j)).1.is_finite
          = true →
        (raw_term ieeeOps ⟨x, y, q⟩ (sample_x ieeeOps i) (sample_y ieeeOps j)).2.is_finite
          = true →
        stored_at t i j (ieeeOps.zero, ieeeOps.zero)) ∧
      (Fl.abs_le x ((2 : ℚ) ^ (64 : Int)) → Fl.abs_le y ((2 : ℚ) ^ (64 : Int)) →
        Fl.abs_le q ((2 : ℚ) ^ (64 : Int)) →
        ∀ i j, i < 20 → j < 20 → stored_at t i j (ieeeOps.zero, ieeeOps.zero)) := by
  obtain ⟨h0, h1, hf⟩ := set_charges_eq s x y q x y q.neg
  have hl : (set_charges s x y q x y q.neg).field.length = 800 := by rw [hf, hlen]
  obtain ⟨t, e⟩ := compute_field_returns ieeeOps _ hl
  have hfin : ∀ i j, i < 20 → j < 20 →
      (raw_term ieeeOps ⟨x, y, q⟩ (sample_x ieeeOps i) (sample_y ieeeOps j)).1.is_finite
        = true →
      (raw_term ieeeOps ⟨x, y, q⟩ (sample_x ieeeOps i) (sample_y ieeeOps j)).2.is_finite
        = true →
      stored_at t i j (ieeeOps.zero, ieeeOps.zero) := by
    intro i j hi hj f1 f2
    have hs := compute_field_stored ieeeOps _ t hl e i j hi hj
    rw [cell_value_eq_steps, h0, h1, charge_step_eq, charge_step_eq, raw_term_neg_q] at hs
    have e1 := add_zero_add_neg binary32 _ f1
    have e2 := add_zero_add_neg binary32 _ f2
    have hv : (ieeeOps.add (ieeeOps.add ieeeOps.zero
          (raw_term ieeeOps ⟨x, y, q⟩ (sample_x ieeeOps i) (sample_y ieeeOps j)).1)
          (raw_term ieeeOps ⟨x, y, q⟩ (sample_x ieeeOps i) (sample_y ieeeOps j)).1.neg,
        ieeeOps.add (ieeeOps.add ieeeOps.zero
          (raw_term ieeeOps ⟨x, y, q⟩ (sample_x ieeeOps i) (sample_y ieeeOps j)).2)
          (raw_term ieeeOps ⟨x, y, q⟩ (sample_x ieeeOps i) (sample_y ieeeOps j)).2.neg)
        = (ieeeOps.zero, ieeeOps.zero) := by
      show (Fl.add binary32 (Fl.add binary32 (Fl.fin false 0 0) _) _,
        Fl.add binary32 (Fl.add binary32 (Fl.fin false 0 0) _) _) = _
      rw [e1, e2]
      rfl
    simp only [] at hs
    rw [hv] at hs
    exact hs
  refine ⟨?_, t, e, hfin, ?_⟩
  · intro i j
    rw [h0, h1, raw_term_neg_q]
  · intro bx bY bq i j hi hj
    obtain ⟨r1, r2⟩ := raw_term_le ⟨x, y, q⟩ (sample_x ieeeOps i) (sample_y ieeeOps j) 64
      (by decide) bx bY bq (sample_abs_le i hi).1 (sample_abs_le j hj).2
    exact hfin i j hi hj (abs_le_finite _ _ r1) (abs_le_finite _ _ r2)

/-- C11 amended, from the initial state with both charges at `(0.25, 0.5)` and
magnitudes `1` and `-1`: every one of the 400 cells holds `(0, 0)`. -/
theorem cancellation_witness :
    ∃ t, compute_field ieeeOps
        (set_charges (init_state ieeeOps) (Fl.fin false 8388608 (-25))
          (Fl.fin false 8388608 (-24)) (Fl.fin false 8388608 (-23))
          (Fl.fin false 8388608 (-25)) (Fl.fin false 8388608 (-24))
          (Fl.fin false 8388608 (-23)).neg) = some t ∧
      ∀ i j, i < 20 → j < 20 → stored_at t i j (ieeeOps.zero, ieeeOps.zero) := by
  obtain ⟨-, t, e, -, h⟩ := cancellation (init_state ieeeOps) (init_state_length ieeeOps)
    (Fl.fin false 8388608 (-25)) (Fl.fin false 8388608 (-24)) (Fl.fin false 8388608 (-23))
  exact ⟨t, e, h (below_pow2_abs_le _ 64 (by decide)) (below_pow2_abs_le _ 64 (by decide))
    (below_pow2_abs_le _ 64 (by decide))⟩

/-! ## Binary32: mirrored cells about the centre -/

/-- The claim C12 refuted in binary32: after `set_charges(0.5, 0.5, 1, 0, 0, 0)` the
cells `(13, 8)` and `(7, 12)`, mirrored about the centre with `(a, b) = (3, -2)`, hold
`(229037342720, -152691572736)` and `(-229037228032, 152691507200)`: the second is not
the negation of the first, and the first is not a positive multiple of `(3, -2)`.  The
sample coordinates `13/20` and `7/20` are rounded, and their displacements from `0.5`
differ in magnitude. -/
theorem central_symmetry_counterexample :
    ∃ t, compute_field ieeeOps
        (set_charges (init_state ieeeOps) (Fl.fin false 8388608 (-24))
          (Fl.fin false 8388608 (-24)) (Fl.fin false 8388608 (-23))
          (Fl.fin false 0 0) (Fl.fin false 0 0) (Fl.fin false 0 0)) = some t ∧
      stored_at t 13 8 (Fl.fin false 13979330 14, Fl.fin true 9319554 14) ∧
      stored_at t 7 12 (Fl.fin true 13979323 14, Fl.fin false 9319550 14) ∧
      Fl.fin true 13979323 14 ≠ (Fl.fin false 13979330 14).neg ∧
      (Fl.fin true 13979323 14).toRat ≠ -(Fl.fin false 13979330 14).toRat ∧
      (¬ ∃ σ : ℚ, 0 < σ ∧ (Fl.fin false 13979330 14).toRat = σ * 3 ∧
        (Fl.fin true 9319554 14).toRat = σ * (-2)) := by
  obtain ⟨t, e, h⟩ := stored_after_set_charges ieeeOps (init_state ieeeOps)
    (init_state_length ieeeOps) (Fl.fin false 8388608 (-24))
    (Fl.fin false 8388608 (-24)) (Fl.fin false 8388608 (-23))
    (Fl.fin false 0 0) (Fl.fin false 0 0) (Fl.fin false 0 0)
  have hs1 := h 13 8 (by decide) (by decide)
  have hs2 := h 7 12 (by decide) (by decide)
  have hv1 : charge_step ieeeOps ⟨Fl.fin false 0 0, Fl.fin false 0 0, Fl.fin false 0 0⟩
      (sample_x ieeeOps 13) (sample_y ieeeOps 8)
      (charge_step ieeeOps
        ⟨Fl.fin false 8388608 (-24), Fl.fin false 8388608 (-24), Fl.fin false 8388608 (-23)⟩
        (sample_x ieeeOps 13) (sample_y ieeeOps 8) (ieeeOps.zero, ieeeOps.zero))
      = (Fl.fin false 13979330 14, Fl.fin true 9319554 14) := by decide!
  have hv2 : charge_step ieeeOps ⟨Fl.fin false 0 0, Fl.fin false 0 0, Fl.fin false 0 0⟩
      (sample_x ieeeOps 7) (sample_y ieeeOps 12)
      (charge_step ieeeOps
        ⟨Fl.fin false 8388608 (-24), Fl.fin false 8388608 (-24), Fl.fin false 8388608 (-23)⟩
        (sample_x ieeeOps 7) (sample_y ieeeOps 12) (ieeeOps.zero, ieeeOps.zero))
      = (Fl.fin true 13979323 14, Fl.fin false 9319550 14) := by decide!
  rw [hv1] at hs1
  rw [hv2] at hs2
  refine ⟨t, e, hs1, hs2, by decide, ?_, ?_⟩
  · norm_num [Fl.toRat]
  · rintro ⟨σ, -, h1, h2⟩
    have h3 : (Fl.fin false 13979330 14).toRat * (-2) = (Fl.fin true 9319554 14).toRat * 3 := by
      rw [h1, h2]; ring
    norm_num [Fl.toRat] at h3

/-- C12, amended: in binary32 arithmetic, after `set_charges(0.5, 0.5, q, x2, y2, 0)` on
a state with the 800-slot buffer, `compute_field` returns and (1) for all offsets
`a, b` in `0, ±1, ±4, ±5, ±6, ±9`, whose sample coordinates are mirrored exactly about
`0.5`, each component stored for cell `(10-a, 10-b)` is the negation of the component
stored for cell `(10+a, 10+b)`, unless both are zeros or one of them is a NaN; (2) for
all `-9 <= a, b <= 9` each component stored for cell `(10+a, 10+b)` is a NaN, a zero, or
a number whose sign is the product of the signs of `q` and of `a` (resp. `b`): for
`q > 0` the stored vector points outward component by component.  When `|q|`, `|x2|`
and `|y2|` are at most `2^64` all these components are finite, so none is a NaN. -/
theorem central_symmetry (s : State Fl) (hlen : s.field.length = 800) (q x2 y2 : Fl) :
    ∃ t, compute_field ieeeOps
        (set_charges s (Fl.fin false 8388608 (-24)) (Fl.fin false 8388608 (-24)) q
          x2 y2 (Fl.fin false 0 0)) = some t ∧
      (∀ a b : Int, a ∈ mirrored_offsets → b ∈ mirrored_offsets →
        ∃ v w, stored_at t (10 + a).toNat (10 + b).toNat v ∧
          stored_at t (10 - a).toNat (10 - b).toNat w ∧
          Fl.opposite v.1 w.1 ∧ Fl.opposite v.2 w.2 ∧
          (Fl.abs_le q ((2 : ℚ) ^ (64 : Int)) → Fl.abs_le x2 ((2 : ℚ) ^ (64 : Int)) →
            Fl.abs_le y2 ((2 : ℚ) ^ (64 : Int)) →
            v.1.is_finite = true ∧ v.2.is_finite = true ∧
            w.1.is_finite = true ∧ w.2.is_finite = true)) ∧
      (∀ a b : Int, -9 ≤ a → a ≤ 9 → -9 ≤ b → b ≤ 9 →
        ∃ v, stored_at t (10 + a).toNat (10 + b).toNat v ∧
          Fl.sign_agrees v.1 q (Fl.ofInt binary32 a) ∧
          Fl.sign_agrees v.2 q (Fl.ofInt binary32 b) ∧
          (Fl.abs_le q ((2 : ℚ) ^ (64 : Int)) → Fl.abs_le x2 ((2 : ℚ) ^ (64 : Int)) →
            Fl.abs_le y2 ((2 : ℚ) ^ (64 : Int)) →
            v.1.is_finite = true ∧ v.2.is_finite = true)) := by
  obtain ⟨t, e, h⟩ := stored_after_set_charges ieeeOps s hlen (Fl.fin false 8388608 (-24))
    (Fl.fin false 8388608 (-24)) q x2 y2 (Fl.fin false 0 0)
  have hfin : ∀ i j, i < 20 → j < 20 → Fl.abs_le q ((2 : ℚ) ^ (64 : Int)) →
      Fl.abs_le x2 ((2 : ℚ) ^ (64 : Int)) → Fl.abs_le y2 ((2 : ℚ) ^ (64 : Int)) →
      (charge_step ieeeOps ⟨x2, y2, Fl.fin false 0 0⟩ (sample_x ieeeOps i) (sample_y ieeeOps j)
        (charge_step ieeeOps ⟨Fl.fin false 8388608 (-24), Fl.fin false 8388608 (-24), q⟩
          (sample_x ieeeOps i) (sample_y ieeeOps j) (ieeeOps.zero, ieeeOps.zero))).1.is_finite
        = true ∧
      (charge_step ieeeOps ⟨x2, y2, Fl.fin false 0 0⟩ (sample_x ieeeOps i) (sample_y ieeeOps j)
        (charge_step ieeeOps ⟨Fl.fin false 8388608 (-24), Fl.fin false 8388608 (-24), q⟩
          (sample_x ieeeOps i) (sample_y ieeeOps j) (ieeeOps.zero, ieeeOps.zero))).2.is_finite
        = true := by
    intro i j hi hj bq bx bY
    obtain ⟨c1, c2⟩ := steps_le
      ⟨Fl.fin false 8388608 (-24), Fl.fin false 8388608 (-24), q⟩
      ⟨x2, y2, Fl.fin false 0 0⟩ 64 (by decide) abs_le_half_pow64 abs_le_half_pow64 bq
      bx bY (abs_le_zero_pow _) i j hi hj
    exact ⟨abs_le_finite _ _ c1, abs_le_finite _ _ c2⟩
  refine ⟨t, e, ?_, ?_⟩
  · intro a b ha hb
    obtain ⟨a1, a2, a3⟩ := mirrored_offsets_spec a ha
    obtain ⟨b1, b2, b3⟩ := mirrored_offsets_spec b hb
    have hv := h _ _ a1 b1
    have hw := h _ _ a2 b2
    have fv := hfin _ _ a1 b1
    have fw := hfin _ _ a2 b2
    rw [charge_step_eq, charge_step_eq] at hv hw fv fw
    refine ⟨_, _, hv, hw, ?_⟩
    obtain ⟨z1, z2⟩ := raw_term_inert ⟨x2, y2, Fl.fin false 0 0⟩
      (sample_x ieeeOps (10 + a).toNat) (sample_y ieeeOps (10 + b).toNat) rfl
    obtain ⟨z1', z2'⟩ := raw_term_inert ⟨x2, y2, Fl.fin false 0 0⟩
      (sample_x ieeeOps (10 - a).toNat) (sample_y ieeeOps (10 - b).toNat) rfl
    obtain ⟨m1, m2⟩ := raw_term_mirror
      ⟨Fl.fin false 8388608 (-24), Fl.fin false 8388608 (-24), q⟩
      (sample_x ieeeOps (10 + a).toNat) (sample_y ieeeOps (10 + b).toNat)
      (sample_x ieeeOps (10 - a).toNat) (sample_y ieeeOps (10 - b).toNat) a3 b3
    exact ⟨sum_mirror binary32 _ _ _ _ z1 z1' m1, sum_mirror binary32 _ _ _ _ z2 z2' m2,
      fun bq bx bY => ⟨(fv bq bx bY).1, (fv bq bx bY).2, (fw bq bx bY).1, (fw bq bx bY).2⟩⟩
  · intro a b a1 a2 b1 b2
    obtain ⟨ha, sa⟩ := offset_sign a a1 a2
    obtain ⟨hb, sb⟩ := offset_sign b b1 b2
    have hv := h _ _ ha hb
    have fv := hfin _ _ ha hb
    rw [charge_step_eq, charge_step_eq] at hv fv
    refine ⟨_, hv, ?_⟩
    obtain ⟨z1, z2⟩ := raw_term_inert ⟨x2, y2, Fl.fin false 0 0⟩
      (sample_x ieeeOps (10 + a).toNat) (sample_y ieeeOps (10 + b).toNat) rfl
    obtain ⟨g1, g2⟩ := raw_term_sign
      ⟨Fl.fin false 8388608 (-24), Fl.fin false 8388608 (-24), q⟩
      (sample_x ieeeOps (10 + a).toNat) (sample_y ieeeOps (10 + b).toNat)
    exact ⟨sign_agrees_congr _ _ _ _ sa
        (sign_agrees_of _ _ _ _ g1 (add_active_inert binary32 _ _ z1).1),
      sign_agrees_congr _ _ _ _ sb
        (sign_agrees_of _ _ _ _ g2 (add_active_inert binary32 _ _ z2).1), fv⟩

/-- C12 amended, after `set_charges(0.5, 0.5, 1, 0, 0, 0)` from the initial state: the
cells `(14, 6)` and `(6, 14)`, with `(a, b) = (4, -4)`, hold the finite mirrored vectors
`(79290769408, -79290769408)` and `(-79290769408, 79290769408)`. -/
theorem central_symmetry_witness :
    ∃ t, compute_field ieeeOps
        (set_charges (init_state ieeeOps) (Fl.fin false 8388608 (-24))
          (Fl.fin false 8388608 (-24)) (Fl.fin false 8388608 (-23))
          (Fl.fin false 0 0) (Fl.fin false 0 0) (Fl.fin false 0 0)) = some t ∧
      stored_at t 14 6 (Fl.fin false 9679049 13, Fl.fin true 9679049 13) ∧
      stored_at t 6 14 (Fl.fin true 9679049 13, Fl.fin false 9679049 13) ∧
      Fl.opposite (Fl.fin false 9679049 13) (Fl.fin true 9679049 13) ∧
      Fl.opposite (Fl.fin true 9679049 13) (Fl.fin false 9679049 13) ∧
      (Fl.fin false 9679049 13).toRat = 79290769408 := by
  obtain ⟨t, e, h, -⟩ := central_symmetry (init_state ieeeOps) (init_state_length ieeeOps)
    (Fl.fin false 8388608 (-23)) (Fl.fin false 0 0) (Fl.fin false 0 0)
  obtain ⟨t2, e2, h2⟩ := stored_after_set_charges ieeeOps (init_state ieeeOps)
    (init_state_length ieeeOps) (Fl.fin false 8388608 (-24))
    (Fl.fin false 8388608 (-24)) (Fl.fin false 8388608 (-23))
    (Fl.fin false 0 0) (Fl.fin false 0 0) (Fl.fin false 0 0)
  have ht : t = t2 := Option.some.inj (e.symm.trans e2)
  subst ht
  have h4 : (4 : Int) ∈ mirrored_offsets := by simp [mirrored_offsets]
  have h4' : (-4 : Int) ∈ mirrored_offsets := by simp [mirrored_offsets]
  obtain ⟨v, w, hv, hw, o1, o2, -⟩ := h 4 (-4) h4 h4'
  have e1 : (10 + (4 : Int)).toNat = 14 := rfl
  have e2' : (10 + (-4 : Int)).toNat = 6 := rfl
  have e3 : (10 - (4 : Int)).toNat = 6 := rfl
  have e4 : (10 - (-4 : Int)).toNat = 14 := rfl
  rw [e1, e2'] at hv
  rw [e3, e4] at hw
  have sv := h2 14 6 (by decide) (by decide)
  have sw := h2 6 14 (by decide) (by decide)
  have cv : charge_step ieeeOps ⟨Fl.fin false 0 0, Fl.fin false 0 0, Fl.fin false 0 0⟩
      (sample_x ieeeOps 14) (sample_y ieeeOps 6)
      (charge_step ieeeOps
        ⟨Fl.fin false 8388608 (-24), Fl.fin false 8388608 (-24), Fl.fin false 8388608 (-23)⟩
        (sample_x ieeeOps 14) (sample_y ieeeOps 6) (ieeeOps.zero, ieeeOps.zero))
      = (Fl.fin false 9679049 13, Fl.fin true 9679049 13) := by decide!
  have cw : charge_step ieeeOps ⟨Fl.fin false 0 0, Fl.fin false 0 0, Fl.fin false 0 0⟩
      (sample_x ieeeOps 6) (sample_y ieeeOps 14)
      (charge_step ieeeOps
        ⟨Fl.fin false 8388608 (-24), Fl.fin false 8388608 (-24), Fl.fin false 8388608 (-23)⟩
        (sample_x ieeeOps 6) (sample_y ieeeOps 14) (ieeeOps.zero, ieeeOps.zero))
      = (Fl.fin true 9679049 13, Fl.fin false 9679049 13) := by decide!
  rw [cv] at sv
  rw [cw] at sw
  have hvv := stored_at_unique t 14 6 _ _ hv sv
  have hww := stored_at_unique t 6 14 _ _ hw sw
  rw [hvv, hww] at o1 o2
  exact ⟨t, e, sv, sw, o1, o2, by norm_num [Fl.toRat]⟩

/-! ## Binary32: the vector `(dx/r, dy/r)` -/

/-- The claim C13 refuted in binary32: for the charge `(0.25, 0.5, 1)` at cell `(4, 10)`,
`dx = -0.05`, `dy = 0`, `r = sqrtf(0.0026)`, the vector `(dx/r, dy/r)` is
`(-0.98058, 0)`: the sum of the squares of its components is not 1, and the sum of the
squares of the contribution `(-3389622583296, 0)` is not the square of
`E = 3456750583808`. -/
theorem unit_displacement_counterexample :
    displacement_over_r ieeeOps
        ⟨Fl.fin false 8388608 (-25), Fl.fin false 8388608 (-24), Fl.fin false 8388608 (-23)⟩
        (sample_x ieeeOps 4) (sample_y ieeeOps 10)
      = (Fl.fin true 16451413 (-24), Fl.fin false 0 0) ∧
    raw_term ieeeOps
        ⟨Fl.fin false 8388608 (-25), Fl.fin false 8388608 (-24), Fl.fin false 8388608 (-23)⟩
        (sample_x ieeeOps 4) (sample_y ieeeOps 10)
      = (Fl.fin true 12930384 18, Fl.fin false 0 0) ∧
    term_E ieeeOps
        ⟨Fl.fin false 8388608 (-25), Fl.fin false 8388608 (-24), Fl.fin false 8388608 (-23)⟩
        (sample_x ieeeOps 4) (sample_y ieeeOps 10)
      = Fl.fin false 13186457 18 ∧
    (Fl.fin true 16451413 (-24)).toRat ^ 2 + (Fl.fin false 0 0).toRat ^ 2 ≠ 1 ∧
    (Fl.fin true 12930384 18).toRat ^ 2 + (Fl.fin false 0 0).toRat ^ 2
      ≠ (Fl.fin false 13186457 18).toRat ^ 2 := by
  refine ⟨by decide!, by decide!, by decide!, ?_, ?_⟩ <;> norm_num [Fl.toRat]

theorem toRat_zero (x : Fl) (h : x.is_zero = true) : x.toRat = 0 := by
  obtain ⟨s, e, rfl⟩ := (is_zero_iff x).mp h
  simp [Fl.toRat]

theorem toRat_ne_zero (x : Fl) (hf : x.is_finite = true) (h : x.is_zero = false) :
    x.toRat ≠ 0 := by
  obtain ⟨s, m, e, rfl⟩ := (is_finite_iff x).mp hf
  have hm : m ≠ 0 := by simpa [Fl.is_zero] using h
  have h2 := two_zpow_pos e
  have hm' : (0 : ℚ) < (m : ℚ) := by exact_mod_cast Nat.pos_of_ne_zero hm
  cases s
  · simp only [Fl.toRat, Bool.false_eq_true, if_false, one_mul]
    positivity
  · simp only [Fl.toRat, if_true]
    have : (0 : ℚ) < (m : ℚ) * (2 : ℚ) ^ e := mul_pos hm' h2
    intro h0
    have h1 : (-1 : ℚ) * (m : ℚ) * (2 : ℚ) ^ e = -((m : ℚ) * (2 : ℚ) ^ e) := by ring
    rw [h1] at h0
    linarith

/-- C13, amended: in binary32 arithmetic the contribution of a charge to a cell is
`(E*dx/r, E*dy/r)` with the softened `r = sqrtf(dx*dx + dy*dy + 1e-4)`, and
`(dx/r, dy/r)` is not a unit vector in general.  For every state with the 800-slot
buffer, every cell of the grid and every charge: when the coordinates of the charge are
at most `2^64` in absolute value, both components of `(dx/r, dy/r)` are finite and at
most 2 in absolute value; when the charge sits on the cell's sample point,
`(dx/r, dy/r)` is exactly `(0, 0)`, of norm 0, and if moreover `E = k*q/r2` is finite,
the contribution is a pair of zeros, of norm 0, which differs from `|E|` whenever `E`
is not a zero. -/
theorem softened_displacement (s : State Fl) (hlen : s.field.length = 800) (c : Fin 2)
    (i j : Nat) (hi : i < 20) (hj : j < 20) :
    (∃ t, compute_field ieeeOps s = some t) ∧
    (∀ acc : Fl × Fl,
      charge_step ieeeOps (s.charges c) (sample_x ieeeOps i) (sample_y ieeeOps j) acc =
        (Fl.add binary32 acc.1
          (raw_term ieeeOps (s.charges c) (sample_x ieeeOps i) (sample_y ieeeOps j)).1,
         Fl.add binary32 acc.2
          (raw_term ieeeOps (s.charges c) (sample_x ieeeOps i) (sample_y ieeeOps j)).2)) ∧
    (Fl.abs_le (s.charges c).x ((2 : ℚ) ^ (64 : Int)) →
      Fl.abs_le (s.charges c).y ((2 : ℚ) ^ (64 : Int)) →
      Fl.abs_le (displacement_over_r ieeeOps (s.charges c) (sample_x ieeeOps i)
        (sample_y ieeeOps j)).1 2 ∧
      Fl.abs_le (displacement_over_r ieeeOps (s.charges c) (sample_x ieeeOps i)
        (sample_y ieeeOps j)).2 2) ∧
    ((s.charges c).x = sample_x ieeeOps i → (s.charges c).y = sample_y ieeeOps j →
      displacement_over_r ieeeOps (s.charges c) (sample_x ieeeOps i) (sample_y ieeeOps j)
        = (Fl.fin false 0 0, Fl.fin false 0 0) ∧
      (displacement_over_r ieeeOps (s.charges c) (sample_x ieeeOps i)
          (sample_y ieeeOps j)).1.toRat ^ 2 +
        (displacement_over_r ieeeOps (s.charges c) (sample_x ieeeOps i)
          (sample_y ieeeOps j)).2.toRat ^ 2 = 0 ∧
      ((term_E ieeeOps (s.charges c) (sample_x ieeeOps i) (sample_y ieeeOps j)).is_finite
          = true →
        (raw_term ieeeOps (s.charges c) (sample_x ieeeOps i) (sample_y ieeeOps j)).1.toRat ^ 2 +
          (raw_term ieeeOps (s.charges c) (sample_x ieeeOps i) (sample_y ieeeOps j)).2.toRat ^ 2
          = 0 ∧
        ((term_E ieeeOps (s.charges c) (sample_x ieeeOps i) (sample_y ieeeOps j)).is_zero
            = false →
          (raw_term ieeeOps (s.charges c) (sample_x ieeeOps i)
              (sample_y ieeeOps j)).1.toRat ^ 2 +
            (raw_term ieeeOps (s.charges c) (sample_x ieeeOps i)
              (sample_y ieeeOps j)).2.toRat ^ 2
            ≠ (term_E ieeeOps (s.charges c) (sample_x ieeeOps i)
              (sample_y ieeeOps j)).toRat ^ 2))) := by
  refine ⟨compute_field_returns ieeeOps s hlen, fun _ => rfl, ?_, ?_⟩
  · intro bx bY
    exact displacement_over_r_le _ _ _ bx bY (sample_abs_le i hi).1 (sample_abs_le j hj).2
  · intro hx hy
    obtain ⟨hdx, hdy, -, hr⟩ := coincident_divisors (s.charges c) (sample_x ieeeOps i)
      (sample_y ieeeOps j) hx hy (sample_finite i hi).1 (sample_finite j hj).2
    have hd : displacement_over_r ieeeOps (s.charges c) (sample_x ieeeOps i)
        (sample_y ieeeOps j) = (Fl.fin false 0 0, Fl.fin false 0 0) := by
      unfold displacement_over_r
      rw [hdx, hdy, hr]
      decide!
    refine ⟨hd, ?_, ?_⟩
    · rw [hd]
      norm_num [Fl.toRat]
    · intro hE
      obtain ⟨-, -, -, -, h1, h2⟩ := coincident_raw (s.charges c) (sample_x ieeeOps i)
        (sample_y ieeeOps j) hx hy (sample_finite i hi).1 (sample_finite j hj).2 hE
      have e0 : (raw_term ieeeOps (s.charges c) (sample_x ieeeOps i)
            (sample_y ieeeOps j)).1.toRat ^ 2 +
          (raw_term ieeeOps (s.charges c) (sample_x ieeeOps i) (sample_y ieeeOps j)).2.toRat ^ 2
          = 0 := by
        rw [toRat_zero _ h1, toRat_zero _ h2]
        norm_num
      refine ⟨e0, ?_⟩
      intro hz
      rw [e0]
      exact (pow_ne_zero 2 (toRat_ne_zero _ hE hz)).symm

/-- C13 amended, after `set_charges(0.25, 0.5, 1, 0.75, 0.5, -1)` from the initial state,
for charge 0 at cell `(5, 10)`, whose sample point is the position of the charge: there
`E = 89875512557568` and the contribution is `(0, 0)`. -/
theorem softened_displacement_witness :
    displacement_over_r ieeeOps
        ⟨Fl.fin false 8388608 (-25), Fl.fin false 8388608 (-24), Fl.fin false 8388608 (-23)⟩
        (sample_x ieeeOps 5) (sample_y ieeeOps 10)
      = (Fl.fin false 0 0, Fl.fin false 0 0) ∧
    term_E ieeeOps
        ⟨Fl.fin false 8388608 (-25), Fl.fin false 8388608 (-24), Fl.fin false 8388608 (-23)⟩
        (sample_x ieeeOps 5) (sample_y ieeeOps 10) = Fl.fin false 10713996 23 ∧
    (raw_term ieeeOps
        ⟨Fl.fin false 8388608 (-25), Fl.fin false 8388608 (-24), Fl.fin false 8388608 (-23)⟩
        (sample_x ieeeOps 5) (sample_y ieeeOps 10)).1.toRat ^ 2 +
      (raw_term ieeeOps
        ⟨Fl.fin false 8388608 (-25), Fl.fin false 8388608 (-24), Fl.fin false 8388608 (-23)⟩
        (sample_x ieeeOps 5) (sample_y ieeeOps 10)).2.toRat ^ 2 = 0 := by
  obtain ⟨h0, -, hf⟩ := set_charges_eq (init_state ieeeOps) (Fl.fin false 8388608 (-25))
    (Fl.fin false 8388608 (-24)) (Fl.fin false 8388608 (-23))
    (Fl.fin false 12582912 (-24)) (Fl.fin false 8388608 (-24)) (Fl.fin true 8388608 (-23))
  obtain ⟨-, -, -, hco⟩ := softened_displacement
    (set_charges (init_state ieeeOps) (Fl.fin false 8388608 (-25))
      (Fl.fin false 8388608 (-24)) (Fl.fin false 8388608 (-23))
      (Fl.fin false 12582912 (-24)) (Fl.fin false 8388608 (-24)) (Fl.fin true 8388608 (-23)))
    (by rw [hf]; exact init_state_length ieeeOps) 0 5 10 (by decide) (by decide)
  rw [h0] at hco
  obtain ⟨hd, -, hraw⟩ := hco (by decide!) (by decide!)
  exact ⟨hd, by decide!, (hraw (by decide!)).1⟩

/-! ## Binary32: the term of a charge on a sample point -/

/-- The claim C15 refuted in binary32: the charge `(0.25, 0.5, 2^84)` sits on the
sample point of cell `(5, 10)`, yet its term there is `(NaN, NaN)`, not `(0, 0)`:
`E = k*q/r2` overflows to `+inf` and `E*dx` is `inf*0`. -/
theorem coincident_charge_counterexample :
    (⟨Fl.fin false 8388608 (-25), Fl.fin false 8388608 (-24), Fl.fin false 8388608 61⟩ :
        Charge Fl).x = sample_x ieeeOps 5 ∧
    (⟨Fl.fin false 8388608 (-25), Fl.fin false 8388608 (-24), Fl.fin false 8388608 61⟩ :
        Charge Fl).y = sample_y ieeeOps 10 ∧
    term_E ieeeOps
        ⟨Fl.fin false 8388608 (-25), Fl.fin false 8388608 (-24), Fl.fin false 8388608 61⟩
        (sample_x ieeeOps 5) (sample_y ieeeOps 10) = Fl.inf false ∧
    ¬ (charge_term ieeeOps
        ⟨Fl.fin false 8388608 (-25), Fl.fin false 8388608 (-24), Fl.fin false 8388608 61⟩
        (sample_x ieeeOps 5) (sample_y ieeeOps 10) = (ieeeOps.zero, ieeeOps.zero)) := by
  refine ⟨by decide!, by decide!, by decide!, by decide!⟩

/-- C15, amended: in binary32 arithmetic, for every state with the 800-slot buffer,
every cell `(i, j)` of the grid and every charge whose position is the cell's sample
point, `dx = dy = 0`; `E = k*q/r2` at the cell is finite whenever `|q| <= 2^64`; and
whenever `E` is finite (no overflow) the charge's term at the cell is exactly `(0, 0)`
and the value `compute_field` stores for the cell is the term of the other charge
alone. -/
theorem coincident_charge_contributes_zero (s : State Fl) (hlen : s.field.length = 800)
    (i j : Nat) (hi : i < 20) (hj : j < 20) (c : Fin 2)
    (hx : (s.charges c).x = sample_x ieeeOps i) (hy : (s.charges c).y = sample_y ieeeOps j) :
    term_dx ieeeOps (s.charges c) (sample_x ieeeOps i) = ieeeOps.zero ∧
    term_dy ieeeOps (s.charges c) (sample_y ieeeOps j) = ieeeOps.zero ∧
    (Fl.abs_le (s.charges c).q ((2 : ℚ) ^ (64 : Int)) →
      (term_E ieeeOps (s.charges c) (sample_x ieeeOps i) (sample_y ieeeOps j)).is_finite
        = true) ∧
    ((term_E ieeeOps (s.charges c) (sample_x ieeeOps i) (sample_y ieeeOps j)).is_finite
        = true →
      charge_term ieeeOps (s.charges c) (sample_x ieeeOps i) (sample_y ieeeOps j) =
        (ieeeOps.zero, ieeeOps.zero) ∧
      ∃ t, compute_field ieeeOps s = some t ∧
        ∀ c' : Fin 2, c' ≠ c →
          stored_at t i j
            (charge_term ieeeOps (s.charges c') (sample_x ieeeOps i) (sample_y ieeeOps j))) := by
  obtain ⟨hdx, hdy, -, -⟩ := coincident_divisors (s.charges c) (sample_x ieeeOps i)
    (sample_y ieeeOps j) hx hy (sample_finite i hi).1 (sample_finite j hj).2
  refine ⟨hdx, hdy, ?_, ?_⟩
  · intro hq
    exact term_E_finite _ _ _ hq (by rw [hx]; exact (sample_finite i hi).1)
      (by rw [hy]; exact (sample_finite j hj).2) (sample_finite i hi).1 (sample_finite j hj).2
  · intro hE
    obtain ⟨-, -, -, -, h1, h2⟩ := coincident_raw (s.charges c) (sample_x ieeeOps i)
      (sample_y ieeeOps j) hx hy (sample_finite i hi).1 (sample_finite j hj).2 hE
    obtain ⟨t, e⟩ := compute_field_returns ieeeOps s hlen
    refine ⟨charge_term_zero_of_raw _ _ _ h1 h2, t, e, ?_⟩
    intro c' hne
    rw [← cell_value_other_ieee s.charges i j c c' hne h1 h2]
    exact compute_field_stored ieeeOps s t hlen e i j hi hj

/-- C15 amended, at cell `(5, 10)` after `set_charges(0.25, 0.5, 1, 0.75, 0.5, -1)`
from the initial state: charge 0 sits on the sample point, `|q| = 1`, and the cell holds
the term of charge 1, `(35928645632, 0)`. -/
theorem coincident_charge_contributes_zero_witness :
    ∃ t, compute_field ieeeOps
        (set_charges (init_state ieeeOps) (Fl.fin false 8388608 (-25))
          (Fl.fin false 8388608 (-24)) (Fl.fin false 8388608 (-23))
          (Fl.fin false 12582912 (-24)) (Fl.fin false 8388608 (-24))
          (Fl.fin true 8388608 (-23))) = some t ∧
      stored_at t 5 10 (Fl.fin false 8771642 12, Fl.fin false 0 0) := by
  obtain ⟨h0, h1, hf⟩ := set_charges_eq (init_state ieeeOps) (Fl.fin false 8388608 (-25))
    (Fl.fin false 8388608 (-24)) (Fl.fin false 8388608 (-23))
    (Fl.fin false 12582912 (-24)) (Fl.fin false 8388608 (-24)) (Fl.fin true 8388608 (-23))
  obtain ⟨-, -, hfin, hzero⟩ := coincident_charge_contributes_zero
    (set_charges (init_state ieeeOps) (Fl.fin false 8388608 (-25))
      (Fl.fin false 8388608 (-24)) (Fl.fin false 8388608 (-23))
      (Fl.fin false 12582912 (-24)) (Fl.fin false 8388608 (-24)) (Fl.fin true 8388608 (-23)))
    (by rw [hf]; exact init_state_length ieeeOps) 5 10 (by decide) (by decide) 0
    (by rw [h0]; decide!) (by rw [h0]; decide!)
  obtain ⟨-, t, e, h⟩ := hzero (hfin (by rw [h0]; exact below_pow2_abs_le _ 64 (by decide)))
  refine ⟨t, e, ?_⟩
  have h' := h 1 (by decide)
  rw [h1] at h'
  have hv : charge_term ieeeOps
      ⟨Fl.fin false 12582912 (-24), Fl.fin false 8388608 (-24), Fl.fin true 8388608 (-23)⟩
      (sample_x ieeeOps 5) (sample_y ieeeOps 10) = (Fl.fin false 8771642 12, Fl.fin false 0 0) := by
    decide!
  rw [hv] at h'
  exact h'

/-! ## Binary32: the bound on the stored field -/

/-- The claim C16 refuted in binary32: after `set_charges(0.26f, 0.51f, 2^84, 0.75, 0.5,
0)` from the initial state, all inputs finite, `E = k*q/r2` overflows to `+inf` at cell
`(5, 10)` and the stored pair is `(-inf, -inf)`, which no finite bound dominates. -/
theorem bounded_output_counterexample :
    ∃ t, compute_field ieeeOps
        (set_charges (init_state ieeeOps) (Fl.fin false 8724152 (-25))
          (Fl.fin false 8556380 (-24)) (Fl.fin false 8388608 61)
          (Fl.fin false 12582912 (-24)) (Fl.fin false 8388608 (-24))
          (Fl.fin false 0 0)) = some t ∧
      stored_at t 5 10 (Fl.inf true, Fl.inf true) ∧
      term_E ieeeOps
        ⟨Fl.fin false 8724152 (-25), Fl.fin false 8556380 (-24), Fl.fin false 8388608 61⟩
        (sample_x ieeeOps 5) (sample_y ieeeOps 10) = Fl.inf false ∧
      (Fl.inf true).is_finite = false ∧
      ¬ ∃ c : ℚ, Fl.abs_le (Fl.inf true) c := by
  obtain ⟨t, e, h⟩ := stored_after_set_charges ieeeOps (init_state ieeeOps)
    (init_state_length ieeeOps) (Fl.fin false 8724152 (-25))
    (Fl.fin false 8556380 (-24)) (Fl.fin false 8388608 61)
    (Fl.fin false 12582912 (-24)) (Fl.fin false 8388608 (-24)) (Fl.fin false 0 0)
  have hs := h 5 10 (by decide) (by decide)
  have hv : charge_step ieeeOps
      ⟨Fl.fin false 12582912 (-24), Fl.fin false 8388608 (-24), Fl.fin false 0 0⟩
      (sample_x ieeeOps 5) (sample_y ieeeOps 10)
      (charge_step ieeeOps
        ⟨Fl.fin false 8724152 (-25), Fl.fin false 8556380 (-24), Fl.fin false 8388608 61⟩
        (sample_x ieeeOps 5) (sample_y ieeeOps 10) (ieeeOps.zero, ieeeOps.zero))
      = (Fl.inf true, Fl.inf true) := by decide!
  rw [hv] at hs
  refine ⟨t, e, hs, by decide!, rfl, ?_⟩
  rintro ⟨c, s, m, e', h', -⟩
  simp at h'

/-- C16, amended: in binary32 arithmetic, for every `b <= 64` and every state with the
800-slot buffer whose two charges have coordinates of absolute value at most `2^64` and
magnitudes of absolute value at most `2^b`, `compute_field` returns and both components
stored for every cell are finite and at most `(float)k * 2^(b + 16)
= 8776905 * 2^(b + 26)` in absolute value, where `(float)k = 8987550720`. -/
theorem bounded_output (s : State Fl) (hlen : s.field.length = 800) (b : Nat) (hb : b ≤ 64)
    (hx : ∀ c, Fl.abs_le (s.charges c).x ((2 : ℚ) ^ (64 : Int)))
    (hy : ∀ c, Fl.abs_le (s.charges c).y ((2 : ℚ) ^ (64 : Int)))
    (hq : ∀ c, Fl.abs_le (s.charges c).q ((2 : ℚ) ^ (b : Int))) :
    ∃ t, compute_field ieeeOps s = some t ∧
      ∀ i j, i < 20 → j < 20 →
        ∃ v, stored_at t i j v ∧ v.1.is_finite = true ∧ v.2.is_finite = true ∧
          Fl.abs_le v.1 ((8776905 : ℚ) * (2 : ℚ) ^ ((b : Int) + 26)) ∧
          Fl.abs_le v.2 ((8776905 : ℚ) * (2 : ℚ) ^ ((b : Int) + 26)) := by
  obtain ⟨t, e⟩ := compute_field_returns ieeeOps s hlen
  refine ⟨t, e, ?_⟩
  intro i j hi hj
  obtain ⟨c1, c2⟩ := cell_value_le s.charges b hb hx hy hq i j hi hj
  exact ⟨_, compute_field_stored ieeeOps s t hlen e i j hi hj, abs_le_finite _ _ c1,
    abs_le_finite _ _ c2, c1, c2⟩

/-- C16 amended, after `set_charges(0.25, 0.5, 1, 0.75, 0.5, -1)` from the initial state,
with `b = 0`: every stored component is finite and at most `8776905 * 2^26` in absolute
value. -/
theorem bounded_output_witness :
    ∃ t, compute_field ieeeOps
        (set_charges (init_state ieeeOps) (Fl.fin false 8388608 (-25))
          (Fl.fin false 8388608 (-24)) (Fl.fin false 8388608 (-23))
          (Fl.fin false 12582912 (-24)) (Fl.fin false 8388608 (-24))
          (Fl.fin true 8388608 (-23))) = some t ∧
      ∀ i j, i < 20 → j < 20 →
        ∃ v, stored_at t i j v ∧ v.1.is_finite = true ∧ v.2.is_finite = true ∧
          Fl.abs_le v.1 ((8776905 : ℚ) * (2 : ℚ) ^ (((0 : Nat) : Int) + 26)) ∧
          Fl.abs_le v.2 ((8776905 : ℚ) * (2 : ℚ) ^ (((0 : Nat) : Int) + 26)) := by
  obtain ⟨h0, h1, hf⟩ := set_charges_eq (init_state ieeeOps) (Fl.fin false 8388608 (-25))
    (Fl.fin false 8388608 (-24)) (Fl.fin false 8388608 (-23))
    (Fl.fin false 12582912 (-24)) (Fl.fin false 8388608 (-24)) (Fl.fin true 8388608 (-23))
  have hc : ∀ c : Fin 2, c = 0 ∨ c = 1 := by
    intro c
    fin_cases c <;> simp
  apply bounded_output _ (by rw [hf]; exact init_state_length ieeeOps) 0 (by decide)
  · intro c
    rcases hc c with rfl | rfl
    · rw [h0]; exact below_pow2_abs_le _ 64 (by decide)
    · rw [h1]; exact below_pow2_abs_le _ 64 (by decide)
  · intro c
    rcases hc c with rfl | rfl
    · rw [h0]; exact below_pow2_abs_le _ 64 (by decide)
    · rw [h1]; exact below_pow2_abs_le _ 64 (by decide)
  · intro c
    rcases hc c with rfl | rfl
    · rw [h0]; exact ⟨false, 8388608, -23, rfl, by norm_num⟩
    · rw [h1]; exact ⟨true, 8388608, -23, rfl, by norm_num⟩

/-! ## Binary32: the direction of the stored field -/

/-- The claim C17 refuted in binary32: after `set_charges(0.25, 0.5, 1, 0.75, 0.5, 0)`
the value stored for cell `(3, 7)` is `(-152691523584, -229037293568)`; it is not a
scalar multiple of the displacement `(dx, dy)` the code computes, nor of the exact
displacement `(3/20 - 1/4, 7/20 - 1/2)`: the two components are rounded separately.
And after `set_charges(1e20f, 7, 1, 0, 0, 0)` the value stored for cell `(3, 7)` is
`(0, 0)` although `q > 0` and the displacement is not zero: `dx*dx` overflows, `r2` is
`+inf` and `E = k*q/r2` is 0. -/
theorem repulsion_attraction_counterexample :
    (∃ t, compute_field ieeeOps
        (set_charges (init_state ieeeOps) (Fl.fin false 8388608 (-25))
          (Fl.fin false 8388608 (-24)) (Fl.fin false 8388608 (-23))
          (Fl.fin false 12582912 (-24)) (Fl.fin false 8388608 (-24))
          (Fl.fin false 0 0)) = some t ∧
      stored_at t 3 7 (Fl.fin true 9319551 14, Fl.fin true 13979327 14) ∧
      term_dx ieeeOps
        ⟨Fl.fin false 8388608 (-25), Fl.fin false 8388608 (-24), Fl.fin false 8388608 (-23)⟩
        (sample_x ieeeOps 3) = Fl.fin true 13421772 (-27) ∧
      term_dy ieeeOps
        ⟨Fl.fin false 8388608 (-25), Fl.fin false 8388608 (-24), Fl.fin false 8388608 (-23)⟩
        (sample_y ieeeOps 7) = Fl.fin true 10066330 (-26) ∧
      (¬ ∃ σ : ℚ, (Fl.fin true 9319551 14).toRat = σ * (Fl.fin true 13421772 (-27)).toRat ∧
        (Fl.fin true 13979327 14).toRat = σ * (Fl.fin true 10066330 (-26)).toRat) ∧
      (¬ ∃ σ : ℚ, (Fl.fin true 9319551 14).toRat = σ * (3 / 20 - 1 / 4) ∧
        (Fl.fin true 13979327 14).toRat = σ * (7 / 20 - 1 / 2))) ∧
    (∃ t, compute_field ieeeOps
        (set_charges (init_state ieeeOps) (Fl.fin false 11368684 43)
          (Fl.fin false 14680064 (-21)) (Fl.fin false 8388608 (-23))
          (Fl.fin false 0 0) (Fl.fin false 0 0) (Fl.fin false 0 0)) = some t ∧
      stored_at t 3 7 (Fl.fin false 0 0, Fl.fin false 0 0) ∧
      term_dx ieeeOps
        ⟨Fl.fin false 11368684 43, Fl.fin false 14680064 (-21), Fl.fin false 8388608 (-23)⟩
        (sample_x ieeeOps 3) = Fl.fin true 11368684 43 ∧
      term_E ieeeOps
        ⟨Fl.fin false 11368684 43, Fl.fin false 14680064 (-21), Fl.fin false 8388608 (-23)⟩
        (sample_x ieeeOps 3) (sample_y ieeeOps 7) = Fl.fin false 0 0) := by
  constructor
  · obtain ⟨t, e, h⟩ := stored_after_set_charges ieeeOps (init_state ieeeOps)
      (init_state_length ieeeOps) (Fl.fin false 8388608 (-25))
      (Fl.fin false 8388608 (-24)) (Fl.fin false 8388608 (-23))
      (Fl.fin false 12582912 (-24)) (Fl.fin false 8388608 (-24)) (Fl.fin false 0 0)
    have hs := h 3 7 (by decide) (by decide)
    have hv : charge_step ieeeOps
        ⟨Fl.fin false 12582912 (-24), Fl.fin false 8388608 (-24), Fl.fin false 0 0⟩
        (sample_x ieeeOps 3) (sample_y ieeeOps 7)
        (charge_step ieeeOps
          ⟨Fl.fin false 8388608 (-25), Fl.fin false 8388608 (-24), Fl.fin false 8388608 (-23)⟩
          (sample_x ieeeOps 3) (sample_y ieeeOps 7) (ieeeOps.zero, ieeeOps.zero))
        = (Fl.fin true 9319551 14, Fl.fin true 13979327 14) := by decide!
    rw [hv] at hs
    refine ⟨t, e, hs, by decide!, by decide!, ?_, ?_⟩
    · rintro ⟨σ, h1, h2⟩
      have h3 : (Fl.fin true 9319551 14).toRat * (Fl.fin true 10066330 (-26)).toRat =
          (Fl.fin true 13979327 14).toRat * (Fl.fin true 13421772 (-27)).toRat := by
        rw [h1, h2]; ring
      norm_num [Fl.toRat] at h3
    · rintro ⟨σ, h1, h2⟩
      have h3 : (Fl.fin true 9319551 14).toRat * (7 / 20 - 1 / 2) =
          (Fl.fin true 13979327 14).toRat * (3 / 20 - 1 / 4) := by
        rw [h1, h2]; ring
      norm_num [Fl.toRat] at h3
  · obtain ⟨t, e, h⟩ := stored_after_set_charges ieeeOps (init_state ieeeOps)
      (init_state_length ieeeOps) (Fl.fin false 11368684 43)
      (Fl.fin false 14680064 (-21)) (Fl.fin false 8388608 (-23))
      (Fl.fin false 0 0) (Fl.fin false 0 0) (Fl.fin false 0 0)
    have hs := h 3 7 (by decide) (by decide)
    have hv : charge_step ieeeOps
        ⟨Fl.fin false 0 0, Fl.fin false 0 0, Fl.fin false 0 0⟩
        (sample_x ieeeOps 3) (sample_y ieeeOps 7)
        (charge_step ieeeOps
          ⟨Fl.fin false 11368684 43, Fl.fin false 14680064 (-21), Fl.fin false 8388608 (-23)⟩
          (sample_x ieeeOps 3) (sample_y ieeeOps 7) (ieeeOps.zero, ieeeOps.zero))
        = (Fl.fin false 0 0, Fl.fin false 0 0) := by decide!
    rw [hv] at hs
    exact ⟨t, e, hs, by decide!, by decide!⟩

/-- C17, amended: in binary32 arithmetic, for every state with the 800-slot buffer in
which one charge has a zero magnitude, `compute_field` returns and each component of the
value stored for every cell is a NaN, a zero, or a number whose sign is the product of
the signs of the other charge's `q` and of its displacement component (`dx` for the
x-component, `dy` for the y-component): component by component the stored vector
points away from a positive charge and towards a negative one.  When the coordinates
and magnitudes of both charges are at most `2^64` in absolute value the components are
finite, so none is a NaN. -/
theorem repulsion_attraction (s : State Fl) (hlen : s.field.length = 800) (c c' : Fin 2)
    (hne : c' ≠ c) (hq : (s.charges c').q.is_zero = true) :
    ∃ t, compute_field ieeeOps s = some t ∧
      ∀ i j, i < 20 → j < 20 →
        ∃ v, stored_at t i j v ∧
          Fl.sign_agrees v.1 (s.charges c).q (term_dx ieeeOps (s.charges c) (sample_x ieeeOps i)) ∧
          Fl.sign_agrees v.2 (s.charges c).q
            (term_dy ieeeOps (s.charges c) (sample_y ieeeOps j)) ∧
          ((∀ d, Fl.abs_le (s.charges d).x ((2 : ℚ) ^ (64 : Int))) →
            (∀ d, Fl.abs_le (s.charges d).y ((2 : ℚ) ^ (64 : Int))) →
            (∀ d, Fl.abs_le (s.charges d).q ((2 : ℚ) ^ (64 : Int))) →
            v.1.is_finite = true ∧ v.2.is_finite = true) := by
  obtain ⟨t, e⟩ := compute_field_returns ieeeOps s hlen
  refine ⟨t, e, ?_⟩
  intro i j hi hj
  refine ⟨_, compute_field_stored ieeeOps s t hlen e i j hi hj, ?_⟩
  have hfin : (∀ d, Fl.abs_le (s.charges d).x ((2 : ℚ) ^ (64 : Int))) →
      (∀ d, Fl.abs_le (s.charges d).y ((2 : ℚ) ^ (64 : Int))) →
      (∀ d, Fl.abs_le (s.charges d).q ((2 : ℚ) ^ (64 : Int))) →
      (cell_value ieeeOps s.charges i j).1.is_finite = true ∧
      (cell_value ieeeOps s.charges i j).2.is_finite = true := by
    intro bx bY bq
    obtain ⟨c1, c2⟩ := cell_value_le s.charges 64 (by decide) bx bY bq i j hi hj
    exact ⟨abs_le_finite _ _ c1, abs_le_finite _ _ c2⟩
  obtain ⟨z1, z2⟩ := raw_term_inert (s.charges c') (sample_x ieeeOps i) (sample_y ieeeOps j) hq
  obtain ⟨g1, g2⟩ := raw_term_sign (s.charges c) (sample_x ieeeOps i) (sample_y ieeeOps j)
  refine ⟨?_, ?_, hfin⟩
  all_goals rw [cell_value_eq_steps, charge_step_eq, charge_step_eq]
  all_goals have hc : c = 0 ∨ c = 1 := by fin_cases c <;> simp
  all_goals have hc' : c' = 0 ∨ c' = 1 := by fin_cases c' <;> simp
  · rcases hc with rfl | rfl <;> rcases hc' with rfl | rfl
    · exact absurd rfl hne
    · exact sign_agrees_of _ _ _ _ g1 (add_active_inert binary32 _ _ z1).1
    · exact sign_agrees_of _ _ _ _ g1 (add_active_inert binary32 _ _ z1).2
    · exact absurd rfl hne
  · rcases hc with rfl | rfl <;> rcases hc' with rfl | rfl
    · exact absurd rfl hne
    · exact sign_agrees_of _ _ _ _ g2 (add_active_inert binary32 _ _ z2).1
    · exact sign_agrees_of _ _ _ _ g2 (add_active_inert binary32 _ _ z2).2
    · exact absurd rfl hne

/-- C17 amended, after `set_charges(0.25, 0.5, 1, 0.75, 0.5, 0)` from the initial state,
at cell `(3, 7)`: the stored vector `(-152691523584, -229037293568)` has negative
components, as the displacement from the positive charge to the sample point has. -/
theorem repulsion_attraction_witness :
    ∃ t, compute_field ieeeOps
        (set_charges (init_state ieeeOps) (Fl.fin false 8388608 (-25))
          (Fl.fin false 8388608 (-24)) (Fl.fin false 8388608 (-23))
          (Fl.fin false 12582912 (-24)) (Fl.fin false 8388608 (-24))
          (Fl.fin false 0 0)) = some t ∧
      stored_at t 3 7 (Fl.fin true 9319551 14, Fl.fin true 13979327 14) ∧
      Fl.sign_agrees (Fl.fin true 9319551 14) (Fl.fin false 8388608 (-23))
        (Fl.fin true 13421772 (-27)) ∧
      Fl.sign_agrees (Fl.fin true 13979327 14) (Fl.fin false 8388608 (-23))
        (Fl.fin true 10066330 (-26)) := by
  obtain ⟨h0, h1, hf⟩ := set_charges_eq (init_state ieeeOps) (Fl.fin false 8388608 (-25))
    (Fl.fin false 8388608 (-24)) (Fl.fin false 8388608 (-23))
    (Fl.fin false 12582912 (-24)) (Fl.fin false 8388608 (-24)) (Fl.fin false 0 0)
  obtain ⟨t, e, h⟩ := repulsion_attraction
    (set_charges (init_state ieeeOps) (Fl.fin false 8388608 (-25))
      (Fl.fin false 8388608 (-24)) (Fl.fin false 8388608 (-23))
      (Fl.fin false 12582912 (-24)) (Fl.fin false 8388608 (-24)) (Fl.fin false 0 0))
    (by rw [hf]; exact init_state_length ieeeOps) 0 1 (by decide) (by rw [h1]; rfl)
  obtain ⟨t2, e2, h2⟩ := stored_after_set_charges ieeeOps (init_state ieeeOps)
    (init_state_length ieeeOps) (Fl.fin false 8388608 (-25))
    (Fl.fin false 8388608 (-24)) (Fl.fin false 8388608 (-23))
    (Fl.fin false 12582912 (-24)) (Fl.fin false 8388608 (-24)) (Fl.fin false 0 0)
  have ht : t = t2 := Option.some.inj (e.symm.trans e2)
  subst ht
  obtain ⟨v, hv, a1, a2, -⟩ := h 3 7 (by decide) (by decide)
  rw [h0] at a1 a2
  have hdx : term_dx ieeeOps
      ⟨Fl.fin false 8388608 (-25), Fl.fin false 8388608 (-24), Fl.fin false 8388608 (-23)⟩
      (sample_x ieeeOps 3) = Fl.fin true 13421772 (-27) := by decide!
  have hdy : term_dy ieeeOps
      ⟨Fl.fin false 8388608 (-25), Fl.fin false 8388608 (-24), Fl.fin false 8388608 (-23)⟩
      (sample_y ieeeOps 7) = Fl.fin true 10066330 (-26) := by decide!
  rw [hdx] at a1
  rw [hdy] at a2
  have sv := h2 3 7 (by decide) (by decide)
  have cv : charge_step ieeeOps
      ⟨Fl.fin false 12582912 (-24), Fl.fin false 8388608 (-24), Fl.fin false 0 0⟩
      (sample_x ieeeOps 3) (sample_y ieeeOps 7)
      (charge_step ieeeOps
        ⟨Fl.fin false 8388608 (-25), Fl.fin false 8388608 (-24), Fl.fin false 8388608 (-23)⟩
        (sample_x ieeeOps 3) (sample_y ieeeOps 7) (ieeeOps.zero, ieeeOps.zero))
      = (Fl.fin true 9319551 14, Fl.fin true 13979327 14) := by decide!
  rw [cv] at sv
  have hvv := stored_at_unique t 3 7 _ _ hv sv
  rw [hvv] at a1 a2
  exact ⟨t, e, sv, a1, a2⟩

end WASMDeck3D
